import Mathlib

/-!
# CIC filter (cic_filter.c): shallow embedding and verification

Modelling conventions.

* `cic_t` is `int32_t` (test/cic_config.h).  Samples are `Int`; every `+=` and
  `-=` on a `cic_t` is followed by `wrap32`, the two's-complement wrap-around
  into `[-2^31, 2^31)`.
* `size_t` indices, lengths and counters are `Nat`: index arithmetic
  (`len * R`, `i += r`, `s + mpos`) is taken not to overflow, and `m - 1` is
  the truncated subtraction, which is the C value for `M ≥ 1`.  The one place
  where `size_t` products overflow for ordinary parameters, `cic_pow`, wraps
  them at `2^64` explicitly.
* A sample buffer `cic_t *buf` is a `List Int`; reading `buf[i]` is
  `getD i 0`, the assignment `buf[i] = v` is `set i v`.  Every loop keeps the
  index order of the C code, so the in-place behaviour is preserved.  Loops
  whose step is a variable (`i += r`, `s += m`) carry an iteration bound that
  suffices whenever the step is positive.
* `x / 0` and `INT32_MIN / -1` are undefined in C; the model follows
  `Int.tdiv` there.
-/

namespace CIC

/-! ## The program -/

/-- Conversion of an integer to `int32_t`: wrap-around into `[-2^31, 2^31)`. -/
def wrap32 (x : Int) : Int := (x + 2147483648) % 4294967296 - 2147483648

/-- Conversion of a `cic_t` to `size_t` (64 bit): reduction modulo `2^64`. -/
def toSize (x : Int) : Nat := (x % 18446744073709551616).toNat

/-- The `struct cic_filter` of cic_filter.h. -/
structure cic_filter where
  N : Nat
  M : Nat
  mpos : Nat
  R : Nat
  cnt : Nat
  delay : List Int
  to_free : Bool
  normalize : Bool
  ddiv : Int
  idiv : Int
deriving DecidableEq

/-- Inner loop of `cic_integrate`:
`for (s = 0; s < N; s++) { sum += delay[s]; delay[s] = sum; }`. -/
def integrate_stages (N : Nat) (delay : List Int) (sum : Int) : List Int × Int :=
  (List.range N).foldl
    (fun (st : List Int × Int) s =>
      let sum := wrap32 (st.2 + st.1.getD s 0)
      (st.1.set s sum, sum))
    (delay, sum)

/-- The function `cic_integrate`: for every `i < len`, `buf[i]` is run through
the `N` accumulators `delay[0..N-1]`. -/
def cic_integrate (p : cic_filter) (buf : List Int) (len : Nat) : cic_filter × List Int :=
  let r := (List.range len).foldl
    (fun (st : List Int × List Int) i =>
      let q := integrate_stages p.N st.1 (st.2.getD i 0)
      (q.1, st.2.set i q.2))
    (p.delay, buf)
  ({ p with delay := r.1 }, r.2)

/-- Inner loop of `cic_comb`:
`for (s = 0; s < slen; s += m) { dv = delay[s + mpos]; delay[s + mpos] = sum; sum -= dv; }`
where `delay` is `&p->delay[off]`.  The first argument bounds the number of
iterations. -/
def comb_stages (off m slen mpos : Nat) : Nat → Nat → List Int → Int → List Int × Int
  | 0, _, delay, sum => (delay, sum)
  | fuel + 1, s, delay, sum =>
    if s < slen then
      let dv := delay.getD (off + (s + mpos)) 0
      comb_stages off m slen mpos fuel (s + m) (delay.set (off + (s + mpos)) sum) (wrap32 (sum - dv))
    else (delay, sum)

/-- The function `cic_comb`. The tap position is toggled by `mpos ^= mx` after
every sample and written back after the block. -/
def cic_comb (p : cic_filter) (buf : List Int) (len : Nat) : cic_filter × List Int :=
  let m := p.M
  let mx := m - 1
  let slen := p.N * m
  let r := (List.range len).foldl
    (fun (st : (List Int × Nat) × List Int) i =>
      let q := comb_stages p.N m slen st.1.2 slen 0 st.1.1 (st.2.getD i 0)
      ((q.1, st.1.2 ^^^ mx), st.2.set i q.2))
    ((p.delay, p.mpos), buf)
  ({ p with delay := r.1.1, mpos := r.1.2 }, r.2)

/-- Loop of `cic_rate_down`: `for (i = cnt; i < len; i += r) buf[j++] = buf[i];`
returning the final `i`, `j` and buffer.  The first argument bounds the number
of iterations. -/
def rate_down_loop (r len : Nat) : Nat → Nat → Nat → List Int → Nat × Nat × List Int
  | 0, i, j, buf => (i, j, buf)
  | fuel + 1, i, j, buf =>
    if i < len then rate_down_loop r len fuel (i + r) (j + 1) (buf.set j (buf.getD i 0))
    else (i, j, buf)

/-- The function `cic_rate_down`: returns the new state, the buffer and the
number of valid output samples. -/
def cic_rate_down (p : cic_filter) (buf : List Int) (len : Nat) :
    cic_filter × List Int × Nat :=
  let q := rate_down_loop p.R len len p.cnt 0 buf
  ({ p with cnt := q.1 - len }, q.2.2, q.2.1)

/-- Inner loop of `cic_rate_up`: `for (ins = 1; ins < r; ins++) buf[j + ins] = 0;`. -/
def rate_up_fill (r j : Nat) (buf : List Int) : List Int :=
  (List.range' 1 (r - 1)).foldl (fun b ins => b.set (j + ins) 0) buf

/-- Outer loop of `cic_rate_up`: `for (i = len; i > 0; i--) { buf[j] = buf[i - 1]; ...; j -= r; }`. -/
def rate_up_loop (r : Nat) : Nat → Nat → List Int → List Int
  | 0, _, buf => buf
  | i + 1, j, buf => rate_up_loop r i (j - r) (rate_up_fill r j (buf.set j (buf.getD i 0)))

/-- The function `cic_rate_up`: returns the buffer and the number of valid
output samples (`0` when the buffer is too small). -/
def cic_rate_up (p : cic_filter) (buf : List Int) (buf_len len : Nat) : List Int × Nat :=
  let r := p.R
  let rlen := len * r
  if buf_len < rlen then (buf, 0)
  else (rate_up_loop r len (rlen - r) buf, rlen)

/-- Loop of `cic_pow`; `result` is a `cic_t`, `base` and `exp` are `size_t`.
The first argument bounds the number of iterations. -/
def cic_pow_loop : Nat → Int → Nat → Nat → Int
  | 0, result, _, _ => result
  | fuel + 1, result, base, exp =>
    let result :=
      if exp % 2 = 1 then wrap32 ((toSize result * base % 18446744073709551616 : Nat) : Int)
      else result
    if exp / 2 = 0 then result
    else cic_pow_loop fuel result (base * base % 18446744073709551616) (exp / 2)

/-- The function `cic_pow`. -/
def cic_pow (base exp : Nat) : Int := cic_pow_loop (exp + 1) 1 base exp

/-- The function `cic_normalize`: `buf[i] /= div` for `i < len`. -/
def cic_normalize (buf : List Int) (len : Nat) (div : Int) : List Int :=
  (List.range len).foldl (fun b i => b.set i ((b.getD i 0).tdiv div)) buf

/-- The function `cic_filter_init` (with `CIC_MALLOC`).  `delay = none` is the
NULL pointer; `cic_malloc n` is the allocator asked for `n` samples, `none` when
it fails.  The result `none` is the return value `-1`, and `some p` is the
return value `0` with the initialised struct: `bzero` clears the struct and the
first `N + N * M` samples of the delay buffer. -/
def cic_filter_init (N M R : Nat) (delay : Option (List Int)) (normalize : Bool)
    (cic_malloc : Nat → Option (List Int)) : Option cic_filter :=
  let delay_len := N + N * M
  let d := match delay with
    | none => (cic_malloc delay_len, true)
    | some b => (some b, false)
  match d.1 with
  | none => none
  | some b =>
    some
      { N := N, M := M, mpos := 0, R := R, cnt := 0
        delay := List.replicate delay_len 0 ++ b.drop delay_len
        to_free := d.2
        normalize := normalize
        ddiv := if normalize then cic_pow (R * M) N else 0
        idiv := if normalize then wrap32 ((toSize (cic_pow (R * M) N) / R : Nat) : Int) else 0 }

/-- The function `cic_filter_decimate`: returns the new state, the buffer and
the number of valid output samples. -/
def cic_filter_decimate (p : cic_filter) (buf : List Int) (len : Nat) :
    cic_filter × List Int × Nat :=
  let a := cic_integrate p buf len
  let b := cic_rate_down a.1 a.2 len
  let c := cic_comb b.1 b.2.1 b.2.2
  (c.1, if c.1.normalize then cic_normalize c.2 b.2.2 c.1.ddiv else c.2, b.2.2)

/-- The function `cic_filter_interpolate`: returns the new state, the buffer
and the number of valid output samples. -/
def cic_filter_interpolate (p : cic_filter) (buf : List Int) (buf_len len : Nat) :
    cic_filter × List Int × Nat :=
  if len * p.R > buf_len then (p, buf, 0)
  else
    let a := cic_comb p buf len
    let b := cic_rate_up a.1 a.2 buf_len len
    let c := cic_integrate a.1 b.1 b.2
    (c.1, if c.1.normalize then cic_normalize c.2 b.2 c.1.idiv else c.2, b.2)

/-! ## Specification-level definitions -/

/-- Run the per-sample state machine `g` over a list of samples: the state is threaded
through, the outputs are collected. -/
def runS {σ : Type} (g : σ → Int → σ × Int) : σ → List Int → σ × List Int
  | s, [] => (s, [])
  | s, x :: xs => ((runS g (g s x).1 xs).1, (g s x).2 :: (runS g (g s x).1 xs).2)

/-- One sample through the cascade of accumulators (the first `N` delay slots): every
stage adds its stored value to the running sum, stores the sum and passes it on. -/
def integ_acc : List Int → Int → List Int × Int
  | [], sum => ([], sum)
  | a :: as, sum =>
    (wrap32 (sum + a) :: (integ_acc as (wrap32 (sum + a))).1, (integ_acc as (wrap32 (sum + a))).2)

/-- Decimation as a list function: skip `k` samples, keep one, skip `r - 1`, keep one, .... -/
def pick (r : Nat) : Nat → List Int → List Int
  | _, [] => []
  | 0, x :: xs => x :: pick r (r - 1) xs
  | k + 1, _ :: xs => pick r k xs

/-- Rate counter left by `pick`: the number of samples still to skip in the next block. -/
def pick_cnt (r : Nat) : Nat → List Int → Nat
  | k, [] => k
  | 0, _ :: xs => pick_cnt r (r - 1) xs
  | k + 1, _ :: xs => pick_cnt r k xs

/-- Zero stuffing as a list function: every sample is followed by `r - 1` zeros. -/
def expand (r : Nat) : List Int → List Int
  | [] => []
  | x :: xs => x :: (List.replicate (r - 1) 0 ++ expand r xs)

/-- One sample through the comb section: `s.1` are the comb slots (the delay line after
the accumulators), `s.2` is the tap position, toggled after the sample. -/
def comb_fn (N m : Nat) (s : List Int × Nat) (x : Int) : (List Int × Nat) × Int :=
  (((comb_stages 0 m (N * m) s.2 (N * m) 0 s.1 x).1, s.2 ^^^ (m - 1)),
    (comb_stages 0 m (N * m) s.2 (N * m) 0 s.1 x).2)

/-- Functional description of one `cic_filter_decimate` call on the samples `xs`:
integrators, every `R`-th sample, combs, optional normalisation. Gives the new state and
the output samples. -/
def dec_fn (p : cic_filter) (xs : List Int) : cic_filter × List Int :=
  ({ p with
      delay := (runS integ_acc (p.delay.take p.N) xs).1 ++
        (runS (comb_fn p.N p.M) (p.delay.drop p.N, p.mpos)
          (pick p.R p.cnt (runS integ_acc (p.delay.take p.N) xs).2)).1.1
      mpos := (runS (comb_fn p.N p.M) (p.delay.drop p.N, p.mpos)
          (pick p.R p.cnt (runS integ_acc (p.delay.take p.N) xs).2)).1.2
      cnt := pick_cnt p.R p.cnt (runS integ_acc (p.delay.take p.N) xs).2 },
    if p.normalize then
      ((runS (comb_fn p.N p.M) (p.delay.drop p.N, p.mpos)
          (pick p.R p.cnt (runS integ_acc (p.delay.take p.N) xs).2)).2).map
        (fun v => v.tdiv p.ddiv)
    else
      (runS (comb_fn p.N p.M) (p.delay.drop p.N, p.mpos)
          (pick p.R p.cnt (runS integ_acc (p.delay.take p.N) xs).2)).2)

/-- Functional description of one successful `cic_filter_interpolate` call on the samples
`xs`: combs, zero stuffing, integrators, optional normalisation. Gives the new state and the
output samples. -/
def int_fn (p : cic_filter) (xs : List Int) : cic_filter × List Int :=
  ({ p with
      delay := (runS integ_acc (p.delay.take p.N)
          (expand p.R (runS (comb_fn p.N p.M) (p.delay.drop p.N, p.mpos) xs).2)).1 ++
        (runS (comb_fn p.N p.M) (p.delay.drop p.N, p.mpos) xs).1.1
      mpos := (runS (comb_fn p.N p.M) (p.delay.drop p.N, p.mpos) xs).1.2 },
    if p.normalize then
      ((runS integ_acc (p.delay.take p.N)
          (expand p.R (runS (comb_fn p.N p.M) (p.delay.drop p.N, p.mpos) xs).2)).2).map
        (fun v => v.tdiv p.idiv)
    else
      (runS integ_acc (p.delay.take p.N)
          (expand p.R (runS (comb_fn p.N p.M) (p.delay.drop p.N, p.mpos) xs).2)).2)

/-- Streaming use of `cic_filter_decimate`: each call is a buffer together with the
number of valid samples in it; the state persists and the valid outputs are concatenated. -/
def decimate_calls : cic_filter → List (List Int × Nat) → cic_filter × List Int
  | p, [] => (p, [])
  | p, c :: cs =>
    ((decimate_calls (cic_filter_decimate p c.1 c.2).1 cs).1,
      (cic_filter_decimate p c.1 c.2).2.1.take (cic_filter_decimate p c.1 c.2).2.2 ++
        (decimate_calls (cic_filter_decimate p c.1 c.2).1 cs).2)

/-- Streaming use of `cic_filter_interpolate`: each call is a buffer, whose length is
its capacity, together with the number of valid samples in it; the state persists and the
valid outputs are concatenated. -/
def interpolate_calls : cic_filter → List (List Int × Nat) → cic_filter × List Int
  | p, [] => (p, [])
  | p, c :: cs =>
    ((interpolate_calls (cic_filter_interpolate p c.1 c.1.length c.2).1 cs).1,
      (cic_filter_interpolate p c.1 c.1.length c.2).2.1.take
          (cic_filter_interpolate p c.1 c.1.length c.2).2.2 ++
        (interpolate_calls (cic_filter_interpolate p c.1 c.1.length c.2).1 cs).2)

/-- Input stream of a sequence of calls: the valid samples of every buffer, in order. -/
def calls_input (cs : List (List Int × Nat)) : List Int :=
  (cs.map (fun c => c.1.take c.2)).flatten

/-- Running sum of a stream: `sI x n = x 0 + ... + x n`. -/
def sI (x : Nat → Int) : Nat → Int
  | 0 => x 0
  | n + 1 => sI x n + x (n + 1)

/-- Difference with delay `K`: `sD K x n = x n - x (n - K)`, where `x j = 0` for `j < 0`. -/
def sD (K : Nat) (x : Nat → Int) (n : Nat) : Int :=
  x n - (if K ≤ n then x (n - K) else 0)

/-- Moving sum of length `K`: `sB K x n` is the sum of `x (n - t)` over `t < K`, where
`x j = 0` for `j < 0`. -/
def sB : Nat → (Nat → Int) → Nat → Int
  | 0, _, _ => 0
  | K + 1, x, n => sB K x n + (if K ≤ n then x (n - K) else 0)

/-- Keep every `R`-th sample of a stream. -/
def sDown (R : Nat) (x : Nat → Int) (k : Nat) : Int := x (k * R)

/-- Zero stuffing of a stream: `x (n / R)` at the multiples of `R`, zero elsewhere. -/
def sUp (R : Nat) (x : Nat → Int) (n : Nat) : Int := if n % R = 0 then x (n / R) else 0

/-- Sample and hold: every sample of the stream is repeated `R` times. -/
def sHold (R : Nat) (x : Nat → Int) (n : Nat) : Int := x (n / R)

/-- One integrator stage over a block, from the accumulator value `a`, with 32-bit
wrap-around. -/
def isum : Int → List Int → List Int
  | _, [] => []
  | a, x :: xs => wrap32 (x + a) :: isum (wrap32 (x + a)) xs

/-- Accumulator of one integrator stage after a block. -/
def iacc : Int → List Int → Int
  | a, [] => a
  | a, x :: xs => iacc (wrap32 (x + a)) xs

/-- The list `l` agrees with the stream `u` modulo `2^32` at every index of the list. -/
def tracks (l : List Int) (u : Nat → Int) : Prop :=
  ∀ i, i < l.length → l.getD i 0 ≡ u i [ZMOD 4294967296]

/-- A list read as a stream that is zero beyond its end. -/
def ofList (l : List Int) : Nat → Int := fun i => l.getD i 0

/-- Every element is a 32-bit two's-complement value. -/
def inRange (l : List Int) : Prop := ∀ y ∈ l, -2147483648 ≤ y ∧ y < 2147483648

/-- The stage loop of the comb, run for `n` stages from slot offset `s`. -/
def comb_acc (m mpos : Nat) : Nat → Nat → List Int → Int → List Int × Int
  | 0, _, c, sum => (c, sum)
  | n + 1, s, c, sum =>
    comb_acc m mpos n (s + m) (c.set (s + mpos) sum) (wrap32 (sum - c.getD (s + mpos) 0))

/-- One comb stage on its own `m` slots: read the slot at the tap position, store the
sample there, output the difference, toggle the tap position. -/
def comb1 (m : Nat) (s : List Int × Nat) (x : Int) : (List Int × Nat) × Int :=
  ((s.1.set s.2 x, s.2 ^^^ (m - 1)), wrap32 (x - s.1.getD s.2 0))

/-- Output of one comb stage whose slots hold the history `h` (oldest sample first):
every sample minus the sample `h.length` places earlier. -/
def cdiff (h xs : List Int) : List Int :=
  List.zipWith (fun x d => wrap32 (x - d)) xs (h ++ xs)

/-- State right after `cic_filter_init`: tap position and rate counter are zero and the
`N + N * M` slots of the delay line are zero. -/
def fresh (p : cic_filter) : Prop :=
  p.mpos = 0 ∧ p.cnt = 0 ∧ ∃ tail, p.delay = List.replicate (p.N + p.N * p.M) 0 ++ tail

/-- Output of a decimate call before normalisation. -/
def dec_raw (p : cic_filter) (xs : List Int) : List Int :=
  (runS (comb_fn p.N p.M) (p.delay.drop p.N, p.mpos)
    (pick p.R p.cnt (runS integ_acc (p.delay.take p.N) xs).2)).2

/-- Output of an interpolate call before normalisation. -/
def int_raw (p : cic_filter) (xs : List Int) : List Int :=
  (runS integ_acc (p.delay.take p.N)
    (expand p.R (runS (comb_fn p.N p.M) (p.delay.drop p.N, p.mpos) xs).2)).2

/-- Input of the tests (`cic_test_init`): a square wave of period 128,
`TEST_VALUE = 6431` where `(i & 64) == 0` and `-6431` elsewhere. -/
def cic_test_input (L : Nat) : List Int :=
  (List.range L).map (fun i => if i &&& 64 = 0 then 6431 else -6431)

/-- The `while (samples > 0)` loop of `cic_test_interpolator`: copy at most `block`
samples into the work buffer, interpolate in place with capacity `block * R`, append the
`rlen` valid samples to the output. The first argument bounds the number of iterations. -/
def cic_test_interpolator_loop (block R : Nat) : Nat → cic_filter → List Int → List Int → List Int
  | 0, _, _, _ => []
  | fuel + 1, p, buffer, input =>
    if input.length = 0 then []
    else
      let to_process := min input.length block
      let r := cic_filter_interpolate p (input.take to_process ++ buffer.drop to_process)
        (block * R) to_process
      r.2.1.take r.2.2 ++ cic_test_interpolator_loop block R fuel r.1 r.2.1 (input.drop to_process)

/-- The `while (samples > 0)` loop of `cic_test_decimator`: copy at most `block` samples
into the work buffer, decimate in place, append the `rlen` valid samples to the output.
The first argument bounds the number of iterations. -/
def cic_test_decimator_loop (block : Nat) : Nat → cic_filter → List Int → List Int → List Int
  | 0, _, _, _ => []
  | fuel + 1, p, buffer, input =>
    if input.length = 0 then []
    else
      let to_process := min input.length block
      let r := cic_filter_decimate p (input.take to_process ++ buffer.drop to_process) to_process
      r.2.1.take r.2.2 ++ cic_test_decimator_loop block fuel r.1 r.2.1 (input.drop to_process)

/-- Streaming part of `cic_test_interpolator` on the filter `p`, the work buffer and
the input. -/
def cic_test_interpolator (block R : Nat) (p : cic_filter) (buffer input : List Int) : List Int :=
  cic_test_interpolator_loop block R input.length p buffer input

/-- Streaming part of `cic_test_decimator` on the filter `p`, the work buffer and the
input. -/
def cic_test_decimator (block : Nat) (p : cic_filter) (buffer input : List Int) : List Int :=
  cic_test_decimator_loop block input.length p buffer input

/-- Number of indices `j` with `cnt + j * R < len`; for `R ≥ 1` every such `j` is below
`len`, so it is enough to count over `j < len`. -/
def sel_count (R cnt len : Nat) : Nat :=
  ((List.range len).filter (fun j => decide (cnt + j * R < len))).length

/-- One single-stage integrator pass in the words of the specification: starting from the
accumulator value `a`, the block `u` is replaced by its inclusive running sums
`v[i] = a + u[0] + ... + u[i]`, in 32-bit wrap-around arithmetic. -/
def running_sum (a : Int) (u : List Int) : List Int :=
  (List.range u.length).map (fun i => wrap32 (a + (u.take (i + 1)).sum))

/-- Successive single-stage passes, one per accumulator: pass `s` starts from the
accumulator `a[s]` and works on the output of pass `s - 1`. Gives the accumulators after
the block (the last value of each pass, the old value when the block is empty) and the
output of the last pass. -/
def integrator_passes : List Int → List Int → List Int × List Int
  | [], u => ([], u)
  | a :: as, u =>
    ((running_sum a u).getLastD a :: (integrator_passes as (running_sum a u)).1,
      (integrator_passes as (running_sum a u)).2)

/-- A sequence of `cic_comb` calls on one filter state: each call works on its own
buffer `c.1` with length `c.2`, the state written back by one call (delay line and
`mpos`) is the state the next call starts from, and the outputs are concatenated. -/
def comb_calls : cic_filter → List (List Int × Nat) → cic_filter × List Int
  | p, [] => (p, [])
  | p, c :: cs =>
    ((comb_calls (cic_comb p c.1 c.2).1 cs).1,
      (cic_comb p c.1 c.2).2.take c.2 ++ (comb_calls (cic_comb p c.1 c.2).1 cs).2)

/-- Delay-`M` difference of the specification in 32-bit wrap-around arithmetic:
`(Dx)[n] = x[n] - x[n - M]` with `x[j] = 0` for `j < 0`, the result wrapped to 32 bits. -/
def sDw (M : Nat) (x : Nat → Int) (n : Nat) : Int :=
  wrap32 (x n - (if M ≤ n then x (n - M) else 0))

/-- Moving sum of the specification: `(Bx)[n]` is the sum of `x[n - t]` for
`0 ≤ t ≤ K - 1`, with `x[j] = 0` for `j < 0`. -/
def moving_sum (K : Nat) (x : Nat → Int) (n : Nat) : Int :=
  ((List.range K).map (fun t => if t ≤ n then x (n - t) else 0)).sum

/-- Lengths returned by a sequence of `cic_filter_decimate` calls on one filter state,
in call order. -/
def decimate_rlens : cic_filter → List (List Int × Nat) → List Nat
  | _, [] => []
  | p, c :: cs =>
    (cic_filter_decimate p c.1 c.2).2.2 :: decimate_rlens (cic_filter_decimate p c.1 c.2).1 cs

/-- Stream that enters `cic_rate_down` over a sequence of `cic_filter_decimate` calls: the
first `len` samples left in the buffer by `cic_integrate` in each call, concatenated. -/
def decimate_integrated : cic_filter → List (List Int × Nat) → List Int
  | _, [] => []
  | p, c :: cs =>
    (cic_integrate p c.1 c.2).2.take c.2 ++
      decimate_integrated (cic_filter_decimate p c.1 c.2).1 cs

/-- Stream that leaves `cic_rate_down` over a sequence of `cic_filter_decimate` calls: the
samples kept by each call (as many as its return value), concatenated. -/
def decimate_kept : cic_filter → List (List Int × Nat) → List Int
  | _, [] => []
  | p, c :: cs =>
    (cic_rate_down (cic_integrate p c.1 c.2).1 (cic_integrate p c.1 c.2).2 c.2).2.1.take
        (cic_rate_down (cic_integrate p c.1 c.2).1 (cic_integrate p c.1 c.2).2 c.2).2.2 ++
      decimate_kept (cic_filter_decimate p c.1 c.2).1 cs

/-! ## Lemmas and theorems -/

theorem runS_append {σ : Type} (g : σ → Int → σ × Int) (xs ys : List Int) (s : σ) :
    runS g s (xs ++ ys) =
      ((runS g (runS g s xs).1 ys).1, (runS g s xs).2 ++ (runS g (runS g s xs).1 ys).2) := by
  induction xs generalizing s with
  | nil => simp [runS]
  | cons x xs ih => simp [runS, ih]

theorem runS_length {σ : Type} (g : σ → Int → σ × Int) (xs : List Int) (s : σ) :
    (runS g s xs).2.length = xs.length := by
  induction xs generalizing s with
  | nil => simp [runS]
  | cons x xs ih => simp [runS, ih]

theorem take_succ_getD (buf : List Int) (n : Nat) (h : n < buf.length) :
    buf.take (n + 1) = buf.take n ++ [buf.getD n 0] := by
  rw [List.take_succ]
  simp [List.getD, List.getElem?_eq_getElem h]

theorem drop_getD_cons (buf : List Int) (n : Nat) (h : n < buf.length) :
    buf.drop n = buf.getD n 0 :: buf.drop (n + 1) := by
  rw [List.drop_eq_getElem_cons h]
  simp [List.getD, List.getElem?_eq_getElem h]

theorem getD_append_drop (ys buf : List Int) (n : Nat) (hy : ys.length = n) :
    (ys ++ buf.drop n).getD n 0 = buf.getD n 0 := by
  subst hy
  simp [List.getD, List.getElem?_append_right]

theorem set_append_drop (ys buf : List Int) (n : Nat) (v : Int) (hy : ys.length = n)
    (h : n < buf.length) :
    (ys ++ buf.drop n).set n v = (ys ++ [v]) ++ buf.drop (n + 1) := by
  subst hy
  rw [drop_getD_cons buf _ h]
  simp [List.set_append_right]

theorem loop_range_set {σ : Type} (g : σ → Int → σ × Int) (s : σ) (buf : List Int) (len : Nat)
    (h : len ≤ buf.length) :
    (List.range len).foldl
        (fun (st : σ × List Int) i => ((g st.1 (st.2.getD i 0)).1, st.2.set i (g st.1 (st.2.getD i 0)).2))
        (s, buf) =
      ((runS g s (buf.take len)).1, (runS g s (buf.take len)).2 ++ buf.drop len) := by
  induction len with
  | zero => simp [runS]
  | succ n ih =>
    have hn : n < buf.length := h
    rw [List.range_succ, List.foldl_append, ih (Nat.le_of_lt hn)]
    have hl : (runS g s (List.take n buf)).2.length = n := by
      rw [runS_length]; simp; omega
    simp only [List.foldl_cons, List.foldl_nil]
    rw [getD_append_drop _ _ _ hl, set_append_drop _ _ _ _ hl hn, take_succ_getD _ _ hn,
      runS_append]
    simp [runS]

theorem loop_range_map (f : Int → Int) (buf : List Int) (len : Nat) (h : len ≤ buf.length) :
    (List.range len).foldl (fun b i => b.set i (f (b.getD i 0))) buf =
      (buf.take len).map f ++ buf.drop len := by
  induction len with
  | zero => simp
  | succ n ih =>
    have hn : n < buf.length := h
    rw [List.range_succ, List.foldl_append, ih (Nat.le_of_lt hn)]
    have hl : ((List.take n buf).map f).length = n := by simp; omega
    simp only [List.foldl_cons, List.foldl_nil]
    rw [getD_append_drop _ _ _ hl, set_append_drop _ _ _ _ hl hn, take_succ_getD _ _ hn]
    simp

theorem integ_acc_length (a : List Int) (sum : Int) : (integ_acc a sum).1.length = a.length := by
  induction a generalizing sum with
  | nil => simp [integ_acc]
  | cons x xs ih => simp [integ_acc, ih]

theorem getD_append_mid (pre a rest : List Int) (x : Int) :
    (pre ++ x :: a ++ rest).getD pre.length 0 = x := by
  rw [List.append_assoc, List.getD_append_right _ _ _ _ (Nat.le_refl _)]
  simp

theorem set_append_mid (pre a rest : List Int) (x v : Int) :
    (pre ++ x :: a ++ rest).set pre.length v = (pre ++ [v]) ++ a ++ rest := by
  simp [List.set_append_right]

theorem integrate_range' (a : List Int) : ∀ (pre rest : List Int) (sum : Int),
    (List.range' pre.length a.length).foldl
        (fun (st : List Int × Int) s =>
          (st.1.set s (wrap32 (st.2 + st.1.getD s 0)), wrap32 (st.2 + st.1.getD s 0)))
        (pre ++ a ++ rest, sum) =
      (pre ++ (integ_acc a sum).1 ++ rest, (integ_acc a sum).2) := by
  induction a with
  | nil => intro pre rest sum; simp [integ_acc]
  | cons x xs ih =>
    intro pre rest sum
    have h := ih (pre ++ [wrap32 (sum + x)]) rest (wrap32 (sum + x))
    simp only [List.length_append, List.length_singleton] at h
    simp only [List.length_cons, List.range'_succ, List.foldl_cons, getD_append_mid,
      set_append_mid, integ_acc]
    rw [h]
    simp

theorem integrate_stages_eq (a rest : List Int) (sum : Int) :
    integrate_stages a.length (a ++ rest) sum =
      ((integ_acc a sum).1 ++ rest, (integ_acc a sum).2) := by
  have h := integrate_range' a [] rest sum
  simp only [List.length_nil, List.nil_append] at h
  unfold integrate_stages
  rw [List.range_eq_range']
  exact h

theorem runS_integrate (xs : List Int) : ∀ (a rest : List Int),
    runS (integrate_stages a.length) (a ++ rest) xs =
      ((runS integ_acc a xs).1 ++ rest, (runS integ_acc a xs).2) := by
  induction xs with
  | nil => intro a rest; simp [runS]
  | cons x xs ih =>
    intro a rest
    have h := ih (integ_acc a x).1 rest
    rw [integ_acc_length] at h
    simp only [runS, integrate_stages_eq, h]

theorem runS_integ_length (xs : List Int) : ∀ (a : List Int),
    (runS integ_acc a xs).1.length = a.length := by
  induction xs with
  | nil => intro a; simp [runS]
  | cons x xs ih => intro a; simp [runS, ih, integ_acc_length]

theorem cic_integrate_eq (p : cic_filter) (buf : List Int) (len : Nat)
    (hN : p.N ≤ p.delay.length) (hlen : len ≤ buf.length) :
    cic_integrate p buf len =
      ({ p with delay := (runS integ_acc (p.delay.take p.N) (buf.take len)).1 ++ p.delay.drop p.N },
        (runS integ_acc (p.delay.take p.N) (buf.take len)).2 ++ buf.drop len) := by
  unfold cic_integrate
  have h := loop_range_set (integrate_stages p.N) p.delay buf len hlen
  simp only at h ⊢
  rw [h]
  have ha : (p.delay.take p.N).length = p.N := by simp; omega
  have h2 := runS_integrate (buf.take len) (p.delay.take p.N) (p.delay.drop p.N)
  rw [ha, List.take_append_drop] at h2
  rw [h2]

theorem getD_append_off (pre c : List Int) (k : Nat) :
    (pre ++ c).getD (pre.length + k) 0 = c.getD k 0 := by
  rw [List.getD_append_right _ _ _ _ (Nat.le_add_right _ _)]
  simp

theorem set_append_off (pre c : List Int) (k : Nat) (v : Int) :
    (pre ++ c).set (pre.length + k) v = pre ++ c.set k v := by
  rw [List.set_append_right _ _ (Nat.le_add_right _ _)]
  simp

theorem comb_stages_off (pre : List Int) (m slen mpos : Nat) :
    ∀ (fuel s : Nat) (c : List Int) (sum : Int),
      comb_stages pre.length m slen mpos fuel s (pre ++ c) sum =
        (pre ++ (comb_stages 0 m slen mpos fuel s c sum).1,
          (comb_stages 0 m slen mpos fuel s c sum).2) := by
  intro fuel
  induction fuel with
  | zero => intro s c sum; simp [comb_stages]
  | succ f ih =>
    intro s c sum
    simp only [comb_stages]
    split
    · rw [getD_append_off, set_append_off, ih]
      simp
    · rfl

theorem comb_stages_length (off m slen mpos : Nat) :
    ∀ (fuel s : Nat) (c : List Int) (sum : Int),
      (comb_stages off m slen mpos fuel s c sum).1.length = c.length := by
  intro fuel
  induction fuel with
  | zero => intro s c sum; simp [comb_stages]
  | succ f ih =>
    intro s c sum
    simp only [comb_stages]
    split
    · rw [ih]; simp
    · rfl

theorem runS_comb (pre : List Int) (m : Nat) (xs : List Int) : ∀ (c : List Int) (mpos : Nat),
    runS (fun (s : List Int × Nat) x =>
        (((comb_stages pre.length m (pre.length * m) s.2 (pre.length * m) 0 s.1 x).1,
            s.2 ^^^ (m - 1)),
          (comb_stages pre.length m (pre.length * m) s.2 (pre.length * m) 0 s.1 x).2))
        (pre ++ c, mpos) xs =
      ((pre ++ (runS (comb_fn pre.length m) (c, mpos) xs).1.1,
          (runS (comb_fn pre.length m) (c, mpos) xs).1.2),
        (runS (comb_fn pre.length m) (c, mpos) xs).2) := by
  induction xs with
  | nil => intro c mpos; simp [runS]
  | cons x xs ih =>
    intro c mpos
    simp only [runS, comb_stages_off, comb_fn, ih]

theorem cic_comb_eq (p : cic_filter) (buf : List Int) (len : Nat)
    (hN : p.N ≤ p.delay.length) (hlen : len ≤ buf.length) :
    cic_comb p buf len =
      ({ p with
          delay := p.delay.take p.N ++
            (runS (comb_fn p.N p.M) (p.delay.drop p.N, p.mpos) (buf.take len)).1.1
          mpos := (runS (comb_fn p.N p.M) (p.delay.drop p.N, p.mpos) (buf.take len)).1.2 },
        (runS (comb_fn p.N p.M) (p.delay.drop p.N, p.mpos) (buf.take len)).2 ++ buf.drop len) := by
  unfold cic_comb
  have h := loop_range_set
    (fun (s : List Int × Nat) x =>
        (((comb_stages p.N p.M (p.N * p.M) s.2 (p.N * p.M) 0 s.1 x).1, s.2 ^^^ (p.M - 1)),
          (comb_stages p.N p.M (p.N * p.M) s.2 (p.N * p.M) 0 s.1 x).2))
    (p.delay, p.mpos) buf len hlen
  simp only at h ⊢
  rw [h]
  have ha : (p.delay.take p.N).length = p.N := by simp; omega
  have h2 := runS_comb (p.delay.take p.N) p.M (buf.take len) (p.delay.drop p.N) p.mpos
  rw [ha, List.take_append_drop] at h2
  rw [h2]

theorem cic_normalize_eq (buf : List Int) (len : Nat) (div : Int) (hlen : len ≤ buf.length) :
    cic_normalize buf len div = (buf.take len).map (fun v => v.tdiv div) ++ buf.drop len := by
  unfold cic_normalize
  exact loop_range_map (fun v => v.tdiv div) buf len hlen

theorem pick_nil (r k : Nat) : pick r k [] = [] := by
  cases k <;> rfl

theorem pick_cnt_nil (r k : Nat) : pick_cnt r k [] = k := by
  cases k <;> rfl

theorem pick_add (r k : Nat) : ∀ (a : Nat) (l : List Int),
    pick r (a + k) l = pick r k (l.drop a) := by
  intro a
  induction a with
  | zero => intro l; simp
  | succ a ih =>
    intro l
    cases l with
    | nil => simp [pick_nil]
    | cons x xs =>
      have : a + 1 + k = (a + k) + 1 := by omega
      rw [this]
      simp only [pick, List.drop_succ_cons]
      exact ih xs

theorem pick_cnt_add (r k : Nat) : ∀ (a : Nat) (l : List Int), a ≤ l.length →
    pick_cnt r (a + k) l = pick_cnt r k (l.drop a) := by
  intro a
  induction a with
  | zero => intro l _; simp
  | succ a ih =>
    intro l hl
    cases l with
    | nil => simp at hl
    | cons x xs =>
      have : a + 1 + k = (a + k) + 1 := by omega
      rw [this]
      simp only [pick_cnt, List.drop_succ_cons]
      exact ih xs (by simpa using hl)

theorem pick_over (r : Nat) : ∀ (k : Nat) (l : List Int), l.length ≤ k → pick r k l = [] := by
  intro k l
  induction l generalizing k with
  | nil => intro _; exact pick_nil r k
  | cons x xs ih =>
    intro h
    cases k with
    | zero => simp at h
    | succ k => simp only [pick]; exact ih k (by simpa using h)

theorem pick_cnt_over (r : Nat) : ∀ (k : Nat) (l : List Int), l.length ≤ k →
    pick_cnt r k l = k - l.length := by
  intro k l
  induction l generalizing k with
  | nil => intro _; simp [pick_cnt_nil]
  | cons x xs ih =>
    intro h
    cases k with
    | zero => simp at h
    | succ k =>
      simp only [pick_cnt]
      rw [ih k (by simpa using h)]
      simp

theorem pick_skip (r k : Nat) (l : List Int) : pick r k l = pick r 0 (l.drop k) := by
  simpa using pick_add r 0 k l

theorem pick_cnt_skip (r k : Nat) (l : List Int) (h : k ≤ l.length) :
    pick_cnt r k l = pick_cnt r 0 (l.drop k) := by
  simpa using pick_cnt_add r 0 k l h

theorem take_drop_set (buf : List Int) (len b j : Nat) (v : Int) (h : j < b) :
    ((buf.set j v).take len).drop b = (buf.take len).drop b := by
  rw [List.drop_take, List.drop_take, List.drop_set_of_lt _ _ h]

theorem take_set_succ (buf : List Int) (j : Nat) (v : Int) (h : j < buf.length) :
    (buf.set j v).take (j + 1) = buf.take j ++ [v] := by
  induction buf generalizing j with
  | nil => simp at h
  | cons x xs ih =>
    cases j with
    | zero => simp
    | succ j => simp [ih j (by simpa using h)]

theorem rate_down_loop_spec (r len : Nat) (hr : 0 < r) :
    ∀ (fuel k base j : Nat) (buf : List Int), j ≤ base → base ≤ len → len ≤ buf.length →
      len ≤ fuel + (base + k) →
      rate_down_loop r len fuel (base + k) j buf =
        (len + pick_cnt r k ((buf.take len).drop base),
          j + (pick r k ((buf.take len).drop base)).length,
          buf.take j ++ pick r k ((buf.take len).drop base) ++
            buf.drop (j + (pick r k ((buf.take len).drop base)).length)) := by
  have hdone : ∀ (k base j : Nat) (buf : List Int), base ≤ len → len ≤ buf.length →
      len ≤ base + k →
      (base + k, j, buf) =
        (len + pick_cnt r k ((buf.take len).drop base),
          j + (pick r k ((buf.take len).drop base)).length,
          buf.take j ++ pick r k ((buf.take len).drop base) ++
            buf.drop (j + (pick r k ((buf.take len).drop base)).length)) := by
    intro k base j buf hb hl hk
    have hlen : ((buf.take len).drop base).length ≤ k := by
      simp; omega
    rw [pick_over r k _ hlen, pick_cnt_over r k _ hlen]
    have : ((buf.take len).drop base).length = len - base := by simp; omega
    rw [this]
    simp
    omega
  intro fuel
  induction fuel with
  | zero =>
    intro k base j buf _ hb hl hk
    simp only [rate_down_loop]
    exact hdone k base j buf hb hl (by omega)
  | succ f ih =>
    intro k base j buf hj hb hl hk
    simp only [rate_down_loop]
    split
    · rename_i hlt
      have hi : base + k + r = (base + k + 1) + (r - 1) := by omega
      rw [hi, ih (r - 1) (base + k + 1) (j + 1) _ (by omega) (by omega) (by simpa using hl)
        (by omega)]
      rw [take_drop_set _ _ _ _ _ (by omega), take_set_succ _ _ _ (by omega)]
      have hp : pick r k ((buf.take len).drop base) =
          buf.getD (base + k) 0 :: pick r (r - 1) ((buf.take len).drop (base + k + 1)) := by
        rw [pick_skip, List.drop_drop, drop_getD_cons _ _ (by simp; omega)]
        simp only [pick]
        congr 1
        rw [List.getD_eq_getElem?_getD, List.getD_eq_getElem?_getD,
          List.getElem?_take_of_lt (by omega)]
      have hc : pick_cnt r k ((buf.take len).drop base) =
          pick_cnt r (r - 1) ((buf.take len).drop (base + k + 1)) := by
        rw [pick_cnt_skip _ _ _ (by simp; omega), List.drop_drop,
          drop_getD_cons _ _ (by simp; omega)]
        simp only [pick_cnt]
      rw [hp, hc]
      simp only [List.length_cons, List.append_assoc, List.singleton_append, Prod.mk.injEq,
        true_and]
      refine ⟨by omega, ?_⟩
      congr 2
      rw [List.drop_set_of_lt _ _ (by omega)]
      congr 1
      omega
    · rename_i hge
      exact hdone k base j buf hb hl (by omega)

theorem cic_rate_down_eq (p : cic_filter) (buf : List Int) (len : Nat) (hr : 0 < p.R)
    (hlen : len ≤ buf.length) :
    cic_rate_down p buf len =
      ({ p with cnt := pick_cnt p.R p.cnt (buf.take len) },
        pick p.R p.cnt (buf.take len) ++ buf.drop (pick p.R p.cnt (buf.take len)).length,
        (pick p.R p.cnt (buf.take len)).length) := by
  unfold cic_rate_down
  have h := rate_down_loop_spec p.R len hr len p.cnt 0 0 buf (Nat.le_refl _) (Nat.zero_le _) hlen
    (by omega)
  simp only [Nat.zero_add, List.drop_zero, List.take_zero, List.nil_append] at h
  rw [h]
  simp

theorem fill_range' (j : Nat) (mid : List Int) : ∀ (s : Nat) (pre rest : List Int),
    pre.length = j + s →
    (List.range' s mid.length).foldl (fun b ins => b.set (j + ins) 0) (pre ++ mid ++ rest) =
      pre ++ List.replicate mid.length 0 ++ rest := by
  induction mid with
  | nil => intro s pre rest _; simp
  | cons m mid ih =>
    intro s pre rest hpre
    simp only [List.length_cons, List.range'_succ, List.foldl_cons]
    rw [← hpre, set_append_mid]
    rw [ih (s + 1) (pre ++ [0]) rest (by simp; omega)]
    simp [List.replicate_succ]

theorem rate_up_fill_spec (r j : Nat) (pre mid rest : List Int) (x : Int)
    (hpre : pre.length = j) (hmid : mid.length = r - 1) :
    rate_up_fill r j (pre ++ x :: mid ++ rest) =
      pre ++ x :: List.replicate (r - 1) 0 ++ rest := by
  unfold rate_up_fill
  have h := fill_range' j mid 1 (pre ++ [x]) rest (by simp; omega)
  rw [hmid] at h
  simpa using h

theorem expand_append (r : Nat) (xs ys : List Int) :
    expand r (xs ++ ys) = expand r xs ++ expand r ys := by
  induction xs with
  | nil => simp [expand]
  | cons x xs ih => simp [expand, ih]

theorem expand_length (r : Nat) (hr : 0 < r) (xs : List Int) :
    (expand r xs).length = xs.length * r := by
  induction xs with
  | nil => simp [expand]
  | cons x xs ih =>
    simp only [expand, List.length_cons, List.length_append, List.length_replicate, ih]
    rw [Nat.add_mul]
    omega

theorem split_block (buf : List Int) (a r : Nat) (hr : 0 < r) (h : a + r ≤ buf.length) :
    buf = buf.take a ++ buf.getD a 0 :: (buf.drop (a + 1)).take (r - 1) ++ buf.drop (a + r) := by
  have h1 : buf = buf.take a ++ buf.drop a := (List.take_append_drop a buf).symm
  have h2 : buf.drop a = buf.getD a 0 :: buf.drop (a + 1) := drop_getD_cons buf a (by omega)
  have h3 : buf.drop (a + 1) = (buf.drop (a + 1)).take (r - 1) ++ (buf.drop (a + 1)).drop (r - 1) :=
    (List.take_append_drop _ _).symm
  have h4 : (buf.drop (a + 1)).drop (r - 1) = buf.drop (a + r) := by
    rw [List.drop_drop]; congr 1; omega
  rw [h4] at h3
  conv_lhs => rw [h1, h2, h3]
  simp

theorem rate_up_loop_spec (r : Nat) (hr : 0 < r) : ∀ (i : Nat) (buf : List Int),
    i * r ≤ buf.length →
    rate_up_loop r i ((i - 1) * r) buf = expand r (buf.take i) ++ buf.drop (i * r) := by
  intro i
  induction i with
  | zero => intro buf _; simp [rate_up_loop, expand]
  | succ i ih =>
    intro buf hlen
    have hle : i * r + r ≤ buf.length := by rw [Nat.succ_mul] at hlen; exact hlen
    have hir : i ≤ i * r := Nat.le_mul_of_pos_right i hr
    simp only [rate_up_loop, Nat.add_sub_cancel]
    have hsplit := split_block buf (i * r) r hr hle
    have hset : buf.set (i * r) (buf.getD i 0) =
        buf.take (i * r) ++ buf.getD i 0 :: (buf.drop (i * r + 1)).take (r - 1) ++
          buf.drop (i * r + r) := by
      have hl : (buf.take (i * r)).length = i * r := by simp; omega
      have h := set_append_mid (buf.take (i * r)) ((buf.drop (i * r + 1)).take (r - 1))
        (buf.drop (i * r + r)) (buf.getD (i * r) 0) (buf.getD i 0)
      rw [hl, ← hsplit] at h
      rw [h]
      simp
    rw [hset, rate_up_fill_spec r (i * r) _ _ _ _ (by simp; omega) (by simp; omega)]
    have hj : i * r - r = (i - 1) * r := by rw [Nat.sub_mul]; simp
    rw [hj, ih _ (by simp; omega)]
    have htake : (buf.take (i * r) ++ buf.getD i 0 :: List.replicate (r - 1) 0 ++
        buf.drop (i * r + r)).take i = buf.take i := by
      rw [List.append_assoc, List.take_append_of_le_length (by simp; omega), List.take_take]
      congr 1
      omega
    have hdrop : (buf.take (i * r) ++ buf.getD i 0 :: List.replicate (r - 1) 0 ++
        buf.drop (i * r + r)).drop (i * r) =
        buf.getD i 0 :: List.replicate (r - 1) 0 ++ buf.drop (i * r + r) := by
      rw [List.append_assoc, List.drop_left' (by simp; omega)]
    rw [htake, hdrop, take_succ_getD _ _ (by omega), expand_append, Nat.succ_mul]
    simp [expand]

theorem cic_rate_up_eq (p : cic_filter) (buf : List Int) (buf_len len : Nat) (hr : 0 < p.R)
    (hcap : len * p.R ≤ buf_len) (hbuf : len * p.R ≤ buf.length) :
    cic_rate_up p buf buf_len len =
      (expand p.R (buf.take len) ++ buf.drop (len * p.R), len * p.R) := by
  unfold cic_rate_up
  simp only
  rw [if_neg (by omega)]
  have hj : len * p.R - p.R = (len - 1) * p.R := by rw [Nat.sub_mul]; simp
  rw [hj, rate_up_loop_spec p.R hr len buf hbuf]

theorem pick_length_le (r : Nat) : ∀ (l : List Int) (k : Nat), (pick r k l).length ≤ l.length := by
  intro l
  induction l with
  | nil => intro k; simp [pick_nil]
  | cons x xs ih =>
    intro k
    cases k with
    | zero => simp only [pick, List.length_cons]; have := ih (r - 1); omega
    | succ k => simp only [pick, List.length_cons]; have := ih k; omega

theorem pick_append (r : Nat) : ∀ (xs ys : List Int) (k : Nat),
    pick r k (xs ++ ys) = pick r k xs ++ pick r (pick_cnt r k xs) ys := by
  intro xs
  induction xs with
  | nil => intro ys k; simp [pick_nil, pick_cnt_nil]
  | cons x xs ih =>
    intro ys k
    cases k with
    | zero => simp [pick, pick_cnt, ih]
    | succ k => simp [pick, pick_cnt, ih]

theorem pick_cnt_append (r : Nat) : ∀ (xs ys : List Int) (k : Nat),
    pick_cnt r k (xs ++ ys) = pick_cnt r (pick_cnt r k xs) ys := by
  intro xs
  induction xs with
  | nil => intro ys k; simp [pick_cnt_nil]
  | cons x xs ih =>
    intro ys k
    cases k with
    | zero => simp [pick_cnt, ih]
    | succ k => simp [pick_cnt, ih]

theorem runS_comb_length (N m : Nat) (xs : List Int) : ∀ (c : List Int) (mpos : Nat),
    (runS (comb_fn N m) (c, mpos) xs).1.1.length = c.length := by
  induction xs with
  | nil => intro c mpos; simp [runS]
  | cons x xs ih =>
    intro c mpos
    simp only [runS]
    rw [show (comb_fn N m (c, mpos) x).1 =
      ((comb_fn N m (c, mpos) x).1.1, (comb_fn N m (c, mpos) x).1.2) from rfl, ih]
    simp [comb_fn, comb_stages_length]

theorem decimate_eq (p : cic_filter) (buf : List Int) (len : Nat)
    (hN : p.N ≤ p.delay.length) (hr : 0 < p.R) (hlen : len ≤ buf.length) :
    cic_filter_decimate p buf len =
      ((dec_fn p (buf.take len)).1,
        (dec_fn p (buf.take len)).2 ++
          ((runS integ_acc (p.delay.take p.N) (buf.take len)).2 ++ buf.drop len).drop
            (dec_fn p (buf.take len)).2.length,
        (dec_fn p (buf.take len)).2.length) := by
  generalize hI : runS integ_acc (p.delay.take p.N) (buf.take len) = I
  have hlI : I.2.length = len := by
    rw [← hI, runS_length]; simp; omega
  have haI : I.1.length = p.N := by
    rw [← hI, runS_integ_length]; simp; omega
  generalize hS : pick p.R p.cnt I.2 = S
  have hpk : S.length ≤ len := by
    rw [← hS, ← hlI]; exact pick_length_le _ _ _
  generalize hC : runS (comb_fn p.N p.M) (p.delay.drop p.N, p.mpos) S = C
  have hlC : C.2.length = S.length := by rw [← hC]; exact runS_length _ _ _
  have e1 : cic_integrate p buf len =
      ({ p with delay := I.1 ++ p.delay.drop p.N }, I.2 ++ buf.drop len) := by
    rw [cic_integrate_eq p buf len hN hlen, hI]
  have e2 : cic_rate_down { p with delay := I.1 ++ p.delay.drop p.N } (I.2 ++ buf.drop len) len =
      ({ p with delay := I.1 ++ p.delay.drop p.N, cnt := pick_cnt p.R p.cnt I.2 },
        S ++ (I.2 ++ buf.drop len).drop S.length, S.length) := by
    rw [cic_rate_down_eq { p with delay := I.1 ++ p.delay.drop p.N } _ len hr (by simp; omega)]
    simp only [List.take_left' hlI, hS]
  have e3 : cic_comb { p with delay := I.1 ++ p.delay.drop p.N, cnt := pick_cnt p.R p.cnt I.2 }
      (S ++ (I.2 ++ buf.drop len).drop S.length) S.length =
      ({ p with delay := I.1 ++ C.1.1, cnt := pick_cnt p.R p.cnt I.2, mpos := C.1.2 },
        C.2 ++ (I.2 ++ buf.drop len).drop S.length) := by
    rw [cic_comb_eq _ _ _ (by simp; omega) (by simp)]
    simp only [List.take_left' haI, List.drop_left' haI, List.take_left, List.drop_left, hC]
  have e4 : cic_normalize (C.2 ++ (I.2 ++ buf.drop len).drop S.length) S.length p.ddiv =
      C.2.map (fun v => v.tdiv p.ddiv) ++ (I.2 ++ buf.drop len).drop S.length := by
    rw [cic_normalize_eq _ _ _ (by simp; omega), List.take_left' hlC, List.drop_left' hlC]
  have e5 : dec_fn p (buf.take len) =
      ({ p with delay := I.1 ++ C.1.1, cnt := pick_cnt p.R p.cnt I.2, mpos := C.1.2 },
        if p.normalize then C.2.map (fun v => v.tdiv p.ddiv) else C.2) := by
    unfold dec_fn
    simp only [hI, hS, hC]
  unfold cic_filter_decimate
  simp only [e1, e2, e3, e4, e5]
  by_cases hn : p.normalize = true
  · simp [hn, hlC]
  · simp [hn, hlC]

theorem dec_fn_append (p : cic_filter) (xs ys : List Int) (hN : p.N ≤ p.delay.length) :
    dec_fn p (xs ++ ys) =
      ((dec_fn (dec_fn p xs).1 ys).1, (dec_fn p xs).2 ++ (dec_fn (dec_fn p xs).1 ys).2) := by
  have haI : (runS integ_acc (p.delay.take p.N) xs).1.length = p.N := by
    rw [runS_integ_length]; simp; omega
  unfold dec_fn
  simp only [List.take_left' haI, List.drop_left' haI]
  rw [runS_append]
  simp only [pick_append, pick_cnt_append]
  rw [runS_append]
  by_cases hn : p.normalize = true
  · simp [hn]
  · simp [hn]

theorem interpolate_eq (p : cic_filter) (buf : List Int) (buf_len len : Nat)
    (hN : p.N ≤ p.delay.length) (hr : 0 < p.R) (hcap : len * p.R ≤ buf_len)
    (hbuf : len * p.R ≤ buf.length) :
    cic_filter_interpolate p buf buf_len len =
      ((int_fn p (buf.take len)).1,
        (int_fn p (buf.take len)).2 ++ buf.drop (len * p.R),
        len * p.R) := by
  have hll : len ≤ len * p.R := Nat.le_mul_of_pos_right len hr
  generalize hC : runS (comb_fn p.N p.M) (p.delay.drop p.N, p.mpos) (buf.take len) = C
  have hlC : C.2.length = len := by rw [← hC, runS_length]; simp; omega
  generalize hI : runS integ_acc (p.delay.take p.N) (expand p.R C.2) = I
  have hlI : I.2.length = len * p.R := by
    rw [← hI, runS_length, expand_length _ hr, hlC]
  have haT : (p.delay.take p.N).length = p.N := by simp; omega
  have e1 : cic_comb p buf len =
      ({ p with delay := p.delay.take p.N ++ C.1.1, mpos := C.1.2 }, C.2 ++ buf.drop len) := by
    rw [cic_comb_eq p buf len hN (by omega), hC]
  have hdrop : (C.2 ++ buf.drop len).drop (len * p.R) = buf.drop (len * p.R) := by
    rw [List.drop_append_eq_append_drop, hlC, List.drop_of_length_le (by omega), List.drop_drop]
    simp
    congr 1
    omega
  have e2 : cic_rate_up { p with delay := p.delay.take p.N ++ C.1.1, mpos := C.1.2 }
      (C.2 ++ buf.drop len) buf_len len =
      (expand p.R C.2 ++ buf.drop (len * p.R), len * p.R) := by
    rw [cic_rate_up_eq { p with delay := p.delay.take p.N ++ C.1.1, mpos := C.1.2 } _ _ _ hr hcap
      (by simp; omega)]
    simp only [List.take_left' hlC, hdrop]
  have hlE : (expand p.R C.2).length = len * p.R := by rw [expand_length _ hr, hlC]
  have e3 : cic_integrate { p with delay := p.delay.take p.N ++ C.1.1, mpos := C.1.2 }
      (expand p.R C.2 ++ buf.drop (len * p.R)) (len * p.R) =
      ({ p with delay := I.1 ++ C.1.1, mpos := C.1.2 }, I.2 ++ buf.drop (len * p.R)) := by
    rw [cic_integrate_eq { p with delay := p.delay.take p.N ++ C.1.1, mpos := C.1.2 } _ _
      (by simp; omega) (by simp; omega)]
    simp only [List.take_left' haT, List.drop_left' haT, List.take_left' hlE,
      List.drop_left' hlE, hI]
  have e4 : cic_normalize (I.2 ++ buf.drop (len * p.R)) (len * p.R) p.idiv =
      I.2.map (fun v => v.tdiv p.idiv) ++ buf.drop (len * p.R) := by
    rw [cic_normalize_eq _ _ _ (by simp; omega), List.take_left' hlI, List.drop_left' hlI]
  have e5 : int_fn p (buf.take len) =
      ({ p with delay := I.1 ++ C.1.1, mpos := C.1.2 },
        if p.normalize then I.2.map (fun v => v.tdiv p.idiv) else I.2) := by
    unfold int_fn
    simp only [hC, hI]
  unfold cic_filter_interpolate
  rw [if_neg (by omega)]
  simp only [e1, e2, e3, e4, e5]
  by_cases hn : p.normalize = true
  · simp [hn]
  · simp [hn]

theorem int_fn_append (p : cic_filter) (xs ys : List Int) (hN : p.N ≤ p.delay.length) :
    int_fn p (xs ++ ys) =
      ((int_fn (int_fn p xs).1 ys).1, (int_fn p xs).2 ++ (int_fn (int_fn p xs).1 ys).2) := by
  have haI : ∀ zs, (runS integ_acc (p.delay.take p.N) zs).1.length = p.N := by
    intro zs; rw [runS_integ_length]; simp; omega
  unfold int_fn
  simp only [List.take_left' (haI _), List.drop_left' (haI _)]
  rw [runS_append]
  simp only [expand_append]
  rw [runS_append]
  by_cases hn : p.normalize = true
  · simp [hn]
  · simp [hn]

theorem int_fn_length (p : cic_filter) (xs : List Int) (hr : 0 < p.R) :
    (int_fn p xs).2.length = xs.length * p.R := by
  unfold int_fn
  by_cases hn : p.normalize = true
  · simp [hn, runS_length, expand_length _ hr]
  · simp [hn, runS_length, expand_length _ hr]

theorem dec_fn_delay_length (p : cic_filter) (xs : List Int) (hN : p.N ≤ p.delay.length) :
    (dec_fn p xs).1.delay.length = p.delay.length := by
  unfold dec_fn
  simp only [List.length_append, runS_integ_length, runS_comb_length]
  simp; omega

theorem int_fn_delay_length (p : cic_filter) (xs : List Int) (hN : p.N ≤ p.delay.length) :
    (int_fn p xs).1.delay.length = p.delay.length := by
  unfold int_fn
  simp only [List.length_append, runS_integ_length, runS_comb_length]
  simp; omega

theorem decimate_out (p : cic_filter) (buf : List Int) (len : Nat)
    (hN : p.N ≤ p.delay.length) (hr : 0 < p.R) (hlen : len ≤ buf.length) :
    (cic_filter_decimate p buf len).1 = (dec_fn p (buf.take len)).1 ∧
      (cic_filter_decimate p buf len).2.1.take (cic_filter_decimate p buf len).2.2 =
        (dec_fn p (buf.take len)).2 ∧
      (cic_filter_decimate p buf len).2.2 = (dec_fn p (buf.take len)).2.length := by
  rw [decimate_eq p buf len hN hr hlen]
  simp

theorem interpolate_out (p : cic_filter) (buf : List Int) (buf_len len : Nat)
    (hN : p.N ≤ p.delay.length) (hr : 0 < p.R) (hcap : len * p.R ≤ buf_len)
    (hbuf : len * p.R ≤ buf.length) :
    (cic_filter_interpolate p buf buf_len len).1 = (int_fn p (buf.take len)).1 ∧
      (cic_filter_interpolate p buf buf_len len).2.1.take
          (cic_filter_interpolate p buf buf_len len).2.2 = (int_fn p (buf.take len)).2 ∧
      (cic_filter_interpolate p buf buf_len len).2.2 = len * p.R := by
  have hl : (int_fn p (buf.take len)).2.length = len * p.R := by
    rw [int_fn_length _ _ hr]
    have : len ≤ len * p.R := Nat.le_mul_of_pos_right len hr
    simp; omega
  rw [interpolate_eq p buf buf_len len hN hr hcap hbuf]
  simp [← hl]

theorem decimate_calls_eq (cs : List (List Int × Nat)) : ∀ (p : cic_filter),
    p.N ≤ p.delay.length → 0 < p.R → (∀ c ∈ cs, c.2 ≤ c.1.length) →
    decimate_calls p cs = dec_fn p (calls_input cs) := by
  induction cs with
  | nil =>
    intro p hN _ _
    have haT : (p.delay.take p.N).length = p.N := by simp; omega
    simp [decimate_calls, calls_input, dec_fn, runS, pick_nil, pick_cnt_nil]
  | cons c cs ih =>
    intro p hN hr hc
    obtain ⟨h1, h2, -⟩ := decimate_out p c.1 c.2 hN hr (hc c (by simp))
    have hcs : calls_input (c :: cs) = c.1.take c.2 ++ calls_input cs := by
      simp [calls_input]
    rw [hcs, dec_fn_append _ _ _ hN]
    simp only [decimate_calls, h1, h2]
    rw [ih (dec_fn p (c.1.take c.2)).1 (by rw [dec_fn_delay_length _ _ hN]; exact hN) hr
      (fun c' hc' => hc c' (by simp [hc']))]

theorem interpolate_calls_eq (cs : List (List Int × Nat)) : ∀ (p : cic_filter),
    p.N ≤ p.delay.length → 0 < p.R → (∀ c ∈ cs, c.2 * p.R ≤ c.1.length) →
    interpolate_calls p cs = int_fn p (calls_input cs) := by
  induction cs with
  | nil =>
    intro p hN _ _
    have haT : (p.delay.take p.N).length = p.N := by simp; omega
    simp [interpolate_calls, calls_input, int_fn, runS, expand]
  | cons c cs ih =>
    intro p hN hr hc
    obtain ⟨h1, h2, -⟩ := interpolate_out p c.1 c.1.length c.2 hN hr (hc c (by simp))
      (hc c (by simp))
    have hcs : calls_input (c :: cs) = c.1.take c.2 ++ calls_input cs := by
      simp [calls_input]
    rw [hcs, int_fn_append _ _ _ hN]
    simp only [interpolate_calls, h1, h2]
    rw [ih (int_fn p (c.1.take c.2)).1 (by rw [int_fn_delay_length _ _ hN]; exact hN) hr
      (fun c' hc' => hc c' (by simp [hc']))]

/-- C1: chunk invariance of `cic_filter_decimate`. For every well-formed state `s`
(`R ≥ 1`, `M ≥ 1`, delay line of length `N + N * M`, `mpos` in `{0, M - 1}`) and all sample
lists `xs`, `ys`: the outputs of a call on `xs` followed by a call on `ys` from the state the
first call left, concatenated, are the outputs of one call on `xs ++ ys`, and both runs end
in the same filter state. -/
theorem decimate_chunk_invariance (s : cic_filter) (xs ys : List Int)
    (hR : 1 ≤ s.R) (_hM : 1 ≤ s.M) (hdelay : s.delay.length = s.N + s.N * s.M)
    (_hmpos : s.mpos = 0 ∨ s.mpos = s.M - 1) :
    (cic_filter_decimate s xs xs.length).2.1.take (cic_filter_decimate s xs xs.length).2.2 ++
        (cic_filter_decimate (cic_filter_decimate s xs xs.length).1 ys ys.length).2.1.take
          (cic_filter_decimate (cic_filter_decimate s xs xs.length).1 ys ys.length).2.2 =
        (cic_filter_decimate s (xs ++ ys) (xs ++ ys).length).2.1.take
          (cic_filter_decimate s (xs ++ ys) (xs ++ ys).length).2.2 ∧
      (cic_filter_decimate (cic_filter_decimate s xs xs.length).1 ys ys.length).1 =
        (cic_filter_decimate s (xs ++ ys) (xs ++ ys).length).1 := by
  have hN : s.N ≤ s.delay.length := by omega
  obtain ⟨a1, a2, -⟩ := decimate_out s xs xs.length hN hR (Nat.le_refl _)
  simp only [List.take_length] at a1 a2
  have hN1 : (dec_fn s xs).1.N ≤ (dec_fn s xs).1.delay.length := by
    rw [dec_fn_delay_length _ _ hN]; exact hN
  obtain ⟨b1, b2, -⟩ := decimate_out (dec_fn s xs).1 ys ys.length hN1 hR (Nat.le_refl _)
  obtain ⟨c1, c2, -⟩ := decimate_out s (xs ++ ys) (xs ++ ys).length hN hR (Nat.le_refl _)
  simp only [List.take_length] at b1 b2 c1 c2
  rw [a1, a2, b1, b2, c1, c2]
  simp only [dec_fn_append _ _ _ hN, and_self]

theorem decimate_chunk_invariance_witness :
    (cic_filter_decimate ⟨2, 2, 0, 3, 1, [5, -1, 7, 0, 2, 9], false, true, 36, 12⟩ [100, 7, 50, 3, 9] 5).2.1.take
          (cic_filter_decimate ⟨2, 2, 0, 3, 1, [5, -1, 7, 0, 2, 9], false, true, 36, 12⟩ [100, 7, 50, 3, 9] 5).2.2 ++
        (cic_filter_decimate (cic_filter_decimate ⟨2, 2, 0, 3, 1, [5, -1, 7, 0, 2, 9], false, true, 36, 12⟩ [100, 7, 50, 3, 9] 5).1 [8, 200, 11] 3).2.1.take
          (cic_filter_decimate (cic_filter_decimate ⟨2, 2, 0, 3, 1, [5, -1, 7, 0, 2, 9], false, true, 36, 12⟩ [100, 7, 50, 3, 9] 5).1 [8, 200, 11] 3).2.2 =
        (cic_filter_decimate ⟨2, 2, 0, 3, 1, [5, -1, 7, 0, 2, 9], false, true, 36, 12⟩ [100, 7, 50, 3, 9, 8, 200, 11] 8).2.1.take
          (cic_filter_decimate ⟨2, 2, 0, 3, 1, [5, -1, 7, 0, 2, 9], false, true, 36, 12⟩ [100, 7, 50, 3, 9, 8, 200, 11] 8).2.2 ∧
      (cic_filter_decimate (cic_filter_decimate ⟨2, 2, 0, 3, 1, [5, -1, 7, 0, 2, 9], false, true, 36, 12⟩ [100, 7, 50, 3, 9] 5).1 [8, 200, 11] 3).1 =
        (cic_filter_decimate ⟨2, 2, 0, 3, 1, [5, -1, 7, 0, 2, 9], false, true, 36, 12⟩ [100, 7, 50, 3, 9, 8, 200, 11] 8).1 :=
  decimate_chunk_invariance ⟨2, 2, 0, 3, 1, [5, -1, 7, 0, 2, 9], false, true, 36, 12⟩
    [100, 7, 50, 3, 9] [8, 200, 11] (by decide) (by decide) (by decide) (by decide)

/-- C2: chunk invariance of `cic_filter_interpolate`. For every well-formed state `s`
and all sample lists `xs`, `ys`, each call being given a buffer (the samples followed by
arbitrary padding) of capacity at least its input length times `R`: the outputs of the call
on `xs` and of the call on `ys` from the persisted state, concatenated, are the outputs of
one call on `xs ++ ys`, and both runs end in the same filter state. -/
theorem interpolate_chunk_invariance (s : cic_filter) (xs ys pad1 pad2 pad : List Int)
    (hR : 1 ≤ s.R) (_hM : 1 ≤ s.M) (hdelay : s.delay.length = s.N + s.N * s.M)
    (_hmpos : s.mpos = 0 ∨ s.mpos = s.M - 1)
    (hcap1 : xs.length * s.R ≤ (xs ++ pad1).length)
    (hcap2 : ys.length * s.R ≤ (ys ++ pad2).length)
    (hcap : (xs.length + ys.length) * s.R ≤ (xs ++ ys ++ pad).length) :
    (cic_filter_interpolate s (xs ++ pad1) (xs ++ pad1).length xs.length).2.1.take
          (cic_filter_interpolate s (xs ++ pad1) (xs ++ pad1).length xs.length).2.2 ++
        (cic_filter_interpolate
            (cic_filter_interpolate s (xs ++ pad1) (xs ++ pad1).length xs.length).1
            (ys ++ pad2) (ys ++ pad2).length ys.length).2.1.take
          (cic_filter_interpolate
            (cic_filter_interpolate s (xs ++ pad1) (xs ++ pad1).length xs.length).1
            (ys ++ pad2) (ys ++ pad2).length ys.length).2.2 =
        (cic_filter_interpolate s (xs ++ ys ++ pad) (xs ++ ys ++ pad).length
            (xs.length + ys.length)).2.1.take
          (cic_filter_interpolate s (xs ++ ys ++ pad) (xs ++ ys ++ pad).length
            (xs.length + ys.length)).2.2 ∧
      (cic_filter_interpolate
          (cic_filter_interpolate s (xs ++ pad1) (xs ++ pad1).length xs.length).1
          (ys ++ pad2) (ys ++ pad2).length ys.length).1 =
        (cic_filter_interpolate s (xs ++ ys ++ pad) (xs ++ ys ++ pad).length
          (xs.length + ys.length)).1 := by
  have hN : s.N ≤ s.delay.length := by omega
  obtain ⟨a1, a2, -⟩ :=
    interpolate_out s (xs ++ pad1) (xs ++ pad1).length xs.length hN hR hcap1 hcap1
  simp only [List.take_left] at a1 a2
  have hN1 : (int_fn s xs).1.N ≤ (int_fn s xs).1.delay.length := by
    rw [int_fn_delay_length _ _ hN]; exact hN
  obtain ⟨b1, b2, -⟩ :=
    interpolate_out (int_fn s xs).1 (ys ++ pad2) (ys ++ pad2).length ys.length hN1 hR hcap2 hcap2
  simp only [List.take_left] at b1 b2
  obtain ⟨c1, c2, -⟩ :=
    interpolate_out s (xs ++ ys ++ pad) (xs ++ ys ++ pad).length (xs.length + ys.length) hN hR
      hcap hcap
  have ht : (xs ++ ys ++ pad).take (xs.length + ys.length) = xs ++ ys := by
    rw [← List.length_append, List.take_left]
  rw [ht] at c1 c2
  rw [a1, a2, b1, b2, c1, c2]
  simp only [int_fn_append _ _ _ hN, and_self]

theorem interpolate_chunk_invariance_witness :
    (cic_filter_interpolate ⟨2, 2, 1, 3, 0, [5, -1, 7, 0, 2, 9], false, true, 36, 12⟩
          ([100, 7] ++ [1, 1, 1, 1]) ([100, 7] ++ [1, 1, 1, 1]).length [100, 7].length).2.1.take
          (cic_filter_interpolate ⟨2, 2, 1, 3, 0, [5, -1, 7, 0, 2, 9], false, true, 36, 12⟩
            ([100, 7] ++ [1, 1, 1, 1]) ([100, 7] ++ [1, 1, 1, 1]).length [100, 7].length).2.2 ++
        (cic_filter_interpolate
            (cic_filter_interpolate ⟨2, 2, 1, 3, 0, [5, -1, 7, 0, 2, 9], false, true, 36, 12⟩
              ([100, 7] ++ [1, 1, 1, 1]) ([100, 7] ++ [1, 1, 1, 1]).length [100, 7].length).1
            ([50] ++ [2, 2, 2]) ([50] ++ [2, 2, 2]).length [50].length).2.1.take
          (cic_filter_interpolate
            (cic_filter_interpolate ⟨2, 2, 1, 3, 0, [5, -1, 7, 0, 2, 9], false, true, 36, 12⟩
              ([100, 7] ++ [1, 1, 1, 1]) ([100, 7] ++ [1, 1, 1, 1]).length [100, 7].length).1
            ([50] ++ [2, 2, 2]) ([50] ++ [2, 2, 2]).length [50].length).2.2 =
        (cic_filter_interpolate ⟨2, 2, 1, 3, 0, [5, -1, 7, 0, 2, 9], false, true, 36, 12⟩
            ([100, 7] ++ [50] ++ [3, 3, 3, 3, 3, 3]) ([100, 7] ++ [50] ++ [3, 3, 3, 3, 3, 3]).length
            ([100, 7].length + [50].length)).2.1.take
          (cic_filter_interpolate ⟨2, 2, 1, 3, 0, [5, -1, 7, 0, 2, 9], false, true, 36, 12⟩
            ([100, 7] ++ [50] ++ [3, 3, 3, 3, 3, 3]) ([100, 7] ++ [50] ++ [3, 3, 3, 3, 3, 3]).length
            ([100, 7].length + [50].length)).2.2 ∧
      (cic_filter_interpolate
          (cic_filter_interpolate ⟨2, 2, 1, 3, 0, [5, -1, 7, 0, 2, 9], false, true, 36, 12⟩
            ([100, 7] ++ [1, 1, 1, 1]) ([100, 7] ++ [1, 1, 1, 1]).length [100, 7].length).1
          ([50] ++ [2, 2, 2]) ([50] ++ [2, 2, 2]).length [50].length).1 =
        (cic_filter_interpolate ⟨2, 2, 1, 3, 0, [5, -1, 7, 0, 2, 9], false, true, 36, 12⟩
          ([100, 7] ++ [50] ++ [3, 3, 3, 3, 3, 3]) ([100, 7] ++ [50] ++ [3, 3, 3, 3, 3, 3]).length
          ([100, 7].length + [50].length)).1 :=
  interpolate_chunk_invariance ⟨2, 2, 1, 3, 0, [5, -1, 7, 0, 2, 9], false, true, 36, 12⟩
    [100, 7] [50] [1, 1, 1, 1] [2, 2, 2] [3, 3, 3, 3, 3, 3]
    (by decide) (by decide) (by decide) (by decide) (by decide) (by decide) (by decide)

/-- C3: capacity guard of `cic_filter_interpolate`. When `buf_len < len * R` the call
returns `0` and leaves the buffer and every field of the filter state as they were. -/
theorem interpolate_capacity_guard (p : cic_filter) (buf : List Int) (buf_len len : Nat)
    (h : buf_len < len * p.R) :
    cic_filter_interpolate p buf buf_len len = (p, buf, 0) := by
  unfold cic_filter_interpolate
  rw [if_pos h]

theorem interpolate_capacity_guard_witness :
    cic_filter_interpolate ⟨4, 2, 1, 5, 3, [1, 2, 3, 4, 5, 6, 7, 8, 9, 10, 11, 12], true, true, 10000, 2000⟩
        [6431, -6431, 17, 0, 0, 0, 0, 0, 0, 9] 14 3 =
      (⟨4, 2, 1, 5, 3, [1, 2, 3, 4, 5, 6, 7, 8, 9, 10, 11, 12], true, true, 10000, 2000⟩,
        [6431, -6431, 17, 0, 0, 0, 0, 0, 0, 9], 0) :=
  interpolate_capacity_guard
    ⟨4, 2, 1, 5, 3, [1, 2, 3, 4, 5, 6, 7, 8, 9, 10, 11, 12], true, true, 10000, 2000⟩
    [6431, -6431, 17, 0, 0, 0, 0, 0, 0, 9] 14 3 (by decide)

/-- C10: output length of `cic_filter_interpolate` on success. For every state with
`R ≥ 1` and every capacity `buf_len ≥ len * R`, equality included, the call returns
`len * R`. -/
theorem interpolate_returns_len_mul (p : cic_filter) (buf : List Int) (buf_len len : Nat)
    (_hR : 1 ≤ p.R) (hcap : len * p.R ≤ buf_len) :
    (cic_filter_interpolate p buf buf_len len).2.2 = len * p.R := by
  have hc : (cic_comb p buf len).1.R = p.R := rfl
  unfold cic_filter_interpolate
  rw [if_neg (by omega)]
  simp only [cic_rate_up, hc]
  rw [if_neg (by omega)]

theorem interpolate_returns_len_mul_witness :
    (cic_filter_interpolate ⟨4, 2, 0, 5, 0, [0, 0, 0, 0, 0, 0, 0, 0, 0, 0, 0, 0], true, true, 10000, 2000⟩
        [6431, -6431, 17, 0, 0, 0, 0, 0, 0, 0, 0, 0, 0, 0, 0] 15 3).2.2 = 3 * 5 :=
  interpolate_returns_len_mul
    ⟨4, 2, 0, 5, 0, [0, 0, 0, 0, 0, 0, 0, 0, 0, 0, 0, 0], true, true, 10000, 2000⟩
    [6431, -6431, 17, 0, 0, 0, 0, 0, 0, 0, 0, 0, 0, 0, 0] 15 3 (by decide) (by decide)

theorem wrap32_modEq (x : Int) : wrap32 x ≡ x [ZMOD 4294967296] := by
  unfold wrap32 Int.ModEq
  omega

theorem wrap32_range (x : Int) : -2147483648 ≤ wrap32 x ∧ wrap32 x < 2147483648 := by
  unfold wrap32
  omega

theorem wrap32_id (x : Int) (h1 : -2147483648 ≤ x) (h2 : x < 2147483648) : wrap32 x = x := by
  unfold wrap32
  omega

theorem eq_of_modEq_range (x y : Int) (h : x ≡ y [ZMOD 4294967296])
    (hx1 : -2147483648 ≤ x) (hx2 : x < 2147483648)
    (hy1 : -2147483648 ≤ y) (hy2 : y < 2147483648) : x = y := by
  unfold Int.ModEq at h
  omega

theorem toSize_modEq (x : Int) : (toSize x : Int) ≡ x [ZMOD 4294967296] := by
  unfold toSize Int.ModEq
  omega

theorem natmod_modEq (n : Nat) :
    ((n % 18446744073709551616 : Nat) : Int) ≡ (n : Int) [ZMOD 4294967296] := by
  unfold Int.ModEq
  omega

theorem cic_pow_step_modEq (r : Int) (b : Nat) :
    wrap32 ((toSize r * b % 18446744073709551616 : Nat) : Int) ≡ r * b [ZMOD 4294967296] := by
  refine (wrap32_modEq _).trans ((natmod_modEq _).trans ?_)
  push_cast
  exact (toSize_modEq r).mul_right _

theorem cic_pow_loop_modEq : ∀ (fuel : Nat) (r : Int) (b e : Nat), e < fuel →
    cic_pow_loop fuel r b e ≡ r * (b : Int) ^ e [ZMOD 4294967296] := by
  intro fuel
  induction fuel with
  | zero => intro r b e h; omega
  | succ f ih =>
    intro r b e h
    have hsq : ((b * b % 18446744073709551616 : Nat) : Int) ^ (e / 2) ≡
        (b : Int) ^ (2 * (e / 2)) [ZMOD 4294967296] := by
      rw [pow_mul]
      refine Int.ModEq.pow _ ?_
      refine (natmod_modEq _).trans ?_
      push_cast
      rw [sq]
    simp only [cic_pow_loop]
    by_cases hodd : e % 2 = 1
    · simp only [hodd, if_true]
      have he : e = 2 * (e / 2) + 1 := by omega
      by_cases hz : e / 2 = 0
      · simp only [hz, if_true]
        have : e = 1 := by omega
        subst this
        simpa using cic_pow_step_modEq r b
      · simp only [hz, if_false]
        refine (ih _ _ _ (by omega)).trans ?_
        have h1 := (cic_pow_step_modEq r b).mul hsq
        refine h1.trans ?_
        conv_rhs => rw [he]
        rw [pow_succ]
        have : r * ↑b * ↑b ^ (2 * (e / 2)) = r * (↑b ^ (2 * (e / 2)) * ↑b) := by ring
        rw [this]
    · have hodd' : ¬ (e % 2 = 1) := hodd
      simp only [hodd', if_false]
      have he : e = 2 * (e / 2) := by omega
      by_cases hz : e / 2 = 0
      · simp only [hz, if_true]
        have : e = 0 := by omega
        subst this
        simp
      · simp only [hz, if_false]
        refine (ih _ _ _ (by omega)).trans ?_
        have h1 := (Int.ModEq.refl r).mul hsq
        refine h1.trans ?_
        conv_rhs => rw [he]

theorem cic_pow_loop_range : ∀ (fuel : Nat) (r : Int) (b e : Nat),
    -2147483648 ≤ r → r < 2147483648 →
    -2147483648 ≤ cic_pow_loop fuel r b e ∧ cic_pow_loop fuel r b e < 2147483648 := by
  intro fuel
  induction fuel with
  | zero => intro r b e h1 h2; exact ⟨h1, h2⟩
  | succ f ih =>
    intro r b e h1 h2
    simp only [cic_pow_loop]
    by_cases hodd : e % 2 = 1
    · simp only [hodd, if_true]
      by_cases hz : e / 2 = 0
      · simp only [hz, if_true]; exact wrap32_range _
      · simp only [hz, if_false]; exact ih _ _ _ (wrap32_range _).1 (wrap32_range _).2
    · have hodd' : ¬ (e % 2 = 1) := hodd
      simp only [hodd', if_false]
      by_cases hz : e / 2 = 0
      · simp only [hz, if_true]; exact ⟨h1, h2⟩
      · simp only [hz, if_false]; exact ih _ _ _ h1 h2

theorem cic_pow_eq (b e : Nat) : cic_pow b e = wrap32 ((b : Int) ^ e) := by
  have h1 := cic_pow_loop_modEq (e + 1) 1 b e (by omega)
  have h2 := cic_pow_loop_range (e + 1) 1 b e (by norm_num) (by norm_num)
  rw [one_mul] at h1
  unfold cic_pow
  exact eq_of_modEq_range _ _ (h1.trans (wrap32_modEq _).symm) h2.1 h2.2 (wrap32_range _).1
    (wrap32_range _).2

theorem cic_pow_fit (b e : Nat) (h : b ^ e ≤ 2147483647) : cic_pow b e = ((b ^ e : Nat) : Int) := by
  rw [cic_pow_eq]
  have h' : ((b ^ e : Nat) : Int) ≤ 2147483647 := by exact_mod_cast h
  have h0 : (0 : Int) ≤ ((b ^ e : Nat) : Int) := Int.natCast_nonneg _
  push_cast at h' h0 ⊢
  exact wrap32_id _ (by omega) (by omega)

theorem toSize_natCast (n : Nat) (h : n ≤ 2147483647) : toSize (n : Int) = n := by
  unfold toSize
  omega

theorem pow_div_self (R M N : Nat) (hN : 1 ≤ N) (hR : 1 ≤ R) :
    (R * M) ^ N / R = R ^ (N - 1) * M ^ N ∧ (R * M) ^ N % R = 0 := by
  obtain ⟨k, rfl⟩ : ∃ k, N = k + 1 := ⟨N - 1, by omega⟩
  have h : (R * M) ^ (k + 1) = R * (R ^ k * M ^ (k + 1)) := by
    rw [mul_pow, pow_succ R k]; ring
  rw [h]
  simp only [Nat.add_sub_cancel]
  exact ⟨Nat.mul_div_cancel_left _ (by omega), Nat.mul_mod_right _ _⟩

/-- C9: divisor correctness. For `N, M, R ≥ 1` with `(R * M) ^ N ≤ 2^31 - 1`, `cic_pow`
returns `(R * M) ^ N`, and a successful `cic_filter_init` with `normalize = true` stores
`ddiv = (R * M) ^ N` and `idiv = (R * M) ^ N / R`, which is `R ^ (N - 1) * M ^ N` with no
remainder. -/
theorem init_divisors (N M R : Nat) (delay : Option (List Int))
    (cic_malloc : Nat → Option (List Int)) (p : cic_filter)
    (hN : 1 ≤ N) (_hM : 1 ≤ M) (hR : 1 ≤ R) (hfit : (R * M) ^ N ≤ 2147483647)
    (hinit : cic_filter_init N M R delay true cic_malloc = some p) :
    cic_pow (R * M) N = (((R * M) ^ N : Nat) : Int) ∧
      p.ddiv = (((R * M) ^ N : Nat) : Int) ∧
      p.idiv = (((R * M) ^ N / R : Nat) : Int) ∧
      (R * M) ^ N / R = R ^ (N - 1) * M ^ N ∧
      (R * M) ^ N % R = 0 := by
  have hp := cic_pow_fit (R * M) N hfit
  have hd := pow_div_self R M N hN hR
  refine ⟨hp, ?_, ?_, hd.1, hd.2⟩
  · unfold cic_filter_init at hinit
    simp only at hinit
    split at hinit
    · exact absurd hinit (by simp)
    · simp only [Option.some.injEq] at hinit
      rw [← hinit]
      simp [hp]
  · unfold cic_filter_init at hinit
    simp only at hinit
    split at hinit
    · exact absurd hinit (by simp)
    · simp only [Option.some.injEq] at hinit
      rw [← hinit]
      simp only [if_true, hp, toSize_natCast _ hfit]
      have hle : (R * M) ^ N / R ≤ 2147483647 := le_trans (Nat.div_le_self _ _) hfit
      exact wrap32_id _ (by omega) (by omega)

theorem init_divisors_witness :
    cic_filter_init 4 1 5 none true (fun n => some (List.replicate n 7)) =
        some ⟨4, 1, 0, 5, 0, [0, 0, 0, 0, 0, 0, 0, 0], true, true, 625, 125⟩ ∧
      cic_pow (5 * 1) 4 = (((5 * 1) ^ 4 : Nat) : Int) ∧
      (⟨4, 1, 0, 5, 0, [0, 0, 0, 0, 0, 0, 0, 0], true, true, 625, 125⟩ : cic_filter).ddiv =
        (((5 * 1) ^ 4 : Nat) : Int) ∧
      (⟨4, 1, 0, 5, 0, [0, 0, 0, 0, 0, 0, 0, 0], true, true, 625, 125⟩ : cic_filter).idiv =
        (((5 * 1) ^ 4 / 5 : Nat) : Int) ∧
      (5 * 1) ^ 4 / 5 = 5 ^ (4 - 1) * 1 ^ 4 ∧
      (5 * 1) ^ 4 % 5 = 0 :=
  ⟨by decide,
    init_divisors 4 1 5 none (fun n => some (List.replicate n 7))
      ⟨4, 1, 0, 5, 0, [0, 0, 0, 0, 0, 0, 0, 0], true, true, 625, 125⟩
      (by decide) (by decide) (by decide) (by decide) (by decide)⟩

theorem sD_sI_eq_sB (K : Nat) (x : Nat → Int) (n : Nat) : sD K (sI x) n = sB K x n := by
  induction K with
  | zero => simp [sD, sB]
  | succ K ih =>
    simp only [sB, ← ih, sD]
    by_cases h1 : K + 1 ≤ n
    · have h2 : K ≤ n := by omega
      simp only [h1, h2, if_true]
      have : n - K = (n - (K + 1)) + 1 := by omega
      rw [this, sI]
      ring
    · by_cases h2 : K ≤ n
      · have : n - K = 0 := by omega
        simp only [h1, h2, if_true, if_false, this, sI]
        ring
      · simp [h1, h2]

theorem sI_sD_comm (K : Nat) (x : Nat → Int) (n : Nat) : sI (sD K x) n = sD K (sI x) n := by
  induction n with
  | zero => simp [sI, sD]
  | succ n ih =>
    rw [sI, ih]
    simp only [sD, sI]
    by_cases h1 : K ≤ n
    · have h2 : K ≤ n + 1 := by omega
      have : n + 1 - K = (n - K) + 1 := by omega
      simp only [h1, h2, if_true, this, sI]
      ring
    · by_cases h2 : K ≤ n + 1
      · have : n + 1 - K = 0 := by omega
        simp only [h1, h2, if_true, if_false, this, sI]
        ring
      · simp [h1, h2]

theorem sD_sDown (R M : Nat) (hR : 0 < R) (u : Nat → Int) (k : Nat) :
    sD M (sDown R u) k = sDown R (sD (R * M) u) k := by
  simp only [sD, sDown]
  by_cases h : M ≤ k
  · have h2 : R * M ≤ k * R := by rw [Nat.mul_comm R M]; exact Nat.mul_le_mul_right R h
    have h3 : (k - M) * R = k * R - R * M := by rw [Nat.sub_mul, Nat.mul_comm R M]
    simp [h, h2, h3]
  · have h2 : ¬ R * M ≤ k * R := by
      intro hc
      rw [Nat.mul_comm R M] at hc
      exact h (Nat.le_of_mul_le_mul_right hc hR)
    simp [h, h2]

theorem sUp_sD (R M : Nat) (hR : 0 < R) (u : Nat → Int) (n : Nat) :
    sUp R (sD M u) n = sD (R * M) (sUp R u) n := by
  simp only [sD, sUp]
  by_cases hm : n % R = 0
  · obtain ⟨q, rfl⟩ : ∃ q, n = R * q := ⟨n / R, by
      have := Nat.div_add_mod n R; omega⟩
    have hq : R * q / R = q := Nat.mul_div_cancel_left q hR
    by_cases h : M ≤ q
    · have h2 : R * M ≤ R * q := Nat.mul_le_mul_left R h
      have h3 : R * q - R * M = R * (q - M) := by rw [Nat.mul_sub]
      simp [hq, h, h2, h3, Nat.mul_div_cancel_left _ hR]
    · have h2 : ¬ R * M ≤ R * q := by
        intro hc
        exact h (Nat.le_of_mul_le_mul_left hc hR)
      simp [hq, h, h2]
  · by_cases h : R * M ≤ n
    · have h3 : (n - R * M) % R = n % R := by
        have : n = (n - R * M) + R * M := by omega
        conv_rhs => rw [this]
        simp
      simp [hm, h, h3]
    · simp [hm, h]

theorem sI_sUp (R : Nat) (w : Nat → Int) (n : Nat) :
    sI (sUp R w) n = sHold R (sI w) n := by
  induction n with
  | zero => simp [sI, sUp, sHold]
  | succ n ih =>
    rw [sI, ih]
    simp only [sHold, sUp]
    rw [Nat.succ_div]
    by_cases h : R ∣ n + 1
    · have hm : (n + 1) % R = 0 := Nat.mod_eq_zero_of_dvd h
      have hd : (n + 1) / R = n / R + 1 := by rw [Nat.succ_div]; simp [h]
      simp only [h, if_true, hm, hd, sI]
    · have hm : ¬ (n + 1) % R = 0 := fun hc => h (Nat.dvd_of_mod_eq_zero hc)
      simp [h, hm]

theorem sD_sHold (R M : Nat) (hR : 0 < R) (u : Nat → Int) (n : Nat) :
    sD (R * M) (sHold R u) n = sHold R (sD M u) n := by
  simp only [sD, sHold]
  by_cases h : R * M ≤ n
  · have h2 : M ≤ n / R := by
      rw [Nat.le_div_iff_mul_le hR, Nat.mul_comm]; exact h
    have h3 : (n - R * M) / R = n / R - M := Nat.sub_mul_div n R M h
    simp [h, h2, h3]
  · have h2 : ¬ M ≤ n / R := by
      rw [Nat.le_div_iff_mul_le hR, Nat.mul_comm]; exact h
    simp [h, h2]

theorem sB_eq_comp (K : Nat) : sB K = sD K ∘ sI := by
  funext x n
  exact (sD_sI_eq_sB K x n).symm

theorem sD_sI_commute (K : Nat) : Function.Commute (sD K) sI := by
  intro x
  funext n
  exact (sI_sD_comm K x n).symm

theorem sB_iterate (K N : Nat) (x : Nat → Int) :
    (sB K)^[N] x = (sD K)^[N] (sI^[N] x) := by
  rw [sB_eq_comp, (sD_sI_commute K).comp_iterate]
  rfl

theorem sB_iterate' (K N : Nat) (x : Nat → Int) :
    (sB K)^[N] x = sI^[N] ((sD K)^[N] x) := by
  rw [sB_iterate]
  exact ((sD_sI_commute K).iterate_iterate N N) x

/-- Ideal decimator: `N` integrators, keep every `R`-th sample, `N` combs of delay `M`
is the `N`-fold moving sum of length `R * M` read at the indices `k * R`. -/
theorem decimator_ideal (R M N : Nat) (hR : 0 < R) (x : Nat → Int) :
    (sD M)^[N] (sDown R (sI^[N] x)) = sDown R ((sB (R * M))^[N] x) := by
  have hs : Function.Semiconj (sDown R) (sD (R * M)) (sD M) := by
    intro u
    funext k
    exact (sD_sDown R M hR u k).symm
  rw [sB_iterate]
  exact ((hs.iterate_right N) _).symm

/-- Ideal interpolator: `N` combs of delay `M`, zero stuffing by `R`, `N` integrators
is the `N`-fold moving sum of length `R * M` of the zero-stuffed input. -/
theorem interpolator_ideal (R M N : Nat) (hR : 0 < R) (x : Nat → Int) :
    sI^[N] (sUp R ((sD M)^[N] x)) = (sB (R * M))^[N] (sUp R x) := by
  have hs : Function.Semiconj (sUp R) (sD M) (sD (R * M)) := by
    intro u
    funext n
    exact sUp_sD R M hR u n
  rw [sB_iterate', (hs.iterate_right N) x]

theorem sB_sUp (R M : Nat) (hR : 0 < R) (x : Nat → Int) :
    sB (R * M) (sUp R x) = sHold R (sB M x) := by
  funext n
  have h1 : sI (sUp R x) = sHold R (sI x) := by
    funext m
    exact sI_sUp R x m
  have h2 : sD M (sI x) = sB M x := by
    funext m
    exact sD_sI_eq_sB M x m
  rw [← sD_sI_eq_sB, h1, sD_sHold R M hR, h2]

theorem interpolator_ideal_hold (R M N : Nat) (hR : 0 < R) (x : Nat → Int) :
    sI^[N + 1] (sUp R ((sD M)^[N + 1] x)) = (sB (R * M))^[N] (sHold R (sB M x)) := by
  rw [interpolator_ideal R M (N + 1) hR, Function.iterate_succ_apply, sB_sUp R M hR]

theorem sB_bound (K : Nat) (x : Nat → Int) (A : Int) (hA : 0 ≤ A) (hx : ∀ i, |x i| ≤ A)
    (n : Nat) : |sB K x n| ≤ K * A := by
  induction K with
  | zero => simp [sB]
  | succ K ih =>
    simp only [sB]
    have h1 : |if K ≤ n then x (n - K) else 0| ≤ A := by
      split
      · exact hx _
      · simpa using hA
    have h2 := abs_add (sB K x n) (if K ≤ n then x (n - K) else 0)
    push_cast
    linarith

theorem sB_iterate_bound (K : Nat) : ∀ (N : Nat) (x : Nat → Int) (A : Int), 0 ≤ A →
    (∀ i, |x i| ≤ A) → ∀ n, |(sB K)^[N] x n| ≤ (K : Int) ^ N * A := by
  intro N
  induction N with
  | zero => intro x A _ hx n; simpa using hx n
  | succ N ih =>
    intro x A hA hx n
    rw [Function.iterate_succ_apply]
    have h := ih (sB K x) (K * A) (by positivity) (fun i => sB_bound K x A hA hx i) n
    rw [pow_succ]
    linarith [h, mul_assoc ((K : Int) ^ N) (K : Int) A]

theorem sB_const (x : Nat → Int) (n : Nat) (c : Int) : ∀ (K : Nat),
    (∀ t, t < K → t ≤ n ∧ x (n - t) = c) → sB K x n = K * c := by
  intro K
  induction K with
  | zero => intro _; simp [sB]
  | succ K ih =>
    intro h
    simp only [sB]
    rw [ih (fun t ht => h t (by omega))]
    obtain ⟨h1, h2⟩ := h K (by omega)
    simp only [h1, if_true, h2]
    push_cast
    ring

theorem sB_iterate_const (K : Nat) : ∀ (N : Nat) (x : Nat → Int) (n : Nat) (c : Int),
    N * (K - 1) ≤ n → (∀ i, n - N * (K - 1) ≤ i → i ≤ n → x i = c) →
    (sB K)^[N] x n = (K : Int) ^ N * c := by
  intro N
  induction N with
  | zero => intro x n c _ h; simpa using h n (by omega) (by omega)
  | succ N ih =>
    intro x n c hn h
    rw [Function.iterate_succ_apply']
    rw [Nat.succ_mul] at hn h
    rw [sB_const _ n ((K : Int) ^ N * c) K]
    · rw [pow_succ]; ring
    · intro t ht
      refine ⟨by omega, ?_⟩
      apply ih x (n - t) c (by omega)
      intro i hi1 hi2
      exact h i (by omega) (by omega)

theorem runS_integ_nil (xs : List Int) : runS integ_acc [] xs = ([], xs) := by
  induction xs with
  | nil => rfl
  | cons x xs ih => simp [runS, integ_acc, ih]

theorem runS_integ_cons (xs : List Int) : ∀ (a : Int) (as : List Int),
    runS integ_acc (a :: as) xs =
      (iacc a xs :: (runS integ_acc as (isum a xs)).1, (runS integ_acc as (isum a xs)).2) := by
  induction xs with
  | nil => intro a as; simp [runS, iacc, isum]
  | cons x xs ih =>
    intro a as
    simp only [runS, integ_acc, iacc, isum, ih]

theorem isum_length (l : List Int) : ∀ a, (isum a l).length = l.length := by
  induction l with
  | nil => intro a; rfl
  | cons x xs ih => intro a; simp [isum, ih]

theorem isum_getD (l : List Int) : ∀ (a : Int) (i : Nat), i < l.length →
    (isum a l).getD i 0 ≡ a + (l.take (i + 1)).sum [ZMOD 4294967296] := by
  induction l with
  | nil => intro a i h; simp at h
  | cons x xs ih =>
    intro a i h
    cases i with
    | zero =>
      simp only [isum, List.getD_cons_zero, List.take_succ_cons, List.take_zero, List.sum_cons,
        List.sum_nil, add_zero]
      rw [add_comm a x]
      exact wrap32_modEq _
    | succ i =>
      simp only [isum, List.getD_cons_succ, List.take_succ_cons, List.sum_cons]
      refine (ih _ i (by simpa using h)).trans ?_
      have := (wrap32_modEq (x + a)).add_right ((xs.take (i + 1)).sum)
      refine this.trans ?_
      rw [add_comm x a, add_assoc]

theorem sum_take_tracks (l : List Int) (u : Nat → Int) (h : tracks l u) : ∀ i, i < l.length →
    (l.take (i + 1)).sum ≡ sI u i [ZMOD 4294967296] := by
  intro i
  induction i with
  | zero =>
    intro hi
    rw [take_succ_getD _ _ hi]
    simpa [sI] using h 0 hi
  | succ i ih =>
    intro hi
    rw [take_succ_getD _ _ hi, List.sum_append, sI]
    simpa using (ih (by omega)).add (h (i + 1) hi)

theorem tracks_isum (l : List Int) (u : Nat → Int) (h : tracks l u) :
    tracks (isum 0 l) (sI u) := by
  intro i hi
  rw [isum_length] at hi
  have h1 := isum_getD l 0 i hi
  rw [zero_add] at h1
  exact h1.trans (sum_take_tracks l u h i hi)

theorem tracks_ofList (l : List Int) : tracks l (ofList l) := by
  intro i _
  exact Int.ModEq.refl _

theorem integ_tracks : ∀ (N : Nat) (l : List Int) (u : Nat → Int), tracks l u →
    tracks (runS integ_acc (List.replicate N 0) l).2 (sI^[N] u) := by
  intro N
  induction N with
  | zero => intro l u h; simpa [runS_integ_nil] using h
  | succ N ih =>
    intro l u h
    rw [List.replicate_succ, runS_integ_cons, Function.iterate_succ_apply]
    exact ih _ _ (tracks_isum l u h)

theorem runS_forall {σ : Type} (g : σ → Int → σ × Int) (Inv : σ → Prop) (P : Int → Prop)
    (hg : ∀ s x, Inv s → Inv (g s x).1 ∧ P (g s x).2) (xs : List Int) :
    ∀ s, Inv s → ∀ y ∈ (runS g s xs).2, P y := by
  induction xs with
  | nil => intro s _ y hy; simp [runS] at hy
  | cons x xs ih =>
    intro s hs y hy
    simp only [runS, List.mem_cons] at hy
    rcases hy with rfl | hy
    · exact (hg s x hs).2
    · exact ih _ (hg s x hs).1 y hy

theorem integ_acc_range (as : List Int) : ∀ (sum : Int), as ≠ [] →
    -2147483648 ≤ (integ_acc as sum).2 ∧ (integ_acc as sum).2 < 2147483648 := by
  induction as with
  | nil => intro sum h; exact absurd rfl h
  | cons a as ih =>
    intro sum _
    cases as with
    | nil => simp only [integ_acc]; exact wrap32_range _
    | cons b bs => simp only [integ_acc]; exact ih _ (by simp)

theorem integ_inRange (as : List Int) (xs : List Int) (h : as ≠ []) :
    inRange (runS integ_acc as xs).2 := by
  refine runS_forall integ_acc (fun s => s ≠ []) _ ?_ xs as h
  intro s x hs
  refine ⟨?_, integ_acc_range s x hs⟩
  intro hc
  have := integ_acc_length s x
  rw [hc] at this
  exact hs (List.length_eq_zero.mp this.symm)

theorem comb_stages_eq_acc (m mpos : Nat) (hm : 0 < m) : ∀ (n fuel s : Nat) (c : List Int)
    (sum : Int), n ≤ fuel →
    comb_stages 0 m (s + n * m) mpos fuel s c sum = comb_acc m mpos n s c sum := by
  intro n
  induction n with
  | zero =>
    intro fuel s c sum _
    cases fuel with
    | zero => simp [comb_stages, comb_acc]
    | succ f => simp [comb_stages, comb_acc]
  | succ n ih =>
    intro fuel s c sum hf
    cases fuel with
    | zero => omega
    | succ f =>
      have hlt : s < s + (n + 1) * m := by
        have : 0 < (n + 1) * m := Nat.mul_pos (by omega) hm
        omega
      have hs : s + (n + 1) * m = (s + m) + n * m := by rw [Nat.succ_mul]; omega
      simp only [comb_stages, comb_acc, hlt, if_true, Nat.zero_add]
      rw [hs, ih f (s + m) _ _ (by omega)]

theorem comb_fn_eq_acc (N m : Nat) (hm : 0 < m) (s : List Int × Nat) (x : Int) :
    comb_fn N m s x =
      (((comb_acc m s.2 N 0 s.1 x).1, s.2 ^^^ (m - 1)), (comb_acc m s.2 N 0 s.1 x).2) := by
  have h := comb_stages_eq_acc m s.2 hm N (N * m) 0 s.1 x (Nat.le_mul_of_pos_right N hm)
  rw [Nat.zero_add] at h
  simp only [comb_fn, h]

theorem comb_acc_off (m mpos : Nat) (pre : List Int) : ∀ (n s : Nat) (c : List Int) (sum : Int),
    comb_acc m mpos n (pre.length + s) (pre ++ c) sum =
      (pre ++ (comb_acc m mpos n s c sum).1, (comb_acc m mpos n s c sum).2) := by
  intro n
  induction n with
  | zero => intro s c sum; simp [comb_acc]
  | succ n ih =>
    intro s c sum
    simp only [comb_acc]
    rw [Nat.add_assoc pre.length s mpos, getD_append_off, set_append_off,
      Nat.add_assoc pre.length s m, ih]

theorem getD_append_lt (blk rest : List Int) (i : Nat) (h : i < blk.length) :
    (blk ++ rest).getD i 0 = blk.getD i 0 := by
  simp [List.getD, List.getElem?_append_left h]

theorem set_append_lt (blk rest : List Int) (i : Nat) (v : Int) (h : i < blk.length) :
    (blk ++ rest).set i v = blk.set i v ++ rest := by
  rw [List.set_append]
  simp [h]

theorem comb_acc_succ (m mpos : Nat) (blk rest : List Int) (n : Nat) (sum : Int)
    (hb : blk.length = m) (hp : mpos < m) :
    comb_acc m mpos (n + 1) 0 (blk ++ rest) sum =
      (blk.set mpos sum ++ (comb_acc m mpos n 0 rest (wrap32 (sum - blk.getD mpos 0))).1,
        (comb_acc m mpos n 0 rest (wrap32 (sum - blk.getD mpos 0))).2) := by
  simp only [comb_acc, Nat.zero_add]
  rw [getD_append_lt _ _ _ (by omega), set_append_lt _ _ _ _ (by omega)]
  have h := comb_acc_off m mpos (blk.set mpos sum) n 0 rest (wrap32 (sum - blk.getD mpos 0))
  simp only [List.length_set, hb, Nat.add_zero] at h
  exact h

theorem mpos_xor (m mpos : Nat) (h : mpos = 0 ∨ mpos = m - 1) :
    mpos ^^^ (m - 1) = 0 ∨ mpos ^^^ (m - 1) = m - 1 := by
  rcases h with h | h
  · right; rw [h]; simp
  · left; rw [h]; simp

theorem mpos_lt (m mpos : Nat) (hm : 0 < m) (h : mpos = 0 ∨ mpos = m - 1) : mpos < m := by
  omega

theorem runS_comb_cons (m n : Nat) (hm : 0 < m) (xs : List Int) :
    ∀ (blk rest : List Int) (mpos : Nat), blk.length = m → (mpos = 0 ∨ mpos = m - 1) →
    runS (comb_fn (n + 1) m) (blk ++ rest, mpos) xs =
      (((runS (comb1 m) (blk, mpos) xs).1.1 ++
          (runS (comb_fn n m) (rest, mpos) (runS (comb1 m) (blk, mpos) xs).2).1.1,
          (runS (comb1 m) (blk, mpos) xs).1.2),
        (runS (comb_fn n m) (rest, mpos) (runS (comb1 m) (blk, mpos) xs).2).2) := by
  induction xs with
  | nil => intro blk rest mpos _ _; simp [runS]
  | cons x xs ih =>
    intro blk rest mpos hb hp
    have hlt := mpos_lt m mpos hm hp
    simp only [runS, comb_fn_eq_acc _ _ hm, comb_acc_succ m mpos blk rest n x hb hlt]
    rw [ih (blk.set mpos x) _ (mpos ^^^ (m - 1)) (by simp [hb]) (mpos_xor m mpos hp)]
    simp only [comb1]

theorem runS_comb_zero (m : Nat) (xs : List Int) : ∀ (c : List Int) (mpos : Nat),
    (runS (comb_fn 0 m) (c, mpos) xs).2 = xs := by
  induction xs with
  | nil => intro c mpos; rfl
  | cons x xs ih =>
    intro c mpos
    simp only [runS, comb_fn, Nat.zero_mul, comb_stages]
    rw [ih]

theorem comb1_one (xs : List Int) : ∀ (a : Int),
    (runS (comb1 1) ([a], 0) xs).2 = cdiff [a] xs := by
  induction xs with
  | nil => intro a; rfl
  | cons x xs ih =>
    intro a
    have h := ih x
    simp only [runS, comb1, cdiff, List.zipWith_cons_cons, List.singleton_append] at h ⊢
    simp only [List.set_cons_zero, List.getD_cons_zero, Nat.sub_self, Nat.xor_zero]
    rw [h]

theorem comb1_two (xs : List Int) : ∀ (a b : Int),
    (runS (comb1 2) ([a, b], 0) xs).2 = cdiff [a, b] xs ∧
      (runS (comb1 2) ([b, a], 1) xs).2 = cdiff [a, b] xs := by
  induction xs with
  | nil => intro a b; exact ⟨rfl, rfl⟩
  | cons x xs ih =>
    intro a b
    have h := ih b x
    simp only [cdiff, List.cons_append, List.nil_append] at h
    constructor
    · simp only [runS, comb1, cdiff, List.cons_append, List.nil_append, List.zipWith_cons_cons]
      have e1 : ([a, b] : List Int).set 0 x = [x, b] := rfl
      have e2 : (0 : Nat) ^^^ (2 - 1) = 1 := by decide
      have e3 : ([a, b] : List Int).getD 0 0 = a := rfl
      rw [e1, e2, e3, h.2]
    · simp only [runS, comb1, cdiff, List.cons_append, List.nil_append, List.zipWith_cons_cons]
      have e1 : ([b, a] : List Int).set 1 x = [b, x] := rfl
      have e2 : (1 : Nat) ^^^ (2 - 1) = 0 := by decide
      have e3 : ([b, a] : List Int).getD 1 0 = a := rfl
      rw [e1, e2, e3, h.1]

theorem comb1_zeros (m : Nat) (hm : m = 1 ∨ m = 2) (xs : List Int) :
    (runS (comb1 m) (List.replicate m 0, 0) xs).2 = cdiff (List.replicate m 0) xs := by
  rcases hm with rfl | rfl
  · exact comb1_one xs 0
  · exact (comb1_two xs 0 0).1

theorem cdiff_length (h xs : List Int) : (cdiff h xs).length = xs.length := by
  simp [cdiff]

theorem cdiff_getD (m : Nat) (xs : List Int) (i : Nat) (hi : i < xs.length) :
    (cdiff (List.replicate m 0) xs).getD i 0 =
      wrap32 (xs.getD i 0 - (if m ≤ i then xs.getD (i - m) 0 else 0)) := by
  have hl : i < (cdiff (List.replicate m 0) xs).length := by rw [cdiff_length]; exact hi
  have hl2 : i < (List.replicate m 0 ++ xs).length := by simp; omega
  rw [List.getD_eq_getElem _ _ hl]
  simp only [cdiff, List.getElem_zipWith]
  rw [List.getD_eq_getElem _ _ hi]
  congr 2
  by_cases hmi : m ≤ i
  · simp only [hmi, if_true]
    rw [List.getElem_append_right (by simpa using hmi)]
    rw [List.getD_eq_getElem _ _ (by omega)]
    simp
  · simp only [hmi, if_false]
    rw [List.getElem_append_left (by simpa using hmi)]
    simp

theorem tracks_cdiff (m : Nat) (l : List Int) (u : Nat → Int) (h : tracks l u) :
    tracks (cdiff (List.replicate m 0) l) (sD m u) := by
  intro i hi
  rw [cdiff_length] at hi
  rw [cdiff_getD m l i hi]
  refine (wrap32_modEq _).trans ?_
  simp only [sD]
  by_cases hmi : m ≤ i
  · simp only [hmi, if_true]
    exact (h i hi).sub (h (i - m) (by omega))
  · simp only [hmi, if_false]
    exact (h i hi).sub (Int.ModEq.refl 0)

theorem comb_tracks (m : Nat) (hm : m = 1 ∨ m = 2) : ∀ (N : Nat) (l tail : List Int)
    (u : Nat → Int), tracks l u →
    tracks (runS (comb_fn N m) (List.replicate (N * m) 0 ++ tail, 0) l).2 ((sD m)^[N] u) := by
  have hm0 : 0 < m := by omega
  intro N
  induction N with
  | zero => intro l tail u h; simpa [runS_comb_zero] using h
  | succ N ih =>
    intro l tail u h
    have hrep : List.replicate ((N + 1) * m) 0 ++ tail =
        List.replicate m (0 : Int) ++ (List.replicate (N * m) 0 ++ tail) := by
      rw [← List.append_assoc, ← List.replicate_add]
      congr 2
      rw [Nat.succ_mul]; omega
    rw [hrep, runS_comb_cons m N hm0 l _ _ 0 (by simp) (Or.inl rfl), comb1_zeros m hm,
      Function.iterate_succ_apply]
    exact ih _ _ _ (tracks_cdiff m l u h)

theorem comb_acc_range (m mpos : Nat) : ∀ (n s : Nat) (c : List Int) (sum : Int),
    (-2147483648 ≤ sum ∧ sum < 2147483648) →
    -2147483648 ≤ (comb_acc m mpos n s c sum).2 ∧ (comb_acc m mpos n s c sum).2 < 2147483648 := by
  intro n
  induction n with
  | zero => intro s c sum h; exact h
  | succ n ih => intro s c sum _; simp only [comb_acc]; exact ih _ _ _ (wrap32_range _)

theorem comb_inRange (N m : Nat) (hN : 0 < N) (hm : 0 < m) (st : List Int × Nat)
    (xs : List Int) : inRange (runS (comb_fn N m) st xs).2 := by
  refine runS_forall (comb_fn N m) (fun _ => True) _ ?_ xs st trivial
  intro s x _
  refine ⟨trivial, ?_⟩
  rw [comb_fn_eq_acc _ _ hm]
  obtain ⟨k, rfl⟩ : ∃ k, N = k + 1 := ⟨N - 1, by omega⟩
  simp only [comb_acc]
  exact comb_acc_range _ _ _ _ _ _ (wrap32_range _)

theorem getD_drop (l : List Int) (a i : Nat) : (l.drop a).getD i 0 = l.getD (a + i) 0 := by
  simp [List.getD, List.getElem?_drop]

theorem pick_zero_cons (r : Nat) (x : Int) (xs : List Int) :
    pick r 0 (x :: xs) = x :: pick r 0 (xs.drop (r - 1)) := by
  simp only [pick]
  rw [pick_skip]

theorem pick_getD (r : Nat) (hr : 0 < r) : ∀ (k : Nat) (l : List Int),
    k < (pick r 0 l).length → k * r < l.length ∧ (pick r 0 l).getD k 0 = l.getD (k * r) 0 := by
  intro k
  induction k with
  | zero =>
    intro l h
    cases l with
    | nil => simp [pick_nil] at h
    | cons x xs => simp [pick]
  | succ k ih =>
    intro l h
    cases l with
    | nil => simp [pick_nil] at h
    | cons x xs =>
      rw [pick_zero_cons] at h ⊢
      have hk : k < (pick r 0 (xs.drop (r - 1))).length := by simpa using h
      obtain ⟨h1, h2⟩ := ih _ hk
      rw [List.length_drop] at h1
      have e : (k + 1) * r = (r - 1 + k * r) + 1 := by rw [Nat.succ_mul]; omega
      refine ⟨by rw [e]; simp; omega, ?_⟩
      rw [List.getD_cons_succ, h2, getD_drop, e, List.getD_cons_succ]

theorem pick_length (r : Nat) (hr : 0 < r) : ∀ (n : Nat) (l : List Int), l.length ≤ n →
    (pick r 0 l).length = (l.length + r - 1) / r := by
  intro n
  induction n with
  | zero =>
    intro l h
    have : l = [] := List.length_eq_zero.mp (by omega)
    subst this
    simp only [pick_nil, List.length_nil]
    rw [Nat.div_eq_of_lt (by omega)]
  | succ n ih =>
    intro l h
    cases l with
    | nil =>
      simp only [pick_nil, List.length_nil]
      rw [Nat.div_eq_of_lt (by omega)]
    | cons x xs =>
      rw [pick_zero_cons, List.length_cons, ih _ (by simp at h ⊢; omega), List.length_drop,
        List.length_cons]
      by_cases hx : r - 1 ≤ xs.length
      · have e1 : xs.length - (r - 1) + r - 1 = xs.length := by omega
        have e2 : xs.length + 1 + r - 1 = xs.length + r := by omega
        rw [e1, e2, Nat.add_div_right _ hr]
      · have e1 : xs.length - (r - 1) + r - 1 = r - 1 := by omega
        have e2 : xs.length + 1 + r - 1 = xs.length + r := by omega
        rw [e1, e2, Nat.add_div_right _ hr, Nat.div_eq_of_lt (by omega),
          Nat.div_eq_of_lt (by omega)]

theorem tracks_pick (r : Nat) (hr : 0 < r) (l : List Int) (u : Nat → Int) (h : tracks l u) :
    tracks (pick r 0 l) (sDown r u) := by
  intro k hk
  obtain ⟨h1, h2⟩ := pick_getD r hr k l hk
  rw [h2]
  exact h (k * r) h1

theorem expand_getD (r : Nat) (hr : 0 < r) : ∀ (l : List Int) (n : Nat), n < l.length * r →
    (expand r l).getD n 0 = if n % r = 0 then l.getD (n / r) 0 else 0 := by
  intro l
  induction l with
  | nil => intro n h; simp at h
  | cons x xs ih =>
    intro n h
    simp only [expand]
    cases n with
    | zero => simp
    | succ n =>
      rw [List.getD_cons_succ]
      by_cases hn : n + 1 < r
      · have h1 : (n + 1) % r ≠ 0 := by rw [Nat.mod_eq_of_lt hn]; omega
        simp only [h1, if_false]
        rw [List.getD_append _ _ _ _ (by simp; omega)]
        simp
      · have hge : r ≤ n + 1 := by omega
        rw [List.getD_append_right _ _ _ _ (by simp; omega)]
        simp only [List.length_replicate]
        have e : n - (r - 1) = n + 1 - r := by omega
        rw [e, ih _ (by simp [Nat.succ_mul] at h; omega)]
        have hm : (n + 1 - r) % r = (n + 1) % r := by
          conv_rhs => rw [show n + 1 = (n + 1 - r) + r by omega]
          simp
        have hd : (n + 1) / r = (n + 1 - r) / r + 1 := by
          conv_lhs => rw [show n + 1 = (n + 1 - r) + r by omega]
          rw [Nat.add_div_right _ hr]
        rw [hm, hd, List.getD_cons_succ]

theorem tracks_expand (r : Nat) (hr : 0 < r) (l : List Int) (u : Nat → Int) (h : tracks l u) :
    tracks (expand r l) (sUp r u) := by
  intro n hn
  rw [expand_length r hr] at hn
  rw [expand_getD r hr l n hn]
  simp only [sUp]
  by_cases hm : n % r = 0
  · simp only [hm, if_true]
    exact h (n / r) (by rw [Nat.div_lt_iff_lt_mul hr]; exact hn)
  · simp only [hm, if_false]
    exact Int.ModEq.refl 0

theorem tracks_range_eq (l : List Int) (u : Nat → Int) (h : tracks l u) (hr : inRange l)
    (i : Nat) (hi : i < l.length) : l.getD i 0 = wrap32 (u i) := by
  have hm : l.getD i 0 ∈ l := by
    rw [List.getD_eq_getElem _ _ hi]
    exact List.getElem_mem hi
  obtain ⟨r1, r2⟩ := hr _ hm
  exact eq_of_modEq_range _ _ ((h i hi).trans (wrap32_modEq _).symm) r1 r2 (wrap32_range _).1
    (wrap32_range _).2

theorem dec_fn_out (p : cic_filter) (xs : List Int) :
    (dec_fn p xs).2 =
      if p.normalize then (dec_raw p xs).map (fun v => v.tdiv p.ddiv) else dec_raw p xs := rfl

theorem int_fn_out (p : cic_filter) (xs : List Int) :
    (int_fn p xs).2 =
      if p.normalize then (int_raw p xs).map (fun v => v.tdiv p.idiv) else int_raw p xs := rfl

theorem init_spec (N M R : Nat) (delay : Option (List Int)) (nrm : Bool)
    (cic_malloc : Nat → Option (List Int)) (p : cic_filter)
    (h : cic_filter_init N M R delay nrm cic_malloc = some p) :
    p.N = N ∧ p.M = M ∧ p.R = R ∧ p.normalize = nrm ∧ fresh p ∧
      p.ddiv = (if nrm then cic_pow (R * M) N else 0) ∧
      p.idiv = (if nrm then wrap32 ((toSize (cic_pow (R * M) N) / R : Nat) : Int) else 0) := by
  unfold cic_filter_init at h
  simp only at h
  split at h
  · exact absurd h (by simp)
  · rename_i b _
    simp only [Option.some.injEq] at h
    subst h
    refine ⟨rfl, rfl, rfl, rfl, ⟨rfl, rfl, ⟨_, rfl⟩⟩, ?_, ?_⟩
    · cases nrm <;> simp
    · cases nrm <;> simp

theorem fresh_take (p : cic_filter) (h : fresh p) :
    p.delay.take p.N = List.replicate p.N 0 := by
  obtain ⟨-, -, tail, ht⟩ := h
  rw [ht, List.replicate_add, List.append_assoc, List.take_left' (by simp)]

theorem fresh_drop (p : cic_filter) (h : fresh p) :
    ∃ tail, p.delay.drop p.N = List.replicate (p.N * p.M) 0 ++ tail := by
  obtain ⟨-, -, tail, ht⟩ := h
  refine ⟨tail, ?_⟩
  rw [ht, List.replicate_add, List.append_assoc, List.drop_left' (by simp)]

theorem fresh_delay_le (p : cic_filter) (h : fresh p) : p.N ≤ p.delay.length := by
  obtain ⟨-, -, tail, ht⟩ := h
  rw [ht]
  simp
  omega

theorem dec_raw_fresh (p : cic_filter) (xs : List Int) (hf : fresh p) (hN : 1 ≤ p.N)
    (hM : p.M = 1 ∨ p.M = 2) (hR : 1 ≤ p.R) :
    (dec_raw p xs).length = (xs.length + p.R - 1) / p.R ∧
      ∀ k, k < (dec_raw p xs).length → k * p.R < xs.length ∧
        (dec_raw p xs).getD k 0 = wrap32 ((sB (p.R * p.M))^[p.N] (ofList xs) (k * p.R)) := by
  obtain ⟨tail, hd⟩ := fresh_drop p hf
  have ht := fresh_take p hf
  have hmp : p.mpos = 0 := hf.1
  have hc : p.cnt = 0 := hf.2.1
  have hI := integ_tracks p.N xs (ofList xs) (tracks_ofList xs)
  have hS := tracks_pick p.R hR _ _ hI
  have hC := comb_tracks p.M hM p.N _ tail _ hS
  rw [decimator_ideal p.R p.M p.N hR] at hC
  have hr := comb_inRange p.N p.M hN (by omega) (List.replicate (p.N * p.M) 0 ++ tail, 0)
    (pick p.R 0 (runS integ_acc (List.replicate p.N 0) xs).2)
  have hlen : (dec_raw p xs).length = (pick p.R 0 (runS integ_acc (List.replicate p.N 0) xs).2).length := by
    unfold dec_raw
    rw [runS_length, ht, hc]
  have hraw : dec_raw p xs = (runS (comb_fn p.N p.M) (List.replicate (p.N * p.M) 0 ++ tail, 0)
      (pick p.R 0 (runS integ_acc (List.replicate p.N 0) xs).2)).2 := by
    unfold dec_raw
    rw [ht, hd, hmp, hc]
  refine ⟨?_, ?_⟩
  · rw [hlen, pick_length p.R hR _ _ (Nat.le_refl _), runS_length]
  · intro k hk
    have hk' := hk
    rw [hlen] at hk'
    obtain ⟨h1, -⟩ := pick_getD p.R hR k _ hk'
    rw [runS_length] at h1
    refine ⟨h1, ?_⟩
    rw [hraw] at hk ⊢
    exact tracks_range_eq _ _ hC hr k hk

theorem int_raw_fresh (p : cic_filter) (xs : List Int) (hf : fresh p) (hN : 1 ≤ p.N)
    (hM : p.M = 1 ∨ p.M = 2) (hR : 1 ≤ p.R) :
    (int_raw p xs).length = xs.length * p.R ∧
      ∀ n, n < (int_raw p xs).length →
        (int_raw p xs).getD n 0 = wrap32 ((sB (p.R * p.M))^[p.N] (sUp p.R (ofList xs)) n) := by
  obtain ⟨tail, hd⟩ := fresh_drop p hf
  have ht := fresh_take p hf
  have hmp : p.mpos = 0 := hf.1
  have hC := comb_tracks p.M hM p.N xs tail _ (tracks_ofList xs)
  have hE := tracks_expand p.R hR _ _ hC
  have hI := integ_tracks p.N _ _ hE
  rw [interpolator_ideal p.R p.M p.N hR] at hI
  have hne : List.replicate p.N (0 : Int) ≠ [] := by
    intro hc
    have := congrArg List.length hc
    simp at this
    omega
  have hr := integ_inRange (List.replicate p.N 0)
    (expand p.R (runS (comb_fn p.N p.M) (List.replicate (p.N * p.M) 0 ++ tail, 0) xs).2) hne
  have hraw : int_raw p xs = (runS integ_acc (List.replicate p.N 0)
      (expand p.R (runS (comb_fn p.N p.M) (List.replicate (p.N * p.M) 0 ++ tail, 0) xs).2)).2 := by
    unfold int_raw
    rw [ht, hd, hmp]
  refine ⟨?_, ?_⟩
  · rw [hraw, runS_length, expand_length _ hR, runS_length]
  · intro n hn
    rw [hraw] at hn ⊢
    exact tracks_range_eq _ _ hI hr n hn

theorem tdiv_abs_le (V G A : Int) (hG : 0 < G) (h : |V| ≤ G * A) : |V.tdiv G| ≤ A := by
  have hA : 0 ≤ A := by
    have h0 : 0 ≤ G * A := le_trans (abs_nonneg V) h
    by_contra hneg
    push_neg at hneg
    have : G * A < 0 := mul_neg_of_pos_of_neg hG hneg
    omega
  rcases le_or_lt 0 V with hV | hV
  · rw [abs_of_nonneg hV] at h
    rw [Int.tdiv_eq_ediv hV (le_of_lt hG), abs_of_nonneg (Int.ediv_nonneg hV (le_of_lt hG))]
    exact Int.ediv_le_of_le_mul hG (by rw [mul_comm]; exact h)
  · rw [abs_of_neg hV] at h
    have hV' : 0 ≤ -V := by omega
    have e : V.tdiv G = -((-V).tdiv G) := by rw [Int.neg_tdiv, neg_neg]
    rw [e, abs_neg, Int.tdiv_eq_ediv hV' (le_of_lt hG),
      abs_of_nonneg (Int.ediv_nonneg hV' (le_of_lt hG))]
    exact Int.ediv_le_of_le_mul hG (by rw [mul_comm]; exact h)

theorem ofList_bound (xs : List Int) (A : Int) (hA : 0 ≤ A)
    (hx : ∀ x ∈ xs, -A ≤ x ∧ x ≤ A) (i : Nat) : |ofList xs i| ≤ A := by
  unfold ofList
  by_cases hi : i < xs.length
  · rw [List.getD_eq_getElem _ _ hi]
    have := hx _ (List.getElem_mem hi)
    exact abs_le.mpr this
  · rw [List.getD_eq_default _ _ (by omega)]
    simpa using hA

theorem mem_getD (l : List Int) (y : Int) (h : y ∈ l) : ∃ k, k < l.length ∧ y = l.getD k 0 := by
  obtain ⟨k, hk, rfl⟩ := List.mem_iff_getElem.mp h
  exact ⟨k, hk, (List.getD_eq_getElem _ _ hk).symm⟩

theorem getD_map_tdiv (l : List Int) (d : Int) (k : Nat) (hk : k < l.length) :
    (l.map (fun v => v.tdiv d)).getD k 0 = (l.getD k 0).tdiv d := by
  rw [List.getD_eq_getElem _ _ (by simpa using hk), List.getD_eq_getElem _ _ hk]
  simp

theorem wrap32_of_abs_le (V : Int) (h : |V| ≤ 2147483647) : wrap32 V = V := by
  have := abs_le.mp h
  exact wrap32_id V (by omega) (by omega)

theorem cic_pow_fit_int (R M N : Nat) (h : ((R : Int) * M) ^ N ≤ 2147483647) :
    cic_pow (R * M) N = ((R : Int) * M) ^ N := by
  have h' : (R * M) ^ N ≤ 2147483647 := by exact_mod_cast h
  rw [cic_pow_fit _ _ h']
  push_cast
  rfl

/-- Output of the normalising decimator on a fresh filter, sample by sample. -/
theorem dec_fresh_getD (N M R : Nat) (delay : Option (List Int))
    (cic_malloc : Nat → Option (List Int)) (p : cic_filter) (xs : List Int)
    (hN : 1 ≤ N) (hM : M = 1 ∨ M = 2) (hR : 1 ≤ R)
    (hinit : cic_filter_init N M R delay true cic_malloc = some p) :
    (dec_fn p xs).2.length = (xs.length + R - 1) / R ∧
    ∀ k, k < (dec_fn p xs).2.length → k * R < xs.length ∧
      (dec_fn p xs).2.getD k 0 =
        (wrap32 ((sB (R * M))^[N] (ofList xs) (k * R))).tdiv (cic_pow (R * M) N) := by
  obtain ⟨rfl, rfl, rfl, hnrm, hf, hdd, -⟩ := init_spec _ _ _ _ _ _ _ hinit
  rw [dec_fn_out, hnrm]
  simp only [if_true, List.length_map] at hdd ⊢
  obtain ⟨hl, hg⟩ := dec_raw_fresh p xs hf hN hM hR
  refine ⟨hl, ?_⟩
  intro k hk
  obtain ⟨h1, h2⟩ := hg k hk
  refine ⟨h1, ?_⟩
  rw [getD_map_tdiv _ _ _ hk, h2, hdd]

theorem init_delay_le (N M R : Nat) (delay : Option (List Int)) (nrm : Bool)
    (cic_malloc : Nat → Option (List Int)) (p : cic_filter)
    (hinit : cic_filter_init N M R delay nrm cic_malloc = some p) :
    p.N ≤ p.delay.length ∧ p.R = R :=
  ⟨fresh_delay_le p (init_spec _ _ _ _ _ _ _ hinit).2.2.2.2.1, (init_spec _ _ _ _ _ _ _ hinit).2.2.1⟩

theorem dec_fn_bounded (N M R : Nat) (A : Int) (delay : Option (List Int))
    (cic_malloc : Nat → Option (List Int)) (p : cic_filter) (xs : List Int)
    (hN : 1 ≤ N) (hM : M = 1 ∨ M = 2) (hR : 1 ≤ R) (hA : 0 ≤ A)
    (hfit : A * ((R : Int) * M) ^ N ≤ 2147483647)
    (hinit : cic_filter_init N M R delay true cic_malloc = some p)
    (hx : ∀ x ∈ xs, -A ≤ x ∧ x ≤ A) :
    ∀ y ∈ (dec_fn p xs).2, -A ≤ y ∧ y ≤ A := by
  intro y hy
  obtain ⟨k, hk, rfl⟩ := mem_getD _ _ hy
  obtain ⟨-, hg⟩ := dec_fresh_getD N M R delay cic_malloc p xs hN hM hR hinit
  obtain ⟨-, h2⟩ := hg k hk
  rw [h2]
  have hb := sB_iterate_bound (R * M) N (ofList xs) A hA (ofList_bound _ A hA hx) (k * R)
  push_cast at hb
  have hw : wrap32 ((sB (R * M))^[N] (ofList xs) (k * R)) =
      (sB (R * M))^[N] (ofList xs) (k * R) :=
    wrap32_of_abs_le _ (le_trans hb (by rw [mul_comm]; exact hfit))
  rw [hw]
  rcases eq_or_lt_of_le hA with h0 | hpos
  · rw [← h0] at hb ⊢
    have hz : (sB (R * M))^[N] (ofList xs) (k * R) = 0 := by
      have := abs_nonneg ((sB (R * M))^[N] (ofList xs) (k * R))
      have h' : |(sB (R * M))^[N] (ofList xs) (k * R)| = 0 := by
        simp only [mul_zero] at hb
        omega
      exact abs_eq_zero.mp h'
    rw [hz]
    simp
  · have hGpos : (0 : Int) < ((R : Int) * M) ^ N := by
      have : 0 < M := by omega
      positivity
    have hG : ((R : Int) * M) ^ N ≤ 2147483647 := by
      have : ((R : Int) * M) ^ N ≤ A * ((R : Int) * M) ^ N := by
        have h1 : (1 : Int) ≤ A := hpos
        nlinarith
      omega
    rw [cic_pow_fit_int R M N hG]
    exact abs_le.mp (tdiv_abs_le _ _ A hGpos hb)

theorem dec_fn_unity (N M R : Nat) (c : Int) (delay : Option (List Int))
    (cic_malloc : Nat → Option (List Int)) (p : cic_filter) (xs : List Int)
    (k : Nat) (hN : 1 ≤ N) (hM : M = 1 ∨ M = 2) (hR : 1 ≤ R)
    (hG : ((R : Int) * M) ^ N ≤ 2147483647)
    (hc : |c| * ((R : Int) * M) ^ N ≤ 2147483647)
    (hinit : cic_filter_init N M R delay true cic_malloc = some p)
    (hk : k < (dec_fn p xs).2.length)
    (hwin : N * (R * M - 1) ≤ k * R)
    (hconst : ∀ i, k * R - N * (R * M - 1) ≤ i → i ≤ k * R → xs.getD i 0 = c) :
    (dec_fn p xs).2.getD k 0 = c := by
  obtain ⟨-, hg⟩ := dec_fresh_getD N M R delay cic_malloc p xs hN hM hR hinit
  obtain ⟨-, h2⟩ := hg k hk
  rw [h2]
  have hv := sB_iterate_const (R * M) N (ofList xs) (k * R) c hwin hconst
  push_cast at hv
  have hGpos : (0 : Int) < ((R : Int) * M) ^ N := by
    have : 0 < M := by omega
    positivity
  have hw : wrap32 (((R : Int) * M) ^ N * c) = ((R : Int) * M) ^ N * c := by
    apply wrap32_of_abs_le
    rw [abs_mul, abs_of_pos hGpos, mul_comm]
    exact hc
  rw [hv, hw, cic_pow_fit_int R M N hG]
  exact Int.mul_tdiv_cancel_left c (ne_of_gt hGpos)

/-- C4: bounds property for decimation. For `N ≥ 1`, `M` in `{1, 2}`, `R ≥ 1` and an
amplitude `A ≥ 0` with `A * (R * M) ^ N ≤ 2^31 - 1`, a filter freshly initialised with
`normalize = true` and fed, in any sequence of calls, samples in `[-A, A]` produces from
`cic_filter_decimate` only samples in `[-A, A]`, although the integrators wrap around. -/
theorem decimate_bounded (N M R : Nat) (A : Int) (delay : Option (List Int))
    (cic_malloc : Nat → Option (List Int)) (p : cic_filter) (calls : List (List Int × Nat))
    (hN : 1 ≤ N) (hM : M = 1 ∨ M = 2) (hR : 1 ≤ R) (hA : 0 ≤ A)
    (hfit : A * ((R : Int) * M) ^ N ≤ 2147483647)
    (hinit : cic_filter_init N M R delay true cic_malloc = some p)
    (hcalls : ∀ c ∈ calls, c.2 ≤ c.1.length)
    (hx : ∀ x ∈ calls_input calls, -A ≤ x ∧ x ≤ A) :
    ∀ y ∈ (decimate_calls p calls).2, -A ≤ y ∧ y ≤ A := by
  obtain ⟨hd, hpR⟩ := init_delay_le _ _ _ _ _ _ _ hinit
  rw [decimate_calls_eq calls p hd (by omega) hcalls]
  exact dec_fn_bounded N M R A delay cic_malloc p _ hN hM hR hA hfit hinit hx

theorem decimate_bounded_witness :
    (-100 : Int) ≤ (decimate_calls ⟨2, 2, 0, 3, 0, [0, 0, 0, 0, 0, 0], true, true, 36, 12⟩
        [([100, -100, 100, 7], 3), ([-100, 100, 99, 100, 100], 5)]).2.getD 2 0 ∧
      (decimate_calls ⟨2, 2, 0, 3, 0, [0, 0, 0, 0, 0, 0], true, true, 36, 12⟩
        [([100, -100, 100, 7], 3), ([-100, 100, 99, 100, 100], 5)]).2.getD 2 0 ≤ 100 :=
  decimate_bounded 2 2 3 100 none (fun n => some (List.replicate n 5))
    ⟨2, 2, 0, 3, 0, [0, 0, 0, 0, 0, 0], true, true, 36, 12⟩
    [([100, -100, 100, 7], 3), ([-100, 100, 99, 100, 100], 5)]
    (by decide) (by decide) (by decide) (by decide) (by decide) (by decide) (by decide)
    (by decide) _ (by decide)

/-- C8: unity gain of the normalised decimator in steady state. For `N ≥ 1`, `M` in
`{1, 2}`, `R ≥ 1` with `(R * M) ^ N ≤ 2^31 - 1` and `|c| * (R * M) ^ N ≤ 2^31 - 1`, a freshly
initialised filter fed in any sequence of calls: if the input equals `c` on the indices
`k * R - N * (R * M - 1), ..., k * R`, the `k`-th output sample is exactly `c`. -/
theorem decimate_unity_gain (N M R : Nat) (c : Int) (delay : Option (List Int))
    (cic_malloc : Nat → Option (List Int)) (p : cic_filter) (calls : List (List Int × Nat))
    (k : Nat) (hN : 1 ≤ N) (hM : M = 1 ∨ M = 2) (hR : 1 ≤ R)
    (hG : ((R : Int) * M) ^ N ≤ 2147483647)
    (hc : |c| * ((R : Int) * M) ^ N ≤ 2147483647)
    (hinit : cic_filter_init N M R delay true cic_malloc = some p)
    (hcalls : ∀ c ∈ calls, c.2 ≤ c.1.length)
    (hk : k < (decimate_calls p calls).2.length)
    (hwin : N * (R * M - 1) ≤ k * R)
    (hconst : ∀ i, k * R - N * (R * M - 1) ≤ i → i ≤ k * R →
      (calls_input calls).getD i 0 = c) :
    (decimate_calls p calls).2.getD k 0 = c := by
  obtain ⟨hd, hpR⟩ := init_delay_le _ _ _ _ _ _ _ hinit
  rw [decimate_calls_eq calls p hd (by omega) hcalls] at hk ⊢
  exact dec_fn_unity N M R c delay cic_malloc p _ k hN hM hR hG hc hinit hk hwin hconst

theorem decimate_unity_gain_witness :
    (decimate_calls ⟨2, 1, 0, 2, 0, [0, 0, 0, 0], true, true, 4, 2⟩
      [([3, 50, 50, 50, 9], 4), ([50, 50, 1, 1], 3)]).2.getD 2 0 = 50 :=
  decimate_unity_gain 2 1 2 50 none (fun n => some (List.replicate n 5))
    ⟨2, 1, 0, 2, 0, [0, 0, 0, 0], true, true, 4, 2⟩
    [([3, 50, 50, 50, 9], 4), ([50, 50, 1, 1], 3)] 2
    (by decide) (by decide) (by decide) (by decide) (by decide) (by decide) (by decide)
    (by decide) (by decide) (by
      intro i h1 h2
      have h3 : 2 ≤ i := h1
      have h4 : i ≤ 4 := h2
      interval_cases i <;> rfl)

theorem idiv_fit (R M N : Nat) (hM : 1 ≤ M) (hR : 1 ≤ R)
    (hG : ((R : Int) * M) ^ (N + 1) ≤ 2147483647) :
    wrap32 ((toSize (cic_pow (R * M) (N + 1)) / R : Nat) : Int) = (M : Int) * ((R : Int) * M) ^ N ∧
      (0 : Int) < (M : Int) * ((R : Int) * M) ^ N := by
  have h' : (R * M) ^ (N + 1) ≤ 2147483647 := by exact_mod_cast hG
  have hd : (R * M) ^ (N + 1) / R = M * (R * M) ^ N := by
    have : (R * M) ^ (N + 1) = R * (M * (R * M) ^ N) := by rw [pow_succ]; ring
    rw [this, Nat.mul_div_cancel_left _ (by omega)]
  have hle : M * (R * M) ^ N ≤ 2147483647 := by
    rw [← hd]; exact le_trans (Nat.div_le_self _ _) h'
  have hpos : 0 < M * (R * M) ^ N := by positivity
  rw [cic_pow_fit _ _ h', toSize_natCast _ h', hd]
  refine ⟨?_, by exact_mod_cast hpos⟩
  rw [wrap32_id _ (by omega) (by omega)]
  push_cast
  rfl

/-- Output of the normalising interpolator on a fresh filter, sample by sample. -/
theorem int_fresh_getD (N M R : Nat) (delay : Option (List Int))
    (cic_malloc : Nat → Option (List Int)) (p : cic_filter) (xs : List Int)
    (hM : M = 1 ∨ M = 2) (hR : 1 ≤ R)
    (hinit : cic_filter_init (N + 1) M R delay true cic_malloc = some p) :
    (int_fn p xs).2.length = xs.length * R ∧
    ∀ n, n < (int_fn p xs).2.length →
      (int_fn p xs).2.getD n 0 =
        (wrap32 ((sB (R * M))^[N] (sHold R (sB M (ofList xs))) n)).tdiv
          (wrap32 ((toSize (cic_pow (R * M) (N + 1)) / R : Nat) : Int)) := by
  obtain ⟨hpN, rfl, rfl, hnrm, hf, -, hid⟩ := init_spec _ _ _ _ _ _ _ hinit
  rw [int_fn_out, hnrm]
  simp only [if_true, List.length_map] at hid ⊢
  obtain ⟨hl, hg⟩ := int_raw_fresh p xs hf (by omega) hM hR
  refine ⟨hl, ?_⟩
  intro n hn
  rw [getD_map_tdiv _ _ _ hn, hg n hn, hid, hpN, Function.iterate_succ_apply, sB_sUp _ _ hR]

/-- Bounds property for interpolation when the full gain `(R*M)^N` fits the sample type. -/
theorem int_fn_bounded (N M R : Nat) (A : Int) (delay : Option (List Int))
    (cic_malloc : Nat → Option (List Int)) (p : cic_filter) (xs : List Int)
    (hN : 1 ≤ N) (hM : M = 1 ∨ M = 2) (hR : 1 ≤ R) (hA : 0 ≤ A)
    (hG : ((R : Int) * M) ^ N ≤ 2147483647)
    (hfit : A * (((R : Int) * M) ^ N / R) ≤ 2147483647)
    (hinit : cic_filter_init N M R delay true cic_malloc = some p)
    (hx : ∀ x ∈ xs, -A ≤ x ∧ x ≤ A) :
    ∀ y ∈ (int_fn p xs).2, -A ≤ y ∧ y ≤ A := by
  obtain ⟨N, rfl⟩ : ∃ k, N = k + 1 := ⟨N - 1, by omega⟩
  intro y hy
  obtain ⟨n, hn, rfl⟩ := mem_getD _ _ hy
  obtain ⟨-, hg⟩ := int_fresh_getD N M R delay cic_malloc p xs hM hR hinit
  rw [hg n hn]
  obtain ⟨hid, hpos⟩ := idiv_fit R M N (by omega) hR hG
  have hdiv : ((R : Int) * M) ^ (N + 1) / R = (M : Int) * ((R : Int) * M) ^ N := by
    have : ((R : Int) * M) ^ (N + 1) = (R : Int) * ((M : Int) * ((R : Int) * M) ^ N) := by
      rw [pow_succ]; ring
    have hRne : (R : Int) ≠ 0 := by omega
    rw [this, Int.mul_ediv_cancel_left _ hRne]
  rw [hdiv] at hfit
  have hb1 : ∀ i, |sHold R (sB M (ofList xs)) i| ≤ (M : Int) * A := by
    intro i
    exact sB_bound M _ A hA (ofList_bound _ A hA hx) (i / R)
  have hb := sB_iterate_bound (R * M) N _ ((M : Int) * A)
    (mul_nonneg (Int.natCast_nonneg M) hA) hb1 n
  push_cast at hb
  have hb' : |(sB (R * M))^[N] (sHold R (sB M (ofList xs))) n| ≤
      (M : Int) * ((R : Int) * M) ^ N * A := by
    calc _ ≤ ((R : Int) * M) ^ N * ((M : Int) * A) := hb
      _ = (M : Int) * ((R : Int) * M) ^ N * A := by ring
  rw [wrap32_of_abs_le _ (le_trans hb' (by linarith)), hid]
  exact abs_le.mp (tdiv_abs_le _ _ A hpos hb')

theorem int_fn_unity (N M R : Nat) (c : Int) (delay : Option (List Int))
    (cic_malloc : Nat → Option (List Int)) (p : cic_filter) (xs : List Int)
    (n : Nat) (hN : 1 ≤ N) (hM : M = 1 ∨ M = 2) (hR : 1 ≤ R)
    (hG : ((R : Int) * M) ^ N ≤ 2147483647)
    (hc : |c| * ((R : Int) * M) ^ N / R ≤ 2147483647)
    (hinit : cic_filter_init N M R delay true cic_malloc = some p)
    (hn : n < (int_fn p xs).2.length)
    (hk0 : N * M ≤ n / R)
    (hconst : ∀ k, n / R - N * M ≤ k → k ≤ n / R → xs.getD k 0 = c) :
    (int_fn p xs).2.getD n 0 = c := by
  obtain ⟨N, rfl⟩ : ∃ k, N = k + 1 := ⟨N - 1, by omega⟩
  obtain ⟨-, hg⟩ := int_fresh_getD N M R delay cic_malloc p xs hM hR hinit
  rw [hg n hn]
  obtain ⟨hid, hpos⟩ := idiv_fit R M N (by omega) hR hG
  have hdiv : |c| * ((R : Int) * M) ^ (N + 1) / R = |c| * ((M : Int) * ((R : Int) * M) ^ N) := by
    have : |c| * ((R : Int) * M) ^ (N + 1) = (R : Int) * (|c| * ((M : Int) * ((R : Int) * M) ^ N)) := by
      rw [pow_succ]; ring
    have hRne : (R : Int) ≠ 0 := by omega
    rw [this, Int.mul_ediv_cancel_left _ hRne]
  rw [hdiv] at hc
  have hRpos : 0 < R := hR
  have hq : N * M + M ≤ n / R := by rw [Nat.succ_mul] at hk0; exact hk0
  have hkR : n / R * R ≤ n := Nat.div_mul_le_self n R
  have hsub : N * (R * M - 1) ≤ N * M * R := by
    calc N * (R * M - 1) ≤ N * (R * M) := Nat.mul_le_mul_left N (Nat.sub_le _ _)
      _ = N * M * R := by ring
  have hle : N * M * R ≤ n / R * R := Nat.mul_le_mul_right R (by omega)
  have hv := sB_iterate_const (R * M) N (sHold R (sB M (ofList xs))) n
    ((M : Int) * c) (by omega) (by
      intro i hi1 hi2
      simp only [sHold]
      apply sB_const
      intro t ht
      have hi3 : i / R ≤ n / R := Nat.div_le_div_right hi2
      have hi4 : n / R - N * M ≤ i / R := by
        rw [Nat.le_div_iff_mul_le hRpos, Nat.sub_mul]
        omega
      refine ⟨by omega, ?_⟩
      apply hconst
      · rw [Nat.succ_mul]; omega
      · omega)
  push_cast at hv
  have hw : wrap32 (((R : Int) * M) ^ N * ((M : Int) * c)) = ((R : Int) * M) ^ N * ((M : Int) * c) := by
    apply wrap32_of_abs_le
    have hMpos : (0 : Int) < M := by
      have : 0 < M := by omega
      exact_mod_cast this
    have hRpos' : (0 : Int) < R := by exact_mod_cast hRpos
    have hKpos : (0 : Int) < ((R : Int) * M) ^ N := pow_pos (mul_pos hRpos' hMpos) N
    rw [abs_mul, abs_mul, abs_of_pos hKpos, abs_of_pos hMpos]
    calc ((R : Int) * M) ^ N * ((M : Int) * |c|) = |c| * ((M : Int) * ((R : Int) * M) ^ N) := by ring
      _ ≤ 2147483647 := hc
  rw [hv, hw, hid]
  have e : ((R : Int) * M) ^ N * ((M : Int) * c) = ((M : Int) * ((R : Int) * M) ^ N) * c := by ring
  rw [e]
  exact Int.mul_tdiv_cancel_left c (ne_of_gt hpos)

/-- C7: unity gain of the normalised interpolator in steady state. For `N ≥ 1`, `M` in
`{1, 2}`, `R ≥ 1` with `(R * M) ^ N ≤ 2^31 - 1` and `|c| * (R * M) ^ N / R ≤ 2^31 - 1`, a
freshly initialised filter fed in any sequence of calls: for an output index `n` with
`k0 = n / R ≥ N * M`, if the input equals `c` on the indices `k0 - N * M, ..., k0`, the
`n`-th output sample is exactly `c`. -/
theorem interpolate_unity_gain (N M R : Nat) (c : Int) (delay : Option (List Int))
    (cic_malloc : Nat → Option (List Int)) (p : cic_filter) (calls : List (List Int × Nat))
    (n : Nat) (hN : 1 ≤ N) (hM : M = 1 ∨ M = 2) (hR : 1 ≤ R)
    (hG : ((R : Int) * M) ^ N ≤ 2147483647)
    (hc : |c| * ((R : Int) * M) ^ N / R ≤ 2147483647)
    (hinit : cic_filter_init N M R delay true cic_malloc = some p)
    (hcalls : ∀ c ∈ calls, c.2 * R ≤ c.1.length)
    (hn : n < (interpolate_calls p calls).2.length)
    (hk0 : N * M ≤ n / R)
    (hconst : ∀ k, n / R - N * M ≤ k → k ≤ n / R → (calls_input calls).getD k 0 = c) :
    (interpolate_calls p calls).2.getD n 0 = c := by
  obtain ⟨hd, hpR⟩ := init_delay_le _ _ _ _ _ _ _ hinit
  rw [interpolate_calls_eq calls p hd (by omega) (by rw [hpR]; exact hcalls)] at hn ⊢
  exact int_fn_unity N M R c delay cic_malloc p _ n hN hM hR hG hc hinit hn hk0 hconst

theorem interpolate_unity_gain_witness :
    (interpolate_calls ⟨2, 1, 0, 2, 0, [0, 0, 0, 0], true, true, 4, 2⟩
      [([3, 50, 50, 7, 7], 2), ([50, 50, 1, 1], 2)]).2.getD 7 0 = 50 :=
  interpolate_unity_gain 2 1 2 50 none (fun n => some (List.replicate n 5))
    ⟨2, 1, 0, 2, 0, [0, 0, 0, 0], true, true, 4, 2⟩
    [([3, 50, 50, 7, 7], 2), ([50, 50, 1, 1], 2)] 7
    (by decide) (by decide) (by decide) (by decide) (by decide) (by decide) (by decide)
    (by decide) (by decide) (by
      intro k h1 h2
      have h3 : 1 ≤ k := h1
      have h4 : k ≤ 3 := h2
      interval_cases k <;> rfl)

/-- C5 (code evaluated at the failing input): with `N = 10`, `M = 2`, `R = 5` the
interpolation gain `(R*M)^N / R = 2000000000` fits 32 bits, yet `cic_filter_init`
stores `idiv = 282013081`, and a stream of ones yields the output sample `2`. -/
theorem interpolate_gain_overflow :
    cic_filter_init 10 2 5 none true (fun n => some (List.replicate n 0)) =
        some ⟨10, 2, 0, 5, 0, List.replicate 30 0, true, true, 1410065408, 282013081⟩ ∧
      (1 : Int) * (((5 : Int) * 2) ^ 10 / 5) ≤ 2147483647 ∧
      (∀ x ∈ calls_input [([1, 1, 1, 1, 1] ++ List.replicate 20 0, 5),
          ([1, 1, 1] ++ List.replicate 12 0, 3)], (-1 : Int) ≤ x ∧ x ≤ 1) ∧
      (interpolate_calls
          ⟨10, 2, 0, 5, 0, List.replicate 30 0, true, true, 1410065408, 282013081⟩
          [([1, 1, 1, 1, 1] ++ List.replicate 20 0, 5),
            ([1, 1, 1] ++ List.replicate 12 0, 3)]).2.getD 38 0 = 2 := by
  refine ⟨by decide, by decide, by decide, ?_⟩
  set_option maxRecDepth 1000000 in decide

theorem sB_lower (K : Nat) (x : Nat → Int) (c : Int) (hc : c ≤ 0) (hx : ∀ i, c ≤ x i)
    (n : Nat) : (K : Int) * c ≤ sB K x n := by
  induction K with
  | zero => simp [sB]
  | succ K ih =>
    simp only [sB]
    have h1 : c ≤ (if K ≤ n then x (n - K) else 0) := by
      split
      · exact hx _
      · exact hc
    push_cast
    linarith

theorem sB_lower_strict (K : Nat) (x : Nat → Int) (c : Int) (hc : c ≤ 0) (hx : ∀ i, c ≤ x i)
    (n : Nat) (hn : c < x n) : ((K + 1 : Nat) : Int) * c < sB (K + 1) x n := by
  induction K with
  | zero => simpa [sB] using hn
  | succ K ih =>
    rw [sB]
    have h1 : c ≤ (if K + 1 ≤ n then x (n - (K + 1)) else 0) := by
      split
      · exact hx _
      · exact hc
    push_cast at ih ⊢
    linarith

theorem sB_iterate_lower (K : Nat) : ∀ (N : Nat) (x : Nat → Int) (c : Int), c ≤ 0 →
    (∀ i, c ≤ x i) → ∀ n, (K : Int) ^ N * c ≤ (sB K)^[N] x n := by
  intro N
  induction N with
  | zero => intro x c _ hx n; simpa using hx n
  | succ N ih =>
    intro x c hc hx n
    rw [Function.iterate_succ_apply]
    have h := ih (sB K x) (K * c) (mul_nonpos_of_nonneg_of_nonpos (Int.natCast_nonneg K) hc)
      (fun i => sB_lower K x c hc hx i) n
    rw [pow_succ]
    linarith [h, mul_assoc ((K : Int) ^ N) (K : Int) c]

theorem sB_iterate_lower_strict (K : Nat) : ∀ (N : Nat) (x : Nat → Int) (c : Int), c ≤ 0 →
    (∀ i, c ≤ x i) → ∀ n, c < x n → ((K + 1 : Nat) : Int) ^ N * c < (sB (K + 1))^[N] x n := by
  intro N
  induction N with
  | zero => intro x c _ _ n hn; simpa using hn
  | succ N ih =>
    intro x c hc hx n hn
    rw [Function.iterate_succ_apply]
    have h := ih (sB (K + 1) x) (((K + 1 : Nat) : Int) * c)
      (mul_nonpos_of_nonneg_of_nonpos (Int.natCast_nonneg _) hc)
      (fun i => sB_lower (K + 1) x c hc hx i) n (sB_lower_strict K x c hc hx n hn)
    rw [pow_succ]
    linarith [h, mul_assoc (((K + 1 : Nat) : Int) ^ N) ((K + 1 : Nat) : Int) c]

theorem sB_neg (K : Nat) (x : Nat → Int) : sB K (fun i => -x i) = fun n => -sB K x n := by
  funext n
  induction K with
  | zero => simp [sB]
  | succ K ih =>
    simp only [sB, ih]
    split <;> ring

theorem sB_iterate_neg (K : Nat) : ∀ (N : Nat) (x : Nat → Int),
    (sB K)^[N] (fun i => -x i) = fun n => -(sB K)^[N] x n := by
  intro N
  induction N with
  | zero => intro x; rfl
  | succ N ih => intro x; rw [Function.iterate_succ_apply, sB_neg, ih]; rfl

theorem sHold_neg (R : Nat) (x : Nat → Int) :
    sHold R (fun i => -x i) = fun n => -sHold R x n := rfl

theorem tdiv_gt (V G A : Int) (hG : 0 < G) (hA : 1 ≤ A) (h : -(G * A) < V) :
    -A < V.tdiv G := by
  rcases le_or_lt 0 V with hV | hV
  · have := Int.tdiv_nonneg hV (le_of_lt hG)
    omega
  · have hV' : 0 ≤ -V := by omega
    have e : V.tdiv G = -((-V).tdiv G) := by rw [Int.neg_tdiv, neg_neg]
    rw [e, Int.tdiv_eq_ediv hV' (le_of_lt hG)]
    have : -V / G < A := Int.ediv_lt_of_lt_mul hG (by rw [mul_comm]; omega)
    omega

theorem tdiv_lt (V G A : Int) (hG : 0 < G) (hA : 1 ≤ A) (h : V < G * A) :
    V.tdiv G < A := by
  have := tdiv_gt (-V) G A hG hA (by omega)
  rw [Int.neg_tdiv] at this
  omega

theorem ofList_lower (xs : List Int) (A : Int) (hA : 0 ≤ A)
    (hx : ∀ x ∈ xs, -A ≤ x ∧ x ≤ A) (i : Nat) : -A ≤ ofList xs i ∧ ofList xs i ≤ A :=
  abs_le.mp (ofList_bound xs A hA hx i)

theorem dec_fn_gt (N M R : Nat) (A : Int) (delay : Option (List Int))
    (cic_malloc : Nat → Option (List Int)) (p : cic_filter) (xs : List Int) (k : Nat)
    (hN : 1 ≤ N) (hM : M = 1 ∨ M = 2) (hR : 1 ≤ R) (hA : 1 ≤ A)
    (hfit : A * ((R : Int) * M) ^ N ≤ 2147483647)
    (hinit : cic_filter_init N M R delay true cic_malloc = some p)
    (hx : ∀ x ∈ xs, -A ≤ x ∧ x ≤ A)
    (hk : k < (dec_fn p xs).2.length) (hgt : -A < xs.getD (k * R) 0) :
    -A < (dec_fn p xs).2.getD k 0 := by
  have hA0 : 0 ≤ A := by omega
  obtain ⟨-, hg⟩ := dec_fresh_getD N M R delay cic_malloc p xs hN hM hR hinit
  obtain ⟨-, h2⟩ := hg k hk
  rw [h2]
  have hb := sB_iterate_bound (R * M) N (ofList xs) A hA0 (ofList_bound _ A hA0 hx) (k * R)
  push_cast at hb
  rw [wrap32_of_abs_le _ (le_trans hb (by rw [mul_comm]; exact hfit))]
  have hGpos : (0 : Int) < ((R : Int) * M) ^ N := by
    have : 0 < M := by omega
    positivity
  have hG : ((R : Int) * M) ^ N ≤ 2147483647 := by
    have : ((R : Int) * M) ^ N ≤ A * ((R : Int) * M) ^ N := by nlinarith
    omega
  rw [cic_pow_fit_int R M N hG]
  obtain ⟨K, hK⟩ : ∃ K, R * M = K + 1 := ⟨R * M - 1, by
    have : 0 < R * M := Nat.mul_pos hR (by omega)
    omega⟩
  have hs := sB_iterate_lower_strict K N (ofList xs) (-A) (by omega)
    (fun i => (ofList_lower xs A hA0 hx i).1) (k * R) hgt
  rw [← hK] at hs
  push_cast at hs
  exact tdiv_gt _ _ A hGpos hA (by linarith)

theorem dec_fn_lt (N M R : Nat) (A : Int) (delay : Option (List Int))
    (cic_malloc : Nat → Option (List Int)) (p : cic_filter) (xs : List Int) (k : Nat)
    (hN : 1 ≤ N) (hM : M = 1 ∨ M = 2) (hR : 1 ≤ R) (hA : 1 ≤ A)
    (hfit : A * ((R : Int) * M) ^ N ≤ 2147483647)
    (hinit : cic_filter_init N M R delay true cic_malloc = some p)
    (hx : ∀ x ∈ xs, -A ≤ x ∧ x ≤ A)
    (hk : k < (dec_fn p xs).2.length) (hlt : xs.getD (k * R) 0 < A) :
    (dec_fn p xs).2.getD k 0 < A := by
  have hA0 : 0 ≤ A := by omega
  obtain ⟨-, hg⟩ := dec_fresh_getD N M R delay cic_malloc p xs hN hM hR hinit
  obtain ⟨-, h2⟩ := hg k hk
  rw [h2]
  have hb := sB_iterate_bound (R * M) N (ofList xs) A hA0 (ofList_bound _ A hA0 hx) (k * R)
  push_cast at hb
  rw [wrap32_of_abs_le _ (le_trans hb (by rw [mul_comm]; exact hfit))]
  have hGpos : (0 : Int) < ((R : Int) * M) ^ N := by
    have : 0 < M := by omega
    positivity
  have hG : ((R : Int) * M) ^ N ≤ 2147483647 := by
    have : ((R : Int) * M) ^ N ≤ A * ((R : Int) * M) ^ N := by nlinarith
    omega
  rw [cic_pow_fit_int R M N hG]
  obtain ⟨K, hK⟩ : ∃ K, R * M = K + 1 := ⟨R * M - 1, by
    have : 0 < R * M := Nat.mul_pos hR (by omega)
    omega⟩
  have hs := sB_iterate_lower_strict K N (fun i => -ofList xs i) (-A) (by omega)
    (fun i => by have := (ofList_lower xs A hA0 hx i).2; simp only; omega) (k * R)
    (by simp only [ofList]; omega)
  rw [← hK, sB_iterate_neg] at hs
  push_cast at hs
  exact tdiv_lt _ _ A hGpos hA (by linarith)

theorem int_fn_gt (N M R : Nat) (A : Int) (delay : Option (List Int))
    (cic_malloc : Nat → Option (List Int)) (p : cic_filter) (xs : List Int) (n : Nat)
    (hN : 1 ≤ N) (hM : M = 1 ∨ M = 2) (hR : 1 ≤ R) (hA : 1 ≤ A)
    (hG : ((R : Int) * M) ^ N ≤ 2147483647)
    (hfit : A * (((R : Int) * M) ^ N / R) ≤ 2147483647)
    (hinit : cic_filter_init N M R delay true cic_malloc = some p)
    (hx : ∀ x ∈ xs, -A ≤ x ∧ x ≤ A)
    (hn : n < (int_fn p xs).2.length) (hgt : -((M : Int) * A) < sB M (ofList xs) (n / R)) :
    -A < (int_fn p xs).2.getD n 0 := by
  have hA0 : 0 ≤ A := by omega
  obtain ⟨N, rfl⟩ : ∃ k, N = k + 1 := ⟨N - 1, by omega⟩
  obtain ⟨-, hg⟩ := int_fresh_getD N M R delay cic_malloc p xs hM hR hinit
  rw [hg n hn]
  obtain ⟨hid, hpos⟩ := idiv_fit R M N (by omega) hR hG
  have hdiv : ((R : Int) * M) ^ (N + 1) / R = (M : Int) * ((R : Int) * M) ^ N := by
    have : ((R : Int) * M) ^ (N + 1) = (R : Int) * ((M : Int) * ((R : Int) * M) ^ N) := by
      rw [pow_succ]; ring
    have hRne : (R : Int) ≠ 0 := by omega
    rw [this, Int.mul_ediv_cancel_left _ hRne]
  rw [hdiv] at hfit
  have hb1 : ∀ i, |sHold R (sB M (ofList xs)) i| ≤ (M : Int) * A := by
    intro i
    exact sB_bound M _ A hA0 (ofList_bound _ A hA0 hx) (i / R)
  have hb := sB_iterate_bound (R * M) N _ ((M : Int) * A)
    (mul_nonneg (Int.natCast_nonneg M) hA0) hb1 n
  push_cast at hb
  have hb' : |(sB (R * M))^[N] (sHold R (sB M (ofList xs))) n| ≤
      (M : Int) * ((R : Int) * M) ^ N * A := by
    calc _ ≤ ((R : Int) * M) ^ N * ((M : Int) * A) := hb
      _ = (M : Int) * ((R : Int) * M) ^ N * A := by ring
  rw [wrap32_of_abs_le _ (le_trans hb' (by linarith)), hid]
  obtain ⟨K, hK⟩ : ∃ K, R * M = K + 1 := ⟨R * M - 1, by
    have : 0 < R * M := Nat.mul_pos hR (by omega)
    omega⟩
  have hs := sB_iterate_lower_strict K N (sHold R (sB M (ofList xs))) (-((M : Int) * A))
    (by have := mul_nonneg (Int.natCast_nonneg M) hA0; omega)
    (fun i => by have := abs_le.mp (hb1 i); omega) n hgt
  rw [← hK] at hs
  push_cast at hs
  exact tdiv_gt _ _ A hpos hA (by linarith)

theorem int_fn_lt (N M R : Nat) (A : Int) (delay : Option (List Int))
    (cic_malloc : Nat → Option (List Int)) (p : cic_filter) (xs : List Int) (n : Nat)
    (hN : 1 ≤ N) (hM : M = 1 ∨ M = 2) (hR : 1 ≤ R) (hA : 1 ≤ A)
    (hG : ((R : Int) * M) ^ N ≤ 2147483647)
    (hfit : A * (((R : Int) * M) ^ N / R) ≤ 2147483647)
    (hinit : cic_filter_init N M R delay true cic_malloc = some p)
    (hx : ∀ x ∈ xs, -A ≤ x ∧ x ≤ A)
    (hn : n < (int_fn p xs).2.length) (hlt : sB M (ofList xs) (n / R) < (M : Int) * A) :
    (int_fn p xs).2.getD n 0 < A := by
  have hA0 : 0 ≤ A := by omega
  obtain ⟨N, rfl⟩ : ∃ k, N = k + 1 := ⟨N - 1, by omega⟩
  obtain ⟨-, hg⟩ := int_fresh_getD N M R delay cic_malloc p xs hM hR hinit
  rw [hg n hn]
  obtain ⟨hid, hpos⟩ := idiv_fit R M N (by omega) hR hG
  have hdiv : ((R : Int) * M) ^ (N + 1) / R = (M : Int) * ((R : Int) * M) ^ N := by
    have : ((R : Int) * M) ^ (N + 1) = (R : Int) * ((M : Int) * ((R : Int) * M) ^ N) := by
      rw [pow_succ]; ring
    have hRne : (R : Int) ≠ 0 := by omega
    rw [this, Int.mul_ediv_cancel_left _ hRne]
  rw [hdiv] at hfit
  have hb1 : ∀ i, |sHold R (sB M (ofList xs)) i| ≤ (M : Int) * A := by
    intro i
    exact sB_bound M _ A hA0 (ofList_bound _ A hA0 hx) (i / R)
  have hb := sB_iterate_bound (R * M) N _ ((M : Int) * A)
    (mul_nonneg (Int.natCast_nonneg M) hA0) hb1 n
  push_cast at hb
  have hb' : |(sB (R * M))^[N] (sHold R (sB M (ofList xs))) n| ≤
      (M : Int) * ((R : Int) * M) ^ N * A := by
    calc _ ≤ ((R : Int) * M) ^ N * ((M : Int) * A) := hb
      _ = (M : Int) * ((R : Int) * M) ^ N * A := by ring
  rw [wrap32_of_abs_le _ (le_trans hb' (by linarith)), hid]
  obtain ⟨K, hK⟩ : ∃ K, R * M = K + 1 := ⟨R * M - 1, by
    have : 0 < R * M := Nat.mul_pos hR (by omega)
    omega⟩
  have hs := sB_iterate_lower_strict K N (fun i => -sHold R (sB M (ofList xs)) i)
    (-((M : Int) * A))
    (by have := mul_nonneg (Int.natCast_nonneg M) hA0; omega)
    (fun i => by have := abs_le.mp (hb1 i); simp only; omega) n (by simp only [sHold]; omega)
  rw [← hK, sB_iterate_neg] at hs
  push_cast at hs
  exact tdiv_lt _ _ A hpos hA (by linarith)

theorem int_fn_nil (p : cic_filter) : (int_fn p []).2 = [] := by
  unfold int_fn
  cases p.normalize <;> simp [runS, expand]

theorem dec_fn_nil (p : cic_filter) : (dec_fn p []).2 = [] := by
  unfold dec_fn
  cases p.normalize <;> simp [runS, pick_nil]

theorem interpolate_buffer_length (p : cic_filter) (buf : List Int) (buf_len len : Nat)
    (hN : p.N ≤ p.delay.length) (hr : 0 < p.R) (hcap : len * p.R ≤ buf_len)
    (hbuf : len * p.R ≤ buf.length) :
    (cic_filter_interpolate p buf buf_len len).2.1.length = buf.length := by
  have hll : len ≤ len * p.R := Nat.le_mul_of_pos_right len hr
  rw [interpolate_eq p buf buf_len len hN hr hcap hbuf]
  simp only [List.length_append, List.length_drop, int_fn_length _ _ hr, List.length_take]
  rw [Nat.min_eq_left (by omega)]
  omega

theorem decimate_buffer_length (p : cic_filter) (buf : List Int) (len : Nat)
    (hN : p.N ≤ p.delay.length) (hr : 0 < p.R) (hlen : len ≤ buf.length) :
    (cic_filter_decimate p buf len).2.1.length = buf.length := by
  have h1 := (decimate_out p buf len hN hr hlen).2.1
  have h2 := (decimate_out p buf len hN hr hlen).2.2
  have h3 : (dec_fn p (buf.take len)).2.length ≤ len := by
    unfold dec_fn
    have hp := pick_length_le p.R (runS integ_acc (p.delay.take p.N) (buf.take len)).2 p.cnt
    rw [runS_length, List.length_take] at hp
    cases p.normalize <;> simp [runS_length] <;> omega
  rw [decimate_eq p buf len hN hr hlen]
  simp only [List.length_append, List.length_drop, runS_length, List.length_take]
  omega

theorem cic_test_interpolator_loop_eq (block R : Nat) (hb : 0 < block) (hR : 0 < R) :
    ∀ (fuel : Nat) (p : cic_filter) (buffer input : List Int), input.length ≤ fuel →
      p.R = R → p.N ≤ p.delay.length → buffer.length = block * R →
      cic_test_interpolator_loop block R fuel p buffer input = (int_fn p input).2 := by
  intro fuel
  induction fuel with
  | zero =>
    intro p buffer input hf _ _ _
    have : input = [] := List.length_eq_zero.mp (by omega)
    subst this
    simp [cic_test_interpolator_loop, int_fn_nil]
  | succ f ih =>
    intro p buffer input hf hpR hN hbuf
    by_cases h0 : input.length = 0
    · have : input = [] := List.length_eq_zero.mp h0
      subst this
      simp [cic_test_interpolator_loop, int_fn_nil]
    · have htp : min input.length block ≤ block := Nat.min_le_right _ _
      have htp1 : 1 ≤ min input.length block := by
        have : 1 ≤ input.length := by omega
        exact Nat.le_min.mpr ⟨this, hb⟩
      have htpl : min input.length block ≤ input.length := Nat.min_le_left _ _
      have hmul : min input.length block * R ≤ block * R := Nat.mul_le_mul_right R htp
      have hle : block ≤ block * R := Nat.le_mul_of_pos_right block hR
      have hlt : (input.take (min input.length block)).length = min input.length block := by
        rw [List.length_take]; omega
      have hlb : (input.take (min input.length block) ++
          buffer.drop (min input.length block)).length = block * R := by
        rw [List.length_append, hlt, List.length_drop]; omega
      have hr : 0 < p.R := by omega
      obtain ⟨a1, a2, -⟩ := interpolate_out p
        (input.take (min input.length block) ++ buffer.drop (min input.length block))
        (block * R) (min input.length block) hN hr (by rw [hpR]; exact hmul)
        (by rw [hlb, hpR]; exact hmul)
      have a3 := interpolate_buffer_length p
        (input.take (min input.length block) ++ buffer.drop (min input.length block))
        (block * R) (min input.length block) hN hr (by rw [hpR]; exact hmul)
        (by rw [hlb, hpR]; exact hmul)
      rw [List.take_left' hlt] at a1 a2
      simp only [cic_test_interpolator_loop, h0, if_false]
      rw [a2, ih _ _ _ (by rw [List.length_drop]; omega) (by rw [a1]; exact hpR)
        (by rw [a1, int_fn_delay_length _ _ hN]; exact hN) (by rw [a3, hlb]), a1]
      have := int_fn_append p (input.take (min input.length block))
        (input.drop (min input.length block)) hN
      rw [List.take_append_drop] at this
      rw [this]

theorem cic_test_decimator_loop_eq (block : Nat) (hb : 0 < block) :
    ∀ (fuel : Nat) (p : cic_filter) (buffer input : List Int), input.length ≤ fuel →
      0 < p.R → p.N ≤ p.delay.length → block ≤ buffer.length →
      cic_test_decimator_loop block fuel p buffer input = (dec_fn p input).2 := by
  intro fuel
  induction fuel with
  | zero =>
    intro p buffer input hf _ _ _
    have : input = [] := List.length_eq_zero.mp (by omega)
    subst this
    simp [cic_test_decimator_loop, dec_fn_nil]
  | succ f ih =>
    intro p buffer input hf hr hN hbuf
    by_cases h0 : input.length = 0
    · have : input = [] := List.length_eq_zero.mp h0
      subst this
      simp [cic_test_decimator_loop, dec_fn_nil]
    · have htp : min input.length block ≤ block := Nat.min_le_right _ _
      have htp1 : 1 ≤ min input.length block := by
        have : 1 ≤ input.length := by omega
        exact Nat.le_min.mpr ⟨this, hb⟩
      have htpl : min input.length block ≤ input.length := Nat.min_le_left _ _
      have hlt : (input.take (min input.length block)).length = min input.length block := by
        rw [List.length_take]; omega
      have hlb : (input.take (min input.length block) ++
          buffer.drop (min input.length block)).length = buffer.length := by
        rw [List.length_append, hlt, List.length_drop]; omega
      obtain ⟨a1, a2, -⟩ := decimate_out p
        (input.take (min input.length block) ++ buffer.drop (min input.length block))
        (min input.length block) hN hr (by rw [hlb]; omega)
      have a3 := decimate_buffer_length p
        (input.take (min input.length block) ++ buffer.drop (min input.length block))
        (min input.length block) hN hr (by rw [hlb]; omega)
      rw [List.take_left' hlt] at a1 a2
      simp only [cic_test_decimator_loop, h0, if_false]
      rw [a2, ih _ _ _ (by rw [List.length_drop]; omega) (by rw [a1]; exact hr)
        (by rw [a1, dec_fn_delay_length _ _ hN]; exact hN) (by rw [a3, hlb]; exact hbuf), a1]
      have := dec_fn_append p (input.take (min input.length block))
        (input.drop (min input.length block)) hN
      rw [List.take_append_drop] at this
      rw [this]

theorem and_64 (k : Nat) : (k &&& 64 = 0) ↔ (k / 64) % 2 = 0 := by
  have h64 : (64 : Nat) = 2 ^ 6 := by norm_num
  constructor
  · intro h
    have h1 : (k &&& 64).testBit 6 = false := by rw [h]; simp
    rw [Nat.testBit_and, h64, Nat.testBit_two_pow_self, Bool.and_true,
      Nat.testBit_to_div_mod] at h1
    have h2 := of_decide_eq_false h1
    rw [h64]
    omega
  · intro h
    apply Nat.eq_of_testBit_eq
    intro i
    rw [Nat.testBit_and, Nat.zero_testBit, h64, Nat.testBit_two_pow]
    by_cases hi : 6 = i
    · subst hi
      rw [Nat.testBit_to_div_mod]
      have h' : ¬ (k / 2 ^ 6 % 2 = 1) := by
        rw [← h64]; omega
      rw [decide_eq_false h']
      rfl
    · simp [hi]

theorem cic_test_input_length (L : Nat) : (cic_test_input L).length = L := by
  simp [cic_test_input]

theorem cic_test_input_getD (L k : Nat) (hk : k < L) :
    (cic_test_input L).getD k 0 = if (k / 64) % 2 = 0 then 6431 else -6431 := by
  rw [List.getD_eq_getElem _ _ (by rw [cic_test_input_length]; exact hk)]
  simp only [cic_test_input, List.getElem_map, List.getElem_range, and_64]

theorem cic_test_input_bound (L : Nat) : ∀ v ∈ cic_test_input L, (-6431 : Int) ≤ v ∧ v ≤ 6431 := by
  intro v hv
  simp only [cic_test_input, List.mem_map, List.mem_range] at hv
  obtain ⟨i, -, rfl⟩ := hv
  split <;> omega

theorem sB_two (x : Nat → Int) (n : Nat) (hn : 1 ≤ n) : sB 2 x n = x n + x (n - 1) := by
  simp [sB, hn]

/-- Round trip on the functional forms: interpolate the square wave, decimate the result. -/
theorem round_trip_fn (L : Nat) (delay1 delay2 : Option (List Int))
    (malloc1 malloc2 : Nat → Option (List Int)) (p1 p2 : cic_filter)
    (hinit1 : cic_filter_init 4 2 5 delay1 true malloc1 = some p1)
    (hinit2 : cic_filter_init 4 2 5 delay2 true malloc2 = some p2) :
    (int_fn p1 (cic_test_input L)).2.length = 5 * L ∧
      (dec_fn p2 (int_fn p1 (cic_test_input L)).2).2.length = L ∧
      (∀ i, i < L →
        -6431 ≤ (dec_fn p2 (int_fn p1 (cic_test_input L)).2).2.getD i 0 ∧
          (dec_fn p2 (int_fn p1 (cic_test_input L)).2).2.getD i 0 ≤ 6431) ∧
      ∀ i, 1 ≤ i → i < L → i % 64 = 0 →
        if i &&& 64 = 0 then
          (dec_fn p2 (int_fn p1 (cic_test_input L)).2).2.getD i 0 > -6431 ∧
            (dec_fn p2 (int_fn p1 (cic_test_input L)).2).2.getD (i - 1) 0 = -6431
        else
          (dec_fn p2 (int_fn p1 (cic_test_input L)).2).2.getD i 0 < 6431 ∧
            (dec_fn p2 (int_fn p1 (cic_test_input L)).2).2.getD (i - 1) 0 = 6431 := by
  have hG : (((5 : Nat) : Int) * ((2 : Nat) : Int)) ^ 4 ≤ 2147483647 := by norm_num
  have hfitI : (6431 : Int) * ((((5 : Nat) : Int) * ((2 : Nat) : Int)) ^ 4 / ((5 : Nat) : Int)) ≤
      2147483647 := by norm_num
  have hfitD : (6431 : Int) * (((5 : Nat) : Int) * ((2 : Nat) : Int)) ^ 4 ≤ 2147483647 := by
    norm_num
  have hM : (2 : Nat) = 1 ∨ (2 : Nat) = 2 := Or.inr rfl
  generalize hx : cic_test_input L = x
  have hxlen : x.length = L := by rw [← hx]; exact cic_test_input_length L
  have hxb : ∀ v ∈ x, (-6431 : Int) ≤ v ∧ v ≤ 6431 := by rw [← hx]; exact cic_test_input_bound L
  have hxget : ∀ k, k < L → x.getD k 0 = if (k / 64) % 2 = 0 then 6431 else -6431 := by
    intro k hk; rw [← hx]; exact cic_test_input_getD L k hk
  generalize hup : (int_fn p1 x).2 = up
  have huplen : up.length = L * 5 := by
    rw [← hup, (int_fresh_getD 3 2 5 delay1 malloc1 p1 x hM (by decide) hinit1).1, hxlen]
  have hupb : ∀ v ∈ up, (-6431 : Int) ≤ v ∧ v ≤ 6431 := by
    rw [← hup]
    exact int_fn_bounded 4 2 5 6431 delay1 malloc1 p1 x (by decide) hM (by decide)
      (by norm_num) hG hfitI hinit1 hxb
  generalize hd : (dec_fn p2 up).2 = d
  have hdlen : d.length = L := by
    rw [← hd, (dec_fresh_getD 4 2 5 delay2 malloc2 p2 up (by decide) hM (by decide) hinit2).1,
      huplen]
    omega
  have hdb : ∀ v ∈ d, (-6431 : Int) ≤ v ∧ v ≤ 6431 := by
    rw [← hd]
    exact dec_fn_bounded 4 2 5 6431 delay2 malloc2 p2 up (by decide) hM (by decide)
      (by norm_num) hfitD hinit2 hupb
  refine ⟨by omega, hdlen, ?_, ?_⟩
  · intro i hi
    apply hdb
    rw [List.getD_eq_getElem _ _ (by omega)]
    exact List.getElem_mem _
  · intro i hi1 hiL hi64
    -- the value of the half period that ends at index `i - 1`
    generalize hc : (if (i / 64) % 2 = 0 then (-6431 : Int) else 6431) = c
    have hcabs : |c| = 6431 := by
      rw [← hc]; split <;> norm_num
    have hold : ∀ k, i - 64 ≤ k → k < i → x.getD k 0 = c := by
      intro k hk1 hk2
      rw [hxget k (by omega), ← hc]
      have : k / 64 = i / 64 - 1 := by omega
      have h1 : 1 ≤ i / 64 := by omega
      by_cases hp : (i / 64) % 2 = 0
      · have : ¬ ((k / 64) % 2 = 0) := by omega
        simp [hp, this]
      · have : (k / 64) % 2 = 0 := by omega
        simp [hp, this]
    have hupold : ∀ j, 5 * i - 45 ≤ j → j < 5 * i → up.getD j 0 = c := by
      intro j hj1 hj2
      rw [← hup]
      apply int_fn_unity 4 2 5 c delay1 malloc1 p1 x j (by decide) hM (by decide) hG
        (by rw [hcabs]; norm_num) hinit1 (by rw [hup, huplen]; omega) (by omega)
      intro k hk1 hk2
      exact hold k (by omega) (by omega)
    have hdold : d.getD (i - 1) 0 = c := by
      rw [← hd]
      apply dec_fn_unity 4 2 5 c delay2 malloc2 p2 up (i - 1) (by decide) hM (by decide) hG
        (by rw [hcabs]; norm_num) hinit2 (by rw [hd, hdlen]; omega) (by omega)
      intro j hj1 hj2
      exact hupold j (by omega) (by omega)
    have hxi : x.getD i 0 = -c := by
      rw [hxget i hiL, ← hc]
      split <;> simp
    have hxi1 : x.getD (i - 1) 0 = c := hold (i - 1) (by omega) (by omega)
    have hsB : sB 2 (ofList x) (i * 5 / 5) = 0 := by
      rw [Nat.mul_div_cancel _ (by decide : 0 < 5), sB_two _ _ hi1]
      simp only [ofList, hxi, hxi1]
      ring
    by_cases hp : (i / 64) % 2 = 0
    · have hand : i &&& 64 = 0 := (and_64 i).mpr hp
      have hcv : c = -6431 := by rw [← hc]; simp [hp]
      simp only [hand, if_true]
      refine ⟨?_, by rw [hdold, hcv]⟩
      rw [← hd]
      apply dec_fn_gt 4 2 5 6431 delay2 malloc2 p2 up i (by decide) hM (by decide)
        (by norm_num) hfitD hinit2 hupb (by rw [hd, hdlen]; exact hiL)
      rw [← hup]
      apply int_fn_gt 4 2 5 6431 delay1 malloc1 p1 x (i * 5) (by decide) hM (by decide)
        (by norm_num) hG hfitI hinit1 hxb (by rw [hup, huplen]; omega)
      rw [hsB]
      norm_num
    · have hand : ¬ (i &&& 64 = 0) := fun h => hp ((and_64 i).mp h)
      have hcv : c = 6431 := by rw [← hc]; simp [hp]
      simp only [hand, if_false]
      refine ⟨?_, by rw [hdold, hcv]⟩
      rw [← hd]
      apply dec_fn_lt 4 2 5 6431 delay2 malloc2 p2 up i (by decide) hM (by decide)
        (by norm_num) hfitD hinit2 hupb (by rw [hd, hdlen]; exact hiL)
      rw [← hup]
      apply int_fn_lt 4 2 5 6431 delay1 malloc1 p1 x (i * 5) (by decide) hM (by decide)
        (by norm_num) hG hfitI hinit1 hxb (by rw [hup, huplen]; omega)
      rw [hsB]
      norm_num

/-- C6: round trip of the test scenario (`N = 4`, `M = 2`, `R = 5`, `normalize = true`,
blocks of 89 samples). For every length `L ≥ 1` of the square wave, interpolation gives
`5 * L` samples and decimating those gives exactly `L` samples `d`, all in `[-6431, 6431]`,
and at every edge `i` (`1 ≤ i < L`, `i % 64 = 0`): if `(i & 64) = 0` then `d[i] > -6431` and
`d[i - 1] = -6431`, otherwise `d[i] < 6431` and `d[i - 1] = 6431`. -/
theorem test_round_trip (L : Nat) (_hL : 1 ≤ L) (delay1 delay2 : Option (List Int))
    (malloc1 malloc2 : Nat → Option (List Int)) (p1 p2 : cic_filter)
    (buffer1 buffer2 : List Int)
    (hinit1 : cic_filter_init 4 2 5 delay1 true malloc1 = some p1)
    (hinit2 : cic_filter_init 4 2 5 delay2 true malloc2 = some p2)
    (hbuf1 : buffer1.length = 89 * 5) (hbuf2 : buffer2.length = 89 * 5) :
    (cic_test_interpolator 89 5 p1 buffer1 (cic_test_input L)).length = 5 * L ∧
      (cic_test_decimator 89 p2 buffer2
        (cic_test_interpolator 89 5 p1 buffer1 (cic_test_input L))).length = L ∧
      (∀ i, i < L →
        -6431 ≤ (cic_test_decimator 89 p2 buffer2
            (cic_test_interpolator 89 5 p1 buffer1 (cic_test_input L))).getD i 0 ∧
          (cic_test_decimator 89 p2 buffer2
            (cic_test_interpolator 89 5 p1 buffer1 (cic_test_input L))).getD i 0 ≤ 6431) ∧
      ∀ i, 1 ≤ i → i < L → i % 64 = 0 →
        if i &&& 64 = 0 then
          (cic_test_decimator 89 p2 buffer2
              (cic_test_interpolator 89 5 p1 buffer1 (cic_test_input L))).getD i 0 > -6431 ∧
            (cic_test_decimator 89 p2 buffer2
              (cic_test_interpolator 89 5 p1 buffer1 (cic_test_input L))).getD (i - 1) 0 = -6431
        else
          (cic_test_decimator 89 p2 buffer2
              (cic_test_interpolator 89 5 p1 buffer1 (cic_test_input L))).getD i 0 < 6431 ∧
            (cic_test_decimator 89 p2 buffer2
              (cic_test_interpolator 89 5 p1 buffer1 (cic_test_input L))).getD (i - 1) 0 = 6431 := by
  obtain ⟨hd1, hR1⟩ := init_delay_le _ _ _ _ _ _ _ hinit1
  obtain ⟨hd2, hR2⟩ := init_delay_le _ _ _ _ _ _ _ hinit2
  have e1 : cic_test_interpolator 89 5 p1 buffer1 (cic_test_input L) = (int_fn p1 (cic_test_input L)).2 :=
    cic_test_interpolator_loop_eq 89 5 (by decide) (by decide) _ p1 buffer1 _ (Nat.le_refl _) hR1 hd1
      hbuf1
  have e2 : ∀ input, cic_test_decimator 89 p2 buffer2 input = (dec_fn p2 input).2 := fun input =>
    cic_test_decimator_loop_eq 89 (by decide) _ p2 buffer2 input (Nat.le_refl _) (by omega) hd2
      (by omega)
  rw [e1, e2]
  exact round_trip_fn L delay1 delay2 malloc1 malloc2 p1 p2 hinit1 hinit2

theorem test_round_trip_witness :
    (cic_test_interpolator 89 5 ⟨4, 2, 0, 5, 0, List.replicate 12 0, true, true, 10000, 2000⟩
        (List.replicate 445 0) (cic_test_input 130)).length = 5 * 130 ∧
      (cic_test_decimator 89 ⟨4, 2, 0, 5, 0, List.replicate 12 0, true, true, 10000, 2000⟩
        (List.replicate 445 0)
        (cic_test_interpolator 89 5 ⟨4, 2, 0, 5, 0, List.replicate 12 0, true, true, 10000, 2000⟩
          (List.replicate 445 0) (cic_test_input 130))).length = 130 ∧
      (if 128 &&& 64 = 0 then
        (cic_test_decimator 89 ⟨4, 2, 0, 5, 0, List.replicate 12 0, true, true, 10000, 2000⟩
            (List.replicate 445 0)
            (cic_test_interpolator 89 5 ⟨4, 2, 0, 5, 0, List.replicate 12 0, true, true, 10000, 2000⟩
              (List.replicate 445 0) (cic_test_input 130))).getD 128 0 > -6431 ∧
          (cic_test_decimator 89 ⟨4, 2, 0, 5, 0, List.replicate 12 0, true, true, 10000, 2000⟩
            (List.replicate 445 0)
            (cic_test_interpolator 89 5 ⟨4, 2, 0, 5, 0, List.replicate 12 0, true, true, 10000, 2000⟩
              (List.replicate 445 0) (cic_test_input 130))).getD (128 - 1) 0 = -6431
      else
        (cic_test_decimator 89 ⟨4, 2, 0, 5, 0, List.replicate 12 0, true, true, 10000, 2000⟩
            (List.replicate 445 0)
            (cic_test_interpolator 89 5 ⟨4, 2, 0, 5, 0, List.replicate 12 0, true, true, 10000, 2000⟩
              (List.replicate 445 0) (cic_test_input 130))).getD 128 0 < 6431 ∧
          (cic_test_decimator 89 ⟨4, 2, 0, 5, 0, List.replicate 12 0, true, true, 10000, 2000⟩
            (List.replicate 445 0)
            (cic_test_interpolator 89 5 ⟨4, 2, 0, 5, 0, List.replicate 12 0, true, true, 10000, 2000⟩
              (List.replicate 445 0) (cic_test_input 130))).getD (128 - 1) 0 = 6431) :=
  ⟨(test_round_trip 130 (by decide) none none (fun n => some (List.replicate n 0))
      (fun n => some (List.replicate n 0))
      ⟨4, 2, 0, 5, 0, List.replicate 12 0, true, true, 10000, 2000⟩
      ⟨4, 2, 0, 5, 0, List.replicate 12 0, true, true, 10000, 2000⟩
      (List.replicate 445 0) (List.replicate 445 0) (by decide) (by decide)
      (List.length_replicate 445 0) (List.length_replicate 445 0)).1,
    (test_round_trip 130 (by decide) none none (fun n => some (List.replicate n 0))
      (fun n => some (List.replicate n 0))
      ⟨4, 2, 0, 5, 0, List.replicate 12 0, true, true, 10000, 2000⟩
      ⟨4, 2, 0, 5, 0, List.replicate 12 0, true, true, 10000, 2000⟩
      (List.replicate 445 0) (List.replicate 445 0) (by decide) (by decide)
      (List.length_replicate 445 0) (List.length_replicate 445 0)).2.1,
    (test_round_trip 130 (by decide) none none (fun n => some (List.replicate n 0))
      (fun n => some (List.replicate n 0))
      ⟨4, 2, 0, 5, 0, List.replicate 12 0, true, true, 10000, 2000⟩
      ⟨4, 2, 0, 5, 0, List.replicate 12 0, true, true, 10000, 2000⟩
      (List.replicate 445 0) (List.replicate 445 0) (by decide) (by decide)
      (List.length_replicate 445 0) (List.length_replicate 445 0)).2.2.2 128 (by decide) (by decide) (by decide)⟩

theorem rate_down_loop_idx (r len : Nat) (hr : 0 < r) :
    ∀ (fuel i j : Nat) (buf : List Int), len ≤ fuel + i →
      (rate_down_loop r len fuel i j buf).1 = i + (len - i + r - 1) / r * r ∧
        (rate_down_loop r len fuel i j buf).2.1 = j + (len - i + r - 1) / r := by
  have hdone : ∀ i, len ≤ i → (len - i + r - 1) / r = 0 := by
    intro i hi
    exact Nat.div_eq_of_lt (by omega)
  intro fuel
  induction fuel with
  | zero =>
    intro i j buf h
    simp only [rate_down_loop]
    rw [hdone i (by omega)]
    simp
  | succ f ih =>
    intro i j buf h
    simp only [rate_down_loop]
    split
    · rename_i hlt
      obtain ⟨h1, h2⟩ := ih (i + r) (j + 1) (buf.set j (buf.getD i 0)) (by omega)
      have hq : (len - i + r - 1) / r = (len - (i + r) + r - 1) / r + 1 := by
        by_cases hc : i + r ≤ len
        · have e : len - i + r - 1 = (len - (i + r) + r - 1) + r := by omega
          rw [e, Nat.add_div_right _ hr]
        · have e1 : (len - (i + r) + r - 1) / r = 0 := hdone (i + r) (by omega)
          have e2 : (len - i + r - 1) / r = 1 :=
            Nat.div_eq_of_lt_le (by omega) (by omega)
          rw [e1, e2]
      rw [h1, h2, hq, Nat.succ_mul]
      omega
    · rename_i hge
      rw [hdone i (by omega)]
      simp

theorem decimate_rlen (p : cic_filter) (buf : List Int) (len : Nat) (hR : 1 ≤ p.R) :
    (cic_filter_decimate p buf len).2.2 = (len - p.cnt + p.R - 1) / p.R ∧
      (cic_filter_decimate p buf len).1.cnt =
        p.cnt + (len - p.cnt + p.R - 1) / p.R * p.R - len := by
  obtain ⟨h1, h2⟩ := rate_down_loop_idx p.R len hR len p.cnt 0 (cic_integrate p buf len).2
    (by omega)
  constructor
  · show (rate_down_loop p.R len len p.cnt 0 (cic_integrate p buf len).2).2.1 = _
    rw [h2, Nat.zero_add]
  · show (rate_down_loop p.R len len p.cnt 0 (cic_integrate p buf len).2).1 - len = _
    rw [h1]

/-- C11: output length bound of `cic_filter_decimate`. For every state with `R ≥ 1` and
rate counter `cnt ≤ R - 1` and every input length `len`, the returned length is at most
`len` and at most `len / R + 1`. -/
theorem decimate_length_bound (p : cic_filter) (buf : List Int) (len : Nat)
    (hR : 1 ≤ p.R) (_hcnt : p.cnt ≤ p.R - 1) :
    (cic_filter_decimate p buf len).2.2 ≤ len ∧
      (cic_filter_decimate p buf len).2.2 ≤ len / p.R + 1 := by
  rw [(decimate_rlen p buf len hR).1]
  have hle : len ≤ len * p.R := Nat.le_mul_of_pos_right len hR
  constructor
  · apply Nat.le_of_lt_succ
    rw [Nat.div_lt_iff_lt_mul hR, Nat.succ_mul]
    omega
  · calc (len - p.cnt + p.R - 1) / p.R ≤ (len + p.R) / p.R :=
          Nat.div_le_div_right (by omega)
      _ = len / p.R + 1 := Nat.add_div_right _ hR

theorem decimate_length_bound_witness :
    (cic_filter_decimate ⟨4, 2, 0, 5, 4, [0, 0, 0, 0, 0, 0, 0, 0, 0, 0, 0, 0], true, true,
        10000, 2000⟩ [1, 2, 3, 4, 5, 6, 7, 8, 9, 10, 11] 11).2.2 ≤ 11 ∧
      (cic_filter_decimate ⟨4, 2, 0, 5, 4, [0, 0, 0, 0, 0, 0, 0, 0, 0, 0, 0, 0], true, true,
        10000, 2000⟩ [1, 2, 3, 4, 5, 6, 7, 8, 9, 10, 11] 11).2.2 ≤ 11 / 5 + 1 :=
  decimate_length_bound
    ⟨4, 2, 0, 5, 4, [0, 0, 0, 0, 0, 0, 0, 0, 0, 0, 0, 0], true, true, 10000, 2000⟩
    [1, 2, 3, 4, 5, 6, 7, 8, 9, 10, 11] 11 (by decide) (by decide)

/-- C12: rate-counter invariant. The state after `cic_filter_init` has `cnt = 0`, and every
call of `cic_filter_decimate` (any input length) and of `cic_filter_interpolate` started in a
state with `R ≥ 1` and `cnt ≤ R - 1` ends in a state with the same `R` and `cnt ≤ R - 1`. -/
theorem rate_counter_invariant (N M R : Nat) (delay : Option (List Int)) (nrm : Bool)
    (cic_malloc : Nat → Option (List Int)) (q : cic_filter)
    (p : cic_filter) (buf : List Int) (buf_len len : Nat)
    (hinit : cic_filter_init N M R delay nrm cic_malloc = some q)
    (hR : 1 ≤ p.R) (hcnt : p.cnt ≤ p.R - 1) :
    q.cnt = 0 ∧
      ((cic_filter_decimate p buf len).1.R = p.R ∧
        (cic_filter_decimate p buf len).1.cnt ≤ p.R - 1) ∧
      ((cic_filter_interpolate p buf buf_len len).1.R = p.R ∧
        (cic_filter_interpolate p buf buf_len len).1.cnt ≤ p.R - 1) := by
  refine ⟨(init_spec _ _ _ _ _ _ _ hinit).2.2.2.2.1.2.1, ⟨rfl, ?_⟩, ?_⟩
  · rw [(decimate_rlen p buf len hR).2]
    by_cases hc : len ≤ p.cnt
    · have : (len - p.cnt + p.R - 1) / p.R = 0 := Nat.div_eq_of_lt (by omega)
      rw [this]
      omega
    · have h1 := Nat.div_mul_le_self (len - p.cnt + p.R - 1) p.R
      omega
  · unfold cic_filter_interpolate
    split
    · exact ⟨rfl, hcnt⟩
    · exact ⟨rfl, hcnt⟩

theorem rate_counter_invariant_witness :
    (⟨4, 2, 0, 5, 0, [0, 0, 0, 0, 0, 0, 0, 0, 0, 0, 0, 0], true, true, 10000, 2000⟩ :
        cic_filter).cnt = 0 ∧
      ((cic_filter_decimate ⟨1, 1, 0, 5, 4, [3, 7], false, false, 0, 0⟩
          [1, 2, 3, 0, 0, 0, 0, 0, 0, 0, 0, 0, 0, 0, 0] 3).1.R = 5 ∧
        (cic_filter_decimate ⟨1, 1, 0, 5, 4, [3, 7], false, false, 0, 0⟩
          [1, 2, 3, 0, 0, 0, 0, 0, 0, 0, 0, 0, 0, 0, 0] 3).1.cnt ≤ 5 - 1) ∧
      ((cic_filter_interpolate ⟨1, 1, 0, 5, 4, [3, 7], false, false, 0, 0⟩
          [1, 2, 3, 0, 0, 0, 0, 0, 0, 0, 0, 0, 0, 0, 0] 15 3).1.R = 5 ∧
        (cic_filter_interpolate ⟨1, 1, 0, 5, 4, [3, 7], false, false, 0, 0⟩
          [1, 2, 3, 0, 0, 0, 0, 0, 0, 0, 0, 0, 0, 0, 0] 15 3).1.cnt ≤ 5 - 1) :=
  rate_counter_invariant 4 2 5 none true (fun n => some (List.replicate n 0))
    ⟨4, 2, 0, 5, 0, [0, 0, 0, 0, 0, 0, 0, 0, 0, 0, 0, 0], true, true, 10000, 2000⟩
    ⟨1, 1, 0, 5, 4, [3, 7], false, false, 0, 0⟩ [1, 2, 3, 0, 0, 0, 0, 0, 0, 0, 0, 0, 0, 0, 0] 15 3
    (by decide) (by decide) (by decide)

theorem comb_loop_mpos (N m slen mx : Nat) : ∀ (len : Nat) (d : List Int) (mp : Nat)
    (buf : List Int),
    ((List.range len).foldl
        (fun (st : (List Int × Nat) × List Int) i =>
          (((comb_stages N m slen st.1.2 slen 0 st.1.1 (st.2.getD i 0)).1, st.1.2 ^^^ mx),
            st.2.set i (comb_stages N m slen st.1.2 slen 0 st.1.1 (st.2.getD i 0)).2))
        ((d, mp), buf)).1.2 = (fun k => k ^^^ mx)^[len] mp := by
  intro len
  induction len with
  | zero => intro d mp buf; rfl
  | succ n ih =>
    intro d mp buf
    rw [List.range_succ, List.foldl_append, Function.iterate_succ_apply']
    simp only [List.foldl_cons, List.foldl_nil]
    rw [ih]

theorem cic_comb_mpos (p : cic_filter) (buf : List Int) (len : Nat) :
    (cic_comb p buf len).1.mpos = (fun k => k ^^^ (p.M - 1))^[len] p.mpos :=
  comb_loop_mpos p.N p.M (p.N * p.M) (p.M - 1) len p.delay p.mpos buf

theorem xor_one_iterate (c m : Nat) (hm : m < 2) :
    (fun k => k ^^^ 1)^[c] m = (m + c) % 2 := by
  induction c with
  | zero => simp; omega
  | succ c ih =>
    rw [Function.iterate_succ_apply', ih]
    have h2 : (m + c) % 2 < 2 := Nat.mod_lt _ (by decide)
    have e0 : (0 : Nat) ^^^ 1 = 1 := by decide
    have e1 : (1 : Nat) ^^^ 1 = 0 := by decide
    rcases Nat.lt_or_ge ((m + c) % 2) 1 with h | h
    · have h0 : (m + c) % 2 = 0 := by omega
      simp only [h0, e0]
      omega
    · have h1 : (m + c) % 2 = 1 := by omega
      simp only [h1, e1]
      omega

theorem xor_zero_iterate (c m : Nat) : (fun k => k ^^^ 0)^[c] m = m := by
  induction c with
  | zero => rfl
  | succ c ih => rw [Function.iterate_succ_apply', ih]; simp

theorem mpos_after (M old c : Nat) (hM : M = 1 ∨ M = 2) (hold : old = 0 ∨ old = M - 1) :
    ((fun k => k ^^^ (M - 1))^[c] old = 0 ∨ (fun k => k ^^^ (M - 1))^[c] old = M - 1) ∧
      (M = 2 → (fun k => k ^^^ (M - 1))^[c] old = (old + c) % 2) ∧
      (M = 1 → (fun k => k ^^^ (M - 1))^[c] old = 0) := by
  rcases hM with rfl | rfl
  · have h0 : old = 0 := by omega
    subst h0
    have := xor_zero_iterate c 0
    simp only [Nat.sub_self]
    rw [this]
    exact ⟨Or.inl rfl, fun h => absurd h (by decide), fun _ => rfl⟩
  · have hlt : old < 2 := by omega
    have := xor_one_iterate c old hlt
    have e : (2 : Nat) - 1 = 1 := rfl
    simp only [e]
    rw [this]
    refine ⟨by omega, fun _ => rfl, fun h => absurd h (by decide)⟩

/-- C13: tap-position invariant and toggling. For `M` in `{1, 2}` the state after
`cic_filter_init` has `mpos = 0`; a decimate or interpolate call started with `mpos` in
`{0, M - 1}` ends with `mpos` in `{0, M - 1}`; with `c` the number of samples the comb
processed (the returned length for decimate, the input length for a successful
interpolate), the new `mpos` is `(mpos + c) % 2` for `M = 2` and `0` for `M = 1`. -/
theorem tap_position_invariant (N R : Nat) (delay : Option (List Int)) (nrm : Bool)
    (cic_malloc : Nat → Option (List Int)) (q : cic_filter)
    (p : cic_filter) (buf : List Int) (buf_len len : Nat)
    (hM : p.M = 1 ∨ p.M = 2)
    (hinit : cic_filter_init N p.M R delay nrm cic_malloc = some q)
    (hmpos : p.mpos = 0 ∨ p.mpos = p.M - 1) :
    q.mpos = 0 ∧
      (((cic_filter_decimate p buf len).1.mpos = 0 ∨
          (cic_filter_decimate p buf len).1.mpos = p.M - 1) ∧
        (p.M = 2 → (cic_filter_decimate p buf len).1.mpos =
          (p.mpos + (cic_filter_decimate p buf len).2.2) % 2) ∧
        (p.M = 1 → (cic_filter_decimate p buf len).1.mpos = 0)) ∧
      (((cic_filter_interpolate p buf buf_len len).1.mpos = 0 ∨
          (cic_filter_interpolate p buf buf_len len).1.mpos = p.M - 1) ∧
        (len * p.R ≤ buf_len →
          (p.M = 2 → (cic_filter_interpolate p buf buf_len len).1.mpos = (p.mpos + len) % 2) ∧
          (p.M = 1 → (cic_filter_interpolate p buf buf_len len).1.mpos = 0))) := by
  refine ⟨(init_spec _ _ _ _ _ _ _ hinit).2.2.2.2.1.1, ?_, ?_⟩
  · have e : (cic_filter_decimate p buf len).1.mpos =
        (fun k => k ^^^ (p.M - 1))^[(cic_filter_decimate p buf len).2.2] p.mpos :=
      cic_comb_mpos _ _ _
    rw [e]
    exact mpos_after p.M p.mpos _ hM hmpos
  · by_cases hg : len * p.R > buf_len
    · have e : cic_filter_interpolate p buf buf_len len = (p, buf, 0) := by
        unfold cic_filter_interpolate
        rw [if_pos hg]
      rw [e]
      exact ⟨hmpos, fun h => absurd h (by omega)⟩
    · have e : (cic_filter_interpolate p buf buf_len len).1.mpos =
          (fun k => k ^^^ (p.M - 1))^[len] p.mpos := by
        unfold cic_filter_interpolate
        rw [if_neg hg]
        exact cic_comb_mpos p buf len
      rw [e]
      have := mpos_after p.M p.mpos len hM hmpos
      exact ⟨this.1, fun _ => this.2⟩

theorem tap_position_invariant_witness :
    (⟨4, 2, 0, 5, 0, [0, 0, 0, 0, 0, 0, 0, 0, 0, 0, 0, 0], true, true, 10000, 2000⟩ :
        cic_filter).mpos = 0 ∧
      ((cic_filter_decimate ⟨1, 2, 1, 2, 0, [3, 7, 9], false, false, 0, 0⟩
          [1, 2, 3, 4, 5, 0, 0, 0, 0, 0] 5).1.mpos = 0 ∨
        (cic_filter_decimate ⟨1, 2, 1, 2, 0, [3, 7, 9], false, false, 0, 0⟩
          [1, 2, 3, 4, 5, 0, 0, 0, 0, 0] 5).1.mpos = 2 - 1) ∧
      (cic_filter_decimate ⟨1, 2, 1, 2, 0, [3, 7, 9], false, false, 0, 0⟩
          [1, 2, 3, 4, 5, 0, 0, 0, 0, 0] 5).1.mpos =
        (1 + (cic_filter_decimate ⟨1, 2, 1, 2, 0, [3, 7, 9], false, false, 0, 0⟩
          [1, 2, 3, 4, 5, 0, 0, 0, 0, 0] 5).2.2) % 2 ∧
      (cic_filter_interpolate ⟨1, 2, 1, 2, 0, [3, 7, 9], false, false, 0, 0⟩
          [1, 2, 3, 4, 5, 0, 0, 0, 0, 0] 10 5).1.mpos = (1 + 5) % 2 :=
  ⟨(tap_position_invariant 4 5 none true (fun n => some (List.replicate n 0))
      ⟨4, 2, 0, 5, 0, [0, 0, 0, 0, 0, 0, 0, 0, 0, 0, 0, 0], true, true, 10000, 2000⟩
      ⟨1, 2, 1, 2, 0, [3, 7, 9], false, false, 0, 0⟩ [1, 2, 3, 4, 5, 0, 0, 0, 0, 0] 10 5
      (by decide) (by decide) (by decide)).1,
    (tap_position_invariant 4 5 none true (fun n => some (List.replicate n 0))
      ⟨4, 2, 0, 5, 0, [0, 0, 0, 0, 0, 0, 0, 0, 0, 0, 0, 0], true, true, 10000, 2000⟩
      ⟨1, 2, 1, 2, 0, [3, 7, 9], false, false, 0, 0⟩ [1, 2, 3, 4, 5, 0, 0, 0, 0, 0] 10 5
      (by decide) (by decide) (by decide)).2.1.1,
    (tap_position_invariant 4 5 none true (fun n => some (List.replicate n 0))
      ⟨4, 2, 0, 5, 0, [0, 0, 0, 0, 0, 0, 0, 0, 0, 0, 0, 0], true, true, 10000, 2000⟩
      ⟨1, 2, 1, 2, 0, [3, 7, 9], false, false, 0, 0⟩ [1, 2, 3, 4, 5, 0, 0, 0, 0, 0] 10 5
      (by decide) (by decide) (by decide)).2.1.2.1 rfl,
    ((tap_position_invariant 4 5 none true (fun n => some (List.replicate n 0))
      ⟨4, 2, 0, 5, 0, [0, 0, 0, 0, 0, 0, 0, 0, 0, 0, 0, 0], true, true, 10000, 2000⟩
      ⟨1, 2, 1, 2, 0, [3, 7, 9], false, false, 0, 0⟩ [1, 2, 3, 4, 5, 0, 0, 0, 0, 0] 10 5
      (by decide) (by decide) (by decide)).2.2.2 (by decide)).1 rfl⟩

theorem getD_take_append_drop (f : Int → Int) (buf : List Int) (len i : Nat)
    (hlen : len ≤ buf.length) :
    ((buf.take len).map f ++ buf.drop len).getD i 0 =
      if i < len then f (buf.getD i 0) else buf.getD i 0 := by
  have hl : ((buf.take len).map f).length = len := by simp; omega
  by_cases hi : i < len
  · simp only [hi, if_true]
    rw [List.getD_append _ _ _ _ (by omega), List.getD_eq_getElem _ _ (by omega),
      List.getD_eq_getElem _ _ (by omega)]
    simp
  · simp only [hi, if_false]
    rw [List.getD_append_right _ _ _ _ (by omega), hl, getD_drop]
    congr 1
    omega

theorem normalize_getD (buf : List Int) (len : Nat) (div : Int) (i : Nat)
    (hlen : len ≤ buf.length) :
    (cic_normalize buf len div).getD i 0 =
      if i < len then (buf.getD i 0).tdiv div else buf.getD i 0 := by
  rw [cic_normalize_eq buf len div hlen]
  exact getD_take_append_drop (fun v => v.tdiv div) buf len i hlen

theorem tdiv_toward_zero (v d : Int) (hd : 0 < d) :
    v.tdiv d = if 0 ≤ v then v / d else -((-v) / d) := by
  by_cases hv : 0 ≤ v
  · simp only [hv, if_true]
    exact Int.tdiv_eq_ediv hv (le_of_lt hd)
  · simp only [hv, if_false]
    have hv' : 0 ≤ -v := by omega
    rw [← Int.tdiv_eq_ediv hv' (le_of_lt hd), Int.neg_tdiv, neg_neg]

/-- C14: truncating normalisation. For a divisor `div > 0`, `cic_normalize` replaces each of
the first `len` samples `v` by the quotient of `v` by `div` rounded toward zero (`v / div`
for `v ≥ 0`, `-((-v) / div)` for `v < 0`, with `/` the floor division; so `-7` and `2` give
`-3`), a buffer holding `-v` where `buf` holds `v` gets the negated result, and the samples
at index `≥ len` are unchanged. -/
theorem normalize_truncates (buf buf' : List Int) (len : Nat) (div : Int) (i : Nat)
    (hdiv : 0 < div) (hlen : len ≤ buf.length) (hlen' : len ≤ buf'.length)
    (_hmin : buf.getD i 0 ≠ -2147483648) (hneg : buf'.getD i 0 = -buf.getD i 0) :
    (cic_normalize buf len div).length = buf.length ∧
      (i < len → (cic_normalize buf len div).getD i 0 =
        if 0 ≤ buf.getD i 0 then buf.getD i 0 / div else -((-buf.getD i 0) / div)) ∧
      (len ≤ i → (cic_normalize buf len div).getD i 0 = buf.getD i 0) ∧
      (i < len → (cic_normalize buf' len div).getD i 0 = -(cic_normalize buf len div).getD i 0) ∧
      cic_normalize [-7] 1 2 = [-3] := by
  refine ⟨?_, ?_, ?_, ?_, by decide⟩
  · rw [cic_normalize_eq buf len div hlen]
    simp
    omega
  · intro hi
    rw [normalize_getD buf len div i hlen, if_pos hi]
    exact tdiv_toward_zero _ _ hdiv
  · intro hi
    rw [normalize_getD buf len div i hlen, if_neg (by omega)]
  · intro hi
    rw [normalize_getD buf len div i hlen, normalize_getD buf' len div i hlen', if_pos hi,
      if_pos hi, hneg, Int.neg_tdiv]

theorem normalize_truncates_witness :
    (cic_normalize [-7, 7, 10, -9] 3 2).length = [-7, 7, 10, -9].length ∧
      (cic_normalize [-7, 7, 10, -9] 3 2).getD 0 0 =
        (if (0 : Int) ≤ [-7, 7, 10, -9].getD 0 0 then [-7, 7, 10, -9].getD 0 0 / 2
          else -((-[-7, 7, 10, -9].getD 0 0) / 2)) ∧
      (cic_normalize [7, 7, 10, -9] 3 2).getD 0 0 = -(cic_normalize [-7, 7, 10, -9] 3 2).getD 0 0 ∧
      cic_normalize [-7] 1 2 = [-3] :=
  ⟨(normalize_truncates [-7, 7, 10, -9] [7, 7, 10, -9] 3 2 0 (by decide) (by decide)
      (by decide) (by decide) (by decide)).1,
    (normalize_truncates [-7, 7, 10, -9] [7, 7, 10, -9] 3 2 0 (by decide) (by decide)
      (by decide) (by decide) (by decide)).2.1 (by decide),
    (normalize_truncates [-7, 7, 10, -9] [7, 7, 10, -9] 3 2 0 (by decide) (by decide)
      (by decide) (by decide) (by decide)).2.2.2.1 (by decide),
    (normalize_truncates [-7, 7, 10, -9] [7, 7, 10, -9] 3 2 0 (by decide) (by decide)
      (by decide) (by decide) (by decide)).2.2.2.2⟩

theorem filter_lt_length (q : Nat) : ∀ n : Nat,
    ((List.range n).filter (fun j => decide (j < q))).length = min n q := by
  intro n
  induction n with
  | zero => simp
  | succ n ih =>
    rw [List.range_succ, List.filter_append, List.length_append, ih]
    by_cases h : n < q
    · simp [h]; omega
    · simp [h]; omega

theorem sel_count_eq (R cnt len : Nat) (hR : 0 < R) :
    sel_count R cnt len = (len - cnt + R - 1) / R := by
  have hiff : ∀ j, (cnt + j * R < len) ↔ j < (len - cnt + R - 1) / R := by
    intro j
    have h1 : j < (len - cnt + R - 1) / R ↔ (j + 1) * R ≤ len - cnt + R - 1 :=
      Nat.le_div_iff_mul_le hR
    rw [h1, Nat.succ_mul]
    omega
  have hq : (len - cnt + R - 1) / R ≤ len := by
    have hle : len ≤ len * R := Nat.le_mul_of_pos_right len hR
    apply Nat.le_of_lt_succ
    rw [Nat.div_lt_iff_lt_mul hR, Nat.succ_mul]
    omega
  unfold sel_count
  rw [List.filter_congr (q := fun j => decide (j < (len - cnt + R - 1) / R))
    (fun j _ => by simp only [hiff j]), filter_lt_length]
  omega

theorem getD_append_left' (a b : List Int) (i : Nat) (h : i < a.length) :
    (a ++ b).getD i 0 = a.getD i 0 :=
  List.getD_append _ _ _ _ h

theorem getD_take (l : List Int) (n i : Nat) (h : i < n) : (l.take n).getD i 0 = l.getD i 0 := by
  simp [List.getD, List.getElem?_take_of_lt h]

/-- C16: semantics of `cic_rate_down`. With `c` the number of `j` such that
`cnt + j * R < len`, the call returns `c`, the resulting buffer holds `b[cnt + j * R]` at
index `j` for every `j < c`, the new rate counter is `cnt + c * R - len`, and no other field
of the state changes. -/
theorem rate_down_semantics (p : cic_filter) (buf : List Int) (len : Nat)
    (hR : 1 ≤ p.R) (hlen : len ≤ buf.length) :
    (cic_rate_down p buf len).2.2 = sel_count p.R p.cnt len ∧
      (∀ j, j < sel_count p.R p.cnt len →
        (cic_rate_down p buf len).2.1.getD j 0 = buf.getD (p.cnt + j * p.R) 0) ∧
      (cic_rate_down p buf len).1 =
        { p with cnt := p.cnt + sel_count p.R p.cnt len * p.R - len } := by
  obtain ⟨h1, h2⟩ := rate_down_loop_idx p.R len hR len p.cnt 0 buf (by omega)
  have hc := sel_count_eq p.R p.cnt len hR
  have hret : (cic_rate_down p buf len).2.2 = sel_count p.R p.cnt len := by
    show (rate_down_loop p.R len len p.cnt 0 buf).2.1 = _
    rw [h2, hc, Nat.zero_add]
  refine ⟨hret, ?_, ?_⟩
  · intro j hj
    have e := cic_rate_down_eq p buf len hR hlen
    have hl : (pick p.R p.cnt (buf.take len)).length = sel_count p.R p.cnt len := by
      rw [← hret, e]
    rw [e]
    simp only
    rw [getD_append_left' _ _ _ (by omega), pick_skip]
    rw [pick_skip] at hl
    obtain ⟨g1, g2⟩ := pick_getD p.R hR j ((buf.take len).drop p.cnt) (by omega)
    rw [List.length_drop, List.length_take] at g1
    rw [g2, getD_drop, getD_take _ _ _ (by omega)]
  · show ({ p with cnt := (rate_down_loop p.R len len p.cnt 0 buf).1 - len } : cic_filter) = _
    rw [h1, hc]

theorem rate_down_semantics_witness :
    (cic_rate_down ⟨1, 1, 0, 3, 2, [0, 0], false, false, 0, 0⟩
        [10, 11, 12, 13, 14, 15, 16, 17, 18, 19] 9).2.2 = sel_count 3 2 9 ∧
      (cic_rate_down ⟨1, 1, 0, 3, 2, [0, 0], false, false, 0, 0⟩
        [10, 11, 12, 13, 14, 15, 16, 17, 18, 19] 9).2.1.getD 2 0 =
        [10, 11, 12, 13, 14, 15, 16, 17, 18, 19].getD (2 + 2 * 3) 0 ∧
      (cic_rate_down ⟨1, 1, 0, 3, 2, [0, 0], false, false, 0, 0⟩
        [10, 11, 12, 13, 14, 15, 16, 17, 18, 19] 9).1 =
        ⟨1, 1, 0, 3, 2 + sel_count 3 2 9 * 3 - 9, [0, 0], false, false, 0, 0⟩ :=
  ⟨(rate_down_semantics ⟨1, 1, 0, 3, 2, [0, 0], false, false, 0, 0⟩
      [10, 11, 12, 13, 14, 15, 16, 17, 18, 19] 9 (by decide) (by decide)).1,
    (rate_down_semantics ⟨1, 1, 0, 3, 2, [0, 0], false, false, 0, 0⟩
      [10, 11, 12, 13, 14, 15, 16, 17, 18, 19] 9 (by decide) (by decide)).2.1 2 (by decide),
    (rate_down_semantics ⟨1, 1, 0, 3, 2, [0, 0], false, false, 0, 0⟩
      [10, 11, 12, 13, 14, 15, 16, 17, 18, 19] 9 (by decide) (by decide)).2.2⟩

/-- C17: semantics of the in-place `cic_rate_up`. For `R ≥ 1` and a capacity
`buf_len ≥ len * R` that the buffer really has, the call returns `len * R`; afterwards the
buffer holds `b[k]` at index `k * R` and `0` at the indices `k * R + t`, `1 ≤ t ≤ R - 1`,
for every `k < len`, and the elements at index `≥ len * R` are unchanged. -/
theorem rate_up_semantics (p : cic_filter) (buf : List Int) (buf_len len : Nat)
    (hR : 1 ≤ p.R) (hcap : len * p.R ≤ buf_len) (hbuf : buf_len ≤ buf.length) :
    (cic_rate_up p buf buf_len len).2 = len * p.R ∧
      (cic_rate_up p buf buf_len len).1.length = buf.length ∧
      (∀ k, k < len → (cic_rate_up p buf buf_len len).1.getD (k * p.R) 0 = buf.getD k 0) ∧
      (∀ k t, k < len → 1 ≤ t → t ≤ p.R - 1 →
        (cic_rate_up p buf buf_len len).1.getD (k * p.R + t) 0 = 0) ∧
      (∀ i, len * p.R ≤ i → (cic_rate_up p buf buf_len len).1.getD i 0 = buf.getD i 0) := by
  have hll : len ≤ len * p.R := Nat.le_mul_of_pos_right len hR
  have e := cic_rate_up_eq p buf buf_len len hR hcap (by omega)
  have hl : (expand p.R (buf.take len)).length = len * p.R := by
    rw [expand_length _ hR, List.length_take]
    congr 1
    omega
  have hidx : ∀ k t, k < len → t < p.R → k * p.R + t < len * p.R := by
    intro k t hk ht
    have : (k + 1) * p.R ≤ len * p.R := Nat.mul_le_mul_right _ hk
    rw [Nat.succ_mul] at this
    omega
  have hget : ∀ k t, k < len → t < p.R →
      (cic_rate_up p buf buf_len len).1.getD (k * p.R + t) 0 =
        if t = 0 then buf.getD k 0 else 0 := by
    intro k t hk ht
    have hi := hidx k t hk ht
    rw [e]
    simp only
    rw [getD_append_left' _ _ _ (by omega), expand_getD p.R hR _ _
      (by rw [List.length_take]; rw [Nat.min_eq_left (by omega)]; exact hi)]
    have hm : (k * p.R + t) % p.R = t := by
      rw [Nat.add_comm, Nat.add_mul_mod_self_right, Nat.mod_eq_of_lt ht]
    have hd : (k * p.R + t) / p.R = k := by
      rw [Nat.add_comm, Nat.add_mul_div_right _ _ hR, Nat.div_eq_of_lt ht, Nat.zero_add]
    rw [hm, hd, getD_take _ _ _ hk]
  refine ⟨by rw [e], ?_, ?_, ?_, ?_⟩
  · rw [e]
    simp only [List.length_append, hl, List.length_drop]
    omega
  · intro k hk
    have := hget k 0 hk hR
    simpa using this
  · intro k t hk ht1 ht2
    rw [hget k t hk (by omega), if_neg (by omega)]
  · intro i hi
    rw [e]
    simp only
    rw [List.getD_append_right _ _ _ _ (by omega), hl, getD_drop]
    congr 1
    omega

theorem rate_up_semantics_witness :
    (cic_rate_up ⟨1, 1, 0, 3, 0, [0, 0], false, false, 0, 0⟩
        [10, 11, 12, 13, 14, 15, 16, 17] 7 2).2 = 2 * 3 ∧
      (cic_rate_up ⟨1, 1, 0, 3, 0, [0, 0], false, false, 0, 0⟩
        [10, 11, 12, 13, 14, 15, 16, 17] 7 2).1.length = [10, 11, 12, 13, 14, 15, 16, 17].length ∧
      (cic_rate_up ⟨1, 1, 0, 3, 0, [0, 0], false, false, 0, 0⟩
        [10, 11, 12, 13, 14, 15, 16, 17] 7 2).1.getD (1 * 3) 0 =
        [10, 11, 12, 13, 14, 15, 16, 17].getD 1 0 ∧
      (cic_rate_up ⟨1, 1, 0, 3, 0, [0, 0], false, false, 0, 0⟩
        [10, 11, 12, 13, 14, 15, 16, 17] 7 2).1.getD (1 * 3 + 2) 0 = 0 ∧
      (cic_rate_up ⟨1, 1, 0, 3, 0, [0, 0], false, false, 0, 0⟩
        [10, 11, 12, 13, 14, 15, 16, 17] 7 2).1.getD 6 0 =
        [10, 11, 12, 13, 14, 15, 16, 17].getD 6 0 :=
  ⟨(rate_up_semantics ⟨1, 1, 0, 3, 0, [0, 0], false, false, 0, 0⟩
      [10, 11, 12, 13, 14, 15, 16, 17] 7 2 (by decide) (by decide) (by decide)).1,
    (rate_up_semantics ⟨1, 1, 0, 3, 0, [0, 0], false, false, 0, 0⟩
      [10, 11, 12, 13, 14, 15, 16, 17] 7 2 (by decide) (by decide) (by decide)).2.1,
    (rate_up_semantics ⟨1, 1, 0, 3, 0, [0, 0], false, false, 0, 0⟩
      [10, 11, 12, 13, 14, 15, 16, 17] 7 2 (by decide) (by decide) (by decide)).2.2.1 1
      (by decide),
    (rate_up_semantics ⟨1, 1, 0, 3, 0, [0, 0], false, false, 0, 0⟩
      [10, 11, 12, 13, 14, 15, 16, 17] 7 2 (by decide) (by decide) (by decide)).2.2.2.1 1 2
      (by decide) (by decide) (by decide),
    (rate_up_semantics ⟨1, 1, 0, 3, 0, [0, 0], false, false, 0, 0⟩
      [10, 11, 12, 13, 14, 15, 16, 17] 7 2 (by decide) (by decide) (by decide)).2.2.2.2 6
      (by decide)⟩

theorem wrap32_add_wrap32 (a b : Int) : wrap32 (wrap32 a + b) = wrap32 (a + b) := by
  unfold wrap32
  omega

theorem isum_eq_running_sum (u : List Int) : ∀ a : Int, isum a u = running_sum a u := by
  induction u with
  | nil => intro a; rfl
  | cons x xs ih =>
    intro a
    simp only [isum, ih, running_sum, List.length_cons, List.range_succ_eq_map, List.map_cons,
      List.map_map, List.take_succ_cons, List.sum_cons, List.take_zero, List.sum_nil]
    refine congrArg₂ _ (by rw [add_zero, add_comm]) ?_
    apply List.map_congr_left
    intro i _
    simp only [Function.comp]
    rw [wrap32_add_wrap32, add_comm x a, add_assoc]

theorem iacc_eq_getLastD (u : List Int) : ∀ a : Int, iacc a u = (isum a u).getLastD a := by
  induction u with
  | nil => intro a; rfl
  | cons x xs ih =>
    intro a
    simp only [iacc, isum, ih, List.getLastD_cons]

theorem runS_integ_eq_passes (as : List Int) : ∀ u : List Int,
    runS integ_acc as u = integrator_passes as u := by
  induction as with
  | nil => intro u; rw [runS_integ_nil]; rfl
  | cons a as ih =>
    intro u
    rw [runS_integ_cons, ih, iacc_eq_getLastD, isum_eq_running_sum]
    rfl

/-- C19: the integrator stage equals cascaded running sums. For every `N` and every block
of `len` samples, `cic_integrate` from the accumulators `a[0..N-1]` (the first `N` delay
slots) gives the output of `N` successive single-stage running-sum passes, leaves in
accumulator `s` the last value of pass `s` (the old value when the block is empty), and
changes neither the comb slots nor `mpos`, `cnt` or any other field; the buffer beyond
`len` is untouched. -/
theorem integrate_cascade (p : cic_filter) (buf : List Int) (len : Nat)
    (hN : p.N ≤ p.delay.length) (hlen : len ≤ buf.length) :
    cic_integrate p buf len =
        ({ p with
            delay := (integrator_passes (p.delay.take p.N) (buf.take len)).1 ++
              p.delay.drop p.N },
          (integrator_passes (p.delay.take p.N) (buf.take len)).2 ++ buf.drop len) ∧
      (cic_integrate p buf len).1.delay.drop p.N = p.delay.drop p.N ∧
      (cic_integrate p buf len).1.mpos = p.mpos ∧
      (cic_integrate p buf len).1.cnt = p.cnt := by
  have e := cic_integrate_eq p buf len hN hlen
  rw [runS_integ_eq_passes] at e
  refine ⟨e, ?_, rfl, rfl⟩
  rw [e]
  simp only
  have hl : (integrator_passes (p.delay.take p.N) (buf.take len)).1.length = p.N := by
    rw [← runS_integ_eq_passes, runS_integ_length]
    simp
    omega
  rw [List.drop_left' hl]

theorem integrate_cascade_witness :
    cic_integrate ⟨2, 1, 0, 3, 1, [5, -2, 9, 4], false, false, 0, 0⟩ [1, 2, 2147483647, 8] 3 =
        ({ (⟨2, 1, 0, 3, 1, [5, -2, 9, 4], false, false, 0, 0⟩ : cic_filter) with
            delay := (integrator_passes
                ((⟨2, 1, 0, 3, 1, [5, -2, 9, 4], false, false, 0, 0⟩ : cic_filter).delay.take 2)
                (([1, 2, 2147483647, 8] : List Int).take 3)).1 ++
              (⟨2, 1, 0, 3, 1, [5, -2, 9, 4], false, false, 0, 0⟩ : cic_filter).delay.drop 2 },
          (integrator_passes
              ((⟨2, 1, 0, 3, 1, [5, -2, 9, 4], false, false, 0, 0⟩ : cic_filter).delay.take 2)
              (([1, 2, 2147483647, 8] : List Int).take 3)).2 ++
            ([1, 2, 2147483647, 8] : List Int).drop 3) ∧
      (cic_integrate ⟨2, 1, 0, 3, 1, [5, -2, 9, 4], false, false, 0, 0⟩
          [1, 2, 2147483647, 8] 3).1.delay.drop 2 =
        (⟨2, 1, 0, 3, 1, [5, -2, 9, 4], false, false, 0, 0⟩ : cic_filter).delay.drop 2 ∧
      (cic_integrate ⟨2, 1, 0, 3, 1, [5, -2, 9, 4], false, false, 0, 0⟩
          [1, 2, 2147483647, 8] 3).1.mpos = 0 ∧
      (cic_integrate ⟨2, 1, 0, 3, 1, [5, -2, 9, 4], false, false, 0, 0⟩
          [1, 2, 2147483647, 8] 3).1.cnt = 1 :=
  integrate_cascade ⟨2, 1, 0, 3, 1, [5, -2, 9, 4], false, false, 0, 0⟩ [1, 2, 2147483647, 8] 3
    (by decide) (by decide)

theorem comb_calls_eq (cs : List (List Int × Nat)) : ∀ (p : cic_filter),
    p.N ≤ p.delay.length → (∀ c ∈ cs, c.2 ≤ c.1.length) →
    (comb_calls p cs).2 =
      (runS (comb_fn p.N p.M) (p.delay.drop p.N, p.mpos) (calls_input cs)).2 := by
  induction cs with
  | nil => intro p _ _; simp [comb_calls, calls_input, runS]
  | cons c cs ih =>
    intro p hN hc
    have hcs : calls_input (c :: cs) = c.1.take c.2 ++ calls_input cs := by
      simp [calls_input]
    have e := cic_comb_eq p c.1 c.2 hN (hc c (by simp))
    have hl : (runS (comb_fn p.N p.M) (p.delay.drop p.N, p.mpos) (c.1.take c.2)).2.length =
        c.2 := by
      rw [runS_length, List.length_take]
      exact Nat.min_eq_left (hc c (by simp))
    have ht : (p.delay.take p.N).length = p.N := by
      rw [List.length_take]; exact Nat.min_eq_left hN
    rw [hcs, runS_append]
    simp only [comb_calls]
    rw [ih (cic_comb p c.1 c.2).1 (by rw [e]; simp; omega)
      (fun c' h' => hc c' (List.mem_cons_of_mem _ h'))]
    rw [e]
    simp only
    rw [List.take_left' hl, List.drop_left' ht]

theorem wrap32_sub_wrap32 (a b : Int) : wrap32 (wrap32 a - wrap32 b) = wrap32 (a - b) := by
  unfold wrap32
  omega

theorem wrap32_zero : wrap32 0 = 0 := by decide

theorem sDw_iterate (M : Nat) (x : Nat → Int) : ∀ (N : Nat), 1 ≤ N → ∀ n,
    (sDw M)^[N] x n = wrap32 ((sD M)^[N] x n) := by
  intro N
  induction N with
  | zero => intro h; omega
  | succ N ih =>
    intro _ n
    rw [Function.iterate_succ_apply', Function.iterate_succ_apply']
    cases N with
    | zero => rfl
    | succ N =>
      have ih' := ih (by omega)
      show wrap32 ((sDw M)^[N + 1] x n - (if M ≤ n then (sDw M)^[N + 1] x (n - M) else 0)) =
        wrap32 ((sD M)^[N + 1] x n - (if M ≤ n then (sD M)^[N + 1] x (n - M) else 0))
      rw [ih' n]
      by_cases hM : M ≤ n
      · rw [if_pos hM, if_pos hM, ih' (n - M), wrap32_sub_wrap32]
      · rw [if_neg hM, if_neg hM]
        have := wrap32_sub_wrap32 ((sD M)^[N + 1] x n) 0
        rw [wrap32_zero] at this
        exact this

/-- C18: the comb stage equals cascaded delay-`M` differences. For `N ≥ 1` and
`M ∈ {1, 2}`, running `cic_comb` from an all-zero comb delay line with `mpos = 0` over a
stream fed in any chunking (the state, `mpos` included, written back at the end of each
block) gives at every index `n` the `N`-fold composition of the wrapped difference
`(Dx)[n] = x[n] - x[n - M]`, which is the 32-bit wrap of the `N`-fold composition of the
exact difference. -/
theorem comb_cascade (p : cic_filter) (calls : List (List Int × Nat)) (tail : List Int)
    (n : Nat) (hN : 1 ≤ p.N) (hM : p.M = 1 ∨ p.M = 2) (hlen : p.N ≤ p.delay.length)
    (hz : p.delay.drop p.N = List.replicate (p.N * p.M) 0 ++ tail) (hmpos : p.mpos = 0)
    (hcalls : ∀ c ∈ calls, c.2 ≤ c.1.length) (hn : n < (calls_input calls).length) :
    (comb_calls p calls).2.length = (calls_input calls).length ∧
      (comb_calls p calls).2.getD n 0 = (sDw p.M)^[p.N] (ofList (calls_input calls)) n ∧
      (comb_calls p calls).2.getD n 0 =
        wrap32 ((sD p.M)^[p.N] (ofList (calls_input calls)) n) := by
  have e := comb_calls_eq calls p hlen hcalls
  rw [hz, hmpos] at e
  have hT := comb_tracks p.M hM p.N (calls_input calls) tail _ (tracks_ofList _)
  have hR := comb_inRange p.N p.M hN (by omega) (List.replicate (p.N * p.M) 0 ++ tail, 0)
    (calls_input calls)
  have hl : (comb_calls p calls).2.length = (calls_input calls).length := by
    rw [e, runS_length]
  have hv : (comb_calls p calls).2.getD n 0 =
      wrap32 ((sD p.M)^[p.N] (ofList (calls_input calls)) n) := by
    rw [e]
    exact tracks_range_eq _ _ hT hR n (by rw [runS_length]; exact hn)
  exact ⟨hl, by rw [hv, sDw_iterate _ _ _ hN], hv⟩

theorem comb_cascade_witness :
    (comb_calls ⟨2, 2, 0, 3, 0, [7, 8, 0, 0, 0, 0], false, false, 0, 0⟩
        [([1, 2, 3, 99], 3), ([2147483647, -5], 2)]).2.length =
        (calls_input [([1, 2, 3, 99], 3), ([2147483647, -5], 2)]).length ∧
      (comb_calls ⟨2, 2, 0, 3, 0, [7, 8, 0, 0, 0, 0], false, false, 0, 0⟩
          [([1, 2, 3, 99], 3), ([2147483647, -5], 2)]).2.getD 4 0 =
        (sDw 2)^[2] (ofList (calls_input [([1, 2, 3, 99], 3), ([2147483647, -5], 2)])) 4 ∧
      (comb_calls ⟨2, 2, 0, 3, 0, [7, 8, 0, 0, 0, 0], false, false, 0, 0⟩
          [([1, 2, 3, 99], 3), ([2147483647, -5], 2)]).2.getD 4 0 =
        wrap32 ((sD 2)^[2]
          (ofList (calls_input [([1, 2, 3, 99], 3), ([2147483647, -5], 2)])) 4) :=
  comb_cascade ⟨2, 2, 0, 3, 0, [7, 8, 0, 0, 0, 0], false, false, 0, 0⟩
    [([1, 2, 3, 99], 3), ([2147483647, -5], 2)] [] 4 (by decide) (by decide) (by decide)
    (by decide) rfl (by decide) (by decide)

theorem sB_eq_moving_sum : ∀ (K : Nat), sB K = moving_sum K := by
  intro K
  induction K with
  | zero => funext x n; rfl
  | succ K ih =>
    funext x n
    simp only [sB, ih, moving_sum, List.range_succ, List.map_append, List.sum_append,
      List.map_cons, List.map_nil, List.sum_cons, List.sum_nil, add_zero]

/-- C15: Hogenauer equivalence of the decimator. For `N ≥ 1`, `M ∈ {1, 2}`, `R ≥ 1` and a
stream fed in any chunking to a freshly initialised filter with `normalize = false`, the
decimate calls return `ceil (T / R)` samples for `T` input samples, and the `k`-th output
sample is congruent modulo `2^32` to (and is the 32-bit wrap of) the value at index
`k * R` of the `N`-fold cascade of the moving sum of length `R * M` applied to the input. -/
theorem decimate_hogenauer (N M R : Nat) (delay : Option (List Int))
    (cic_malloc : Nat → Option (List Int)) (p : cic_filter) (calls : List (List Int × Nat))
    (k : Nat) (hN : 1 ≤ N) (hM : M = 1 ∨ M = 2) (hR : 1 ≤ R)
    (hinit : cic_filter_init N M R delay false cic_malloc = some p)
    (hcalls : ∀ c ∈ calls, c.2 ≤ c.1.length)
    (hk : k < ((calls_input calls).length + R - 1) / R) :
    (decimate_calls p calls).2.length = ((calls_input calls).length + R - 1) / R ∧
      k * R < (calls_input calls).length ∧
      (decimate_calls p calls).2.getD k 0 ≡
        (moving_sum (R * M))^[N] (ofList (calls_input calls)) (k * R) [ZMOD 4294967296] ∧
      (decimate_calls p calls).2.getD k 0 =
        wrap32 ((moving_sum (R * M))^[N] (ofList (calls_input calls)) (k * R)) := by
  obtain ⟨rfl, rfl, rfl, hnrm, hf, -, -⟩ := init_spec _ _ _ _ _ _ _ hinit
  rw [decimate_calls_eq calls p (fresh_delay_le p hf) hR hcalls, dec_fn_out, hnrm]
  simp only [Bool.false_eq_true, if_false]
  obtain ⟨hl, hg⟩ := dec_raw_fresh p (calls_input calls) hf hN hM hR
  obtain ⟨h1, h2⟩ := hg k (by rw [hl]; exact hk)
  rw [sB_eq_moving_sum] at h2
  refine ⟨hl, h1, ?_, h2⟩
  rw [h2]
  exact wrap32_modEq _

theorem decimate_hogenauer_witness :
    (decimate_calls ⟨2, 2, 0, 3, 0, List.replicate 6 0, false, false, 0, 0⟩
        [([1000000000, 2000000000, 3, 99], 3), ([2147483647, -5, 4, 8], 4)]).2.length =
        ((calls_input [([1000000000, 2000000000, 3, 99], 3),
          ([2147483647, -5, 4, 8], 4)]).length + 3 - 1) / 3 ∧
      2 * 3 < (calls_input [([1000000000, 2000000000, 3, 99], 3),
        ([2147483647, -5, 4, 8], 4)]).length ∧
      (decimate_calls ⟨2, 2, 0, 3, 0, List.replicate 6 0, false, false, 0, 0⟩
          [([1000000000, 2000000000, 3, 99], 3), ([2147483647, -5, 4, 8], 4)]).2.getD 2 0 ≡
        (moving_sum (3 * 2))^[2] (ofList (calls_input [([1000000000, 2000000000, 3, 99], 3),
          ([2147483647, -5, 4, 8], 4)])) (2 * 3) [ZMOD 4294967296] ∧
      (decimate_calls ⟨2, 2, 0, 3, 0, List.replicate 6 0, false, false, 0, 0⟩
          [([1000000000, 2000000000, 3, 99], 3), ([2147483647, -5, 4, 8], 4)]).2.getD 2 0 =
        wrap32 ((moving_sum (3 * 2))^[2]
          (ofList (calls_input [([1000000000, 2000000000, 3, 99], 3),
            ([2147483647, -5, 4, 8], 4)])) (2 * 3)) :=
  decimate_hogenauer 2 2 3 (some [5, 6, 7, 8, 9, 1]) (fun _ => none)
    ⟨2, 2, 0, 3, 0, List.replicate 6 0, false, false, 0, 0⟩
    [([1000000000, 2000000000, 3, 99], 3), ([2147483647, -5, 4, 8], 4)] 2
    (by decide) (by decide) (by decide) (by decide) (by decide) (by decide)

theorem pick_cnt_closed (r : Nat) (hr : 0 < r) : ∀ (n : Nat) (l : List Int), l.length ≤ n →
    pick_cnt r 0 l = (r - l.length % r) % r := by
  intro n
  induction n with
  | zero =>
    intro l h
    have : l = [] := List.length_eq_zero.mp (by omega)
    subst this
    simp [pick_cnt_nil]
  | succ n ih =>
    intro l h
    cases l with
    | nil => simp [pick_cnt_nil]
    | cons x xs =>
      simp only [pick_cnt, List.length_cons] at h ⊢
      by_cases hs : xs.length ≤ r - 1
      · rw [pick_cnt_over r _ _ hs]
        by_cases he : xs.length + 1 = r
        · rw [he, Nat.mod_self, Nat.sub_zero, Nat.mod_self]
          omega
        · rw [Nat.mod_eq_of_lt (by omega : xs.length + 1 < r),
            Nat.mod_eq_of_lt (by omega : r - (xs.length + 1) < r)]
          omega
      · rw [pick_cnt_skip r _ _ (by omega), ih _ (by rw [List.length_drop]; omega),
          List.length_drop]
        have e : xs.length + 1 = (xs.length - (r - 1)) + r := by omega
        rw [e, Nat.add_mod_right]

theorem calls_input_length (cs : List (List Int × Nat)) (h : ∀ c ∈ cs, c.2 ≤ c.1.length) :
    (calls_input cs).length = (cs.map Prod.snd).sum := by
  induction cs with
  | nil => rfl
  | cons c cs ih =>
    have hcs : calls_input (c :: cs) = c.1.take c.2 ++ calls_input cs := by
      simp [calls_input]
    rw [hcs, List.length_append, ih (fun c' h' => h c' (List.mem_cons_of_mem _ h')),
      List.length_take, Nat.min_eq_left (h c (by simp))]
    simp

theorem dec_fn_length (p : cic_filter) (xs : List Int) :
    (dec_fn p xs).2.length =
      (pick p.R p.cnt (runS integ_acc (p.delay.take p.N) xs).2).length := by
  unfold dec_fn
  by_cases hn : p.normalize = true
  · simp [hn, runS_length]
  · simp [hn, runS_length]

theorem decimate_state (p : cic_filter) (buf : List Int) (len : Nat)
    (hN : p.N ≤ p.delay.length) (hr : 0 < p.R) (hlen : len ≤ buf.length) :
    (cic_filter_decimate p buf len).1.N = p.N ∧ (cic_filter_decimate p buf len).1.R = p.R ∧
      (cic_filter_decimate p buf len).1.cnt =
        pick_cnt p.R p.cnt (runS integ_acc (p.delay.take p.N) (buf.take len)).2 ∧
      (cic_filter_decimate p buf len).1.delay.take p.N =
        (runS integ_acc (p.delay.take p.N) (buf.take len)).1 ∧
      p.N ≤ (cic_filter_decimate p buf len).1.delay.length := by
  have haI : (runS integ_acc (p.delay.take p.N) (buf.take len)).1.length = p.N := by
    rw [runS_integ_length]; simp; omega
  rw [(decimate_out p buf len hN hr hlen).1]
  unfold dec_fn
  refine ⟨rfl, rfl, rfl, ?_, ?_⟩
  · simp only [List.take_left' haI]
  · simp only [List.length_append, haI]
    omega

theorem decimate_rlens_sum (cs : List (List Int × Nat)) : ∀ (p : cic_filter),
    p.N ≤ p.delay.length → 0 < p.R → (∀ c ∈ cs, c.2 ≤ c.1.length) →
    (decimate_rlens p cs).sum = (dec_fn p (calls_input cs)).2.length := by
  induction cs with
  | nil =>
    intro p _ _ _
    simp [decimate_rlens, calls_input, dec_fn_length, runS, pick_nil]
  | cons c cs ih =>
    intro p hN hr hc
    obtain ⟨h1, -, h3⟩ := decimate_out p c.1 c.2 hN hr (hc c (by simp))
    obtain ⟨s1, s2, -, -, s5⟩ := decimate_state p c.1 c.2 hN hr (hc c (by simp))
    have hcs : calls_input (c :: cs) = c.1.take c.2 ++ calls_input cs := by
      simp [calls_input]
    rw [hcs, dec_fn_append _ _ _ hN]
    simp only [decimate_rlens, List.sum_cons, List.length_append]
    rw [ih _ (by rw [s1]; exact s5) (by rw [s2]; exact hr)
      (fun c' h' => hc c' (List.mem_cons_of_mem _ h')), h3, h1]

theorem decimate_trace (cs : List (List Int × Nat)) : ∀ (p : cic_filter),
    p.N ≤ p.delay.length → 0 < p.R → (∀ c ∈ cs, c.2 ≤ c.1.length) →
    decimate_integrated p cs = (runS integ_acc (p.delay.take p.N) (calls_input cs)).2 ∧
      decimate_kept p cs =
        pick p.R p.cnt (runS integ_acc (p.delay.take p.N) (calls_input cs)).2 := by
  induction cs with
  | nil =>
    intro p _ _ _
    simp [decimate_integrated, decimate_kept, calls_input, runS, pick_nil]
  | cons c cs ih =>
    intro p hN hr hc
    have hlen := hc c (by simp)
    obtain ⟨s1, s2, s3, s4, s5⟩ := decimate_state p c.1 c.2 hN hr hlen
    have hcs : calls_input (c :: cs) = c.1.take c.2 ++ calls_input cs := by
      simp [calls_input]
    obtain ⟨i1, i2⟩ := ih (cic_filter_decimate p c.1 c.2).1 (by rw [s1]; exact s5)
      (by rw [s2]; exact hr) (fun c' h' => hc c' (List.mem_cons_of_mem _ h'))
    rw [s1, s4] at i1 i2
    rw [s2, s3] at i2
    have hl : (runS integ_acc (p.delay.take p.N) (c.1.take c.2)).2.length = c.2 := by
      rw [runS_length, List.length_take]
      exact Nat.min_eq_left hlen
    have eI := cic_integrate_eq p c.1 c.2 hN hlen
    have hI2 : (cic_integrate p c.1 c.2).2.take c.2 =
        (runS integ_acc (p.delay.take p.N) (c.1.take c.2)).2 := by
      rw [eI]
      simp only
      rw [List.take_left' hl]
    have hIR : (cic_integrate p c.1 c.2).1.R = p.R := by rw [eI]
    have hIc : (cic_integrate p c.1 c.2).1.cnt = p.cnt := by rw [eI]
    have hIl : c.2 ≤ (cic_integrate p c.1 c.2).2.length := by
      rw [eI]
      simp only [List.length_append, hl]
      omega
    have eR := cic_rate_down_eq (cic_integrate p c.1 c.2).1 (cic_integrate p c.1 c.2).2 c.2
      (by rw [hIR]; exact hr) hIl
    rw [hcs, runS_append, pick_append]
    simp only [decimate_integrated, decimate_kept]
    rw [i1, i2, eR]
    simp only
    rw [List.take_left' rfl, hI2, hIR, hIc]
    exact ⟨rfl, rfl⟩

/-- C20: decimation phase bookkeeping. For `R ≥ 1` and decimate calls with chunk lengths
of total `T` on a freshly initialised filter, the returned lengths sum to `ceil (T / R)`,
the rate counter afterwards is `(R - T mod R) mod R`, and the samples kept by the rate
reduction are those at global indices `0, R, 2R, ...` of the stream that enters it. -/
theorem decimate_phase (N M R : Nat) (delay : Option (List Int)) (nrm : Bool)
    (cic_malloc : Nat → Option (List Int)) (p : cic_filter) (calls : List (List Int × Nat))
    (hR : 1 ≤ R) (hinit : cic_filter_init N M R delay nrm cic_malloc = some p)
    (hcalls : ∀ c ∈ calls, c.2 ≤ c.1.length) :
    (decimate_rlens p calls).sum = ((calls.map Prod.snd).sum + R - 1) / R ∧
      (decimate_calls p calls).1.cnt = (R - (calls.map Prod.snd).sum % R) % R ∧
      (decimate_integrated p calls).length = (calls.map Prod.snd).sum ∧
      (decimate_kept p calls).length = ((calls.map Prod.snd).sum + R - 1) / R ∧
      ∀ k, k < ((calls.map Prod.snd).sum + R - 1) / R →
        (decimate_kept p calls).getD k 0 = (decimate_integrated p calls).getD (k * R) 0 := by
  obtain ⟨rfl, rfl, rfl, -, hf, -, -⟩ := init_spec _ _ _ _ _ _ _ hinit
  have hN := fresh_delay_le p hf
  have hc : p.cnt = 0 := hf.2.1
  have hT := calls_input_length calls hcalls
  obtain ⟨t1, t2⟩ := decimate_trace calls p hN hR hcalls
  have hIl : (runS integ_acc (p.delay.take p.N) (calls_input calls)).2.length =
      (calls.map Prod.snd).sum := by rw [runS_length, hT]
  have hK : (pick p.R 0 (runS integ_acc (p.delay.take p.N) (calls_input calls)).2).length =
      ((calls.map Prod.snd).sum + p.R - 1) / p.R := by
    rw [pick_length p.R hR _ _ (Nat.le_refl _), hIl]
  refine ⟨?_, ?_, ?_, ?_, ?_⟩
  · rw [decimate_rlens_sum calls p hN hR hcalls, dec_fn_length, hc, hK]
  · rw [decimate_calls_eq calls p hN hR hcalls]
    show pick_cnt p.R p.cnt (runS integ_acc (p.delay.take p.N) (calls_input calls)).2 = _
    rw [hc, pick_cnt_closed p.R hR _ _ (Nat.le_refl _), hIl]
  · rw [t1, hIl]
  · rw [t2, hc, hK]
  · intro k hk
    rw [t2, t1, hc]
    exact (pick_getD p.R hR k (runS integ_acc (p.delay.take p.N) (calls_input calls)).2
      (by rw [hK]; exact hk)).2

theorem decimate_phase_witness :
    (decimate_rlens ⟨1, 2, 0, 3, 0, [0, 0, 0, 4], false, true, 6, 2⟩
        [([1, 2, 3, 4, 99], 4), ([5, 6, 7], 3), ([], 0), ([8], 1)]).sum =
        ((([([1, 2, 3, 4, 99], 4), ([5, 6, 7], 3), ([], 0), ([8], 1)] :
          List (List Int × Nat)).map Prod.snd).sum + 3 - 1) / 3 ∧
      (decimate_calls ⟨1, 2, 0, 3, 0, [0, 0, 0, 4], false, true, 6, 2⟩
          [([1, 2, 3, 4, 99], 4), ([5, 6, 7], 3), ([], 0), ([8], 1)]).1.cnt =
        (3 - (([([1, 2, 3, 4, 99], 4), ([5, 6, 7], 3), ([], 0), ([8], 1)] :
          List (List Int × Nat)).map Prod.snd).sum % 3) % 3 ∧
      (decimate_integrated ⟨1, 2, 0, 3, 0, [0, 0, 0, 4], false, true, 6, 2⟩
          [([1, 2, 3, 4, 99], 4), ([5, 6, 7], 3), ([], 0), ([8], 1)]).length =
        (([([1, 2, 3, 4, 99], 4), ([5, 6, 7], 3), ([], 0), ([8], 1)] :
          List (List Int × Nat)).map Prod.snd).sum ∧
      (decimate_kept ⟨1, 2, 0, 3, 0, [0, 0, 0, 4], false, true, 6, 2⟩
          [([1, 2, 3, 4, 99], 4), ([5, 6, 7], 3), ([], 0), ([8], 1)]).length =
        ((([([1, 2, 3, 4, 99], 4), ([5, 6, 7], 3), ([], 0), ([8], 1)] :
          List (List Int × Nat)).map Prod.snd).sum + 3 - 1) / 3 ∧
      (decimate_kept ⟨1, 2, 0, 3, 0, [0, 0, 0, 4], false, true, 6, 2⟩
          [([1, 2, 3, 4, 99], 4), ([5, 6, 7], 3), ([], 0), ([8], 1)]).getD 2 0 =
        (decimate_integrated ⟨1, 2, 0, 3, 0, [0, 0, 0, 4], false, true, 6, 2⟩
          [([1, 2, 3, 4, 99], 4), ([5, 6, 7], 3), ([], 0), ([8], 1)]).getD (2 * 3) 0 :=
  have h := decimate_phase 1 2 3 (some [9, 9, 9, 4]) true (fun _ => none)
    ⟨1, 2, 0, 3, 0, [0, 0, 0, 4], false, true, 6, 2⟩
    [([1, 2, 3, 4, 99], 4), ([5, 6, 7], 3), ([], 0), ([8], 1)] (by decide) (by decide)
    (by decide)
  ⟨h.1, h.2.1, h.2.2.1, h.2.2.2.1, h.2.2.2.2 2 (by decide)⟩

end CIC
